import Mathlib

/-!
Shallow embedding of the `hikeandfly` backend core (Rust) in Lean 4, together
with proofs checking the natural-language specification against the code.

Source files embedded:
* `src/backend-rust/src/pqueue.rs`   — index-keyed binary min-heap (`PQ` namespace)
* `src/backend-rust/src/search.rs`   — reachability search (`Srch` namespace)
* `src/backend-rust/src/height_data.rs` — tile loading / void patching (`Hgt` namespace)

Modelling conventions:
* `f32` values are modelled by `ℝ` (exact real arithmetic); the sentinel
  `f32::INFINITY` used for the effective glide ratio is modelled by `Option ℝ`
  with `none` standing for the infinite value.
* `i16` elevation samples are modelled by `ℤ`.
* Rust `Vec` backing stores become `List`; out-of-bounds `get_unchecked`
  accesses (all guarded by the code's own invariants) become `List.getD`.
* The `positions` map (`MapLike`) is keyed through `KeyIx.kix`, mirroring
  `FakeHashMapForGrid` which indexes its dense array by `key.ix`, and the
  `PartialEq` impl of `GridIx` which compares only the `ix` field.
* Unbounded loops become structurally/well-founded recursions; the search main
  loop and the reference-chain walk take an explicit fuel argument.
-/

noncomputable section

/-- Key types used with the priority queue expose the integer used to index the
positions map (`FakeHashMapForGrid` indexes by `key.ix`; plain integer keys
index by themselves). -/
class KeyIx (K : Type) where
  kix : K → ℕ

instance : KeyIx ℕ := ⟨id⟩

namespace PQ

/-- `HeapNode` from pqueue.rs; `item` is the priority value (`V` is always its
own priority in the uses that matter: `f32` in the search, `usize` in tests). -/
structure HeapNode (P K : Type) where
  item : P
  key : K

instance [Inhabited P] [Inhabited K] : Inhabited (HeapNode P K) :=
  ⟨⟨default, default⟩⟩

/-- `PriorityQueue` from pqueue.rs: a binary min-heap plus a positions map
sending each key index to the heap slot currently holding that key. -/
structure PQueue (P K : Type) where
  heap : List (HeapNode P K)
  positions : ℕ → Option ℕ

variable {P K : Type}

/-- Functional update of the positions map (`MapLike::set` / `insert`). -/
def posSet (f : ℕ → Option ℕ) (k v : ℕ) : ℕ → Option ℕ :=
  fun j => if j = k then some v else f j

/-- `MapLike::remove_entry`. -/
def posRemove (f : ℕ → Option ℕ) (k : ℕ) : ℕ → Option ℕ :=
  fun j => if j = k then none else f j

/-- Read heap slot `i` (`get_unchecked`; all source accesses are in bounds). -/
def getN [Inhabited P] [Inhabited K] (l : List (HeapNode P K)) (i : ℕ) :
    HeapNode P K :=
  l.getD i default

/-- In-place swap of two heap slots (`std::ptr::swap`). -/
def swapL [Inhabited P] [Inhabited K] (l : List (HeapNode P K)) (i j : ℕ) :
    List (HeapNode P K) :=
  (l.set i (getN l j)).set j (getN l i)

variable [LinearOrder P] [Inhabited P] [Inhabited K] [KeyIx K]

open KeyIx

/-- The loop of `siftup`: `key`/`priority` are the moving element's key and
priority, read once before the loop as in the source. Structural fuel
recursion; since the index strictly decreases, a fuel of `ix + 1` makes the
function identical to the unbounded source loop. -/
def siftupGo (key : K) (priority : P) : ℕ → ℕ → PQueue P K → PQueue P K × ℕ
  | 0, ix, q => (q, ix)
  | fuel + 1, ix, q =>
    if 0 < ix then
      let pix := (ix - 1) / 2
      let parent := getN q.heap pix
      if parent.item ≤ priority then (q, ix)
      else
        siftupGo key priority fuel pix
          ⟨swapL q.heap ix pix, posSet q.positions (kix parent.key) ix⟩
    else (q, ix)

/-- `PriorityQueue::siftup`: returns the queue and the final index of the
moving element. -/
def siftup (q : PQueue P K) (ix : ℕ) : PQueue P K × ℕ :=
  let nd := getN q.heap ix
  let r := siftupGo nd.key nd.item (ix + 1) ix q
  (⟨r.1.heap, posSet r.1.positions (kix nd.key) r.2⟩, r.2)

/-- The loop of `siftdown`: `endIx` is the heap length (fixed for the loop),
`nk`/`np` the moving element's key and priority. Structural fuel recursion;
the index strictly increases and stays below `endIx`, so a fuel of `endIx`
makes the function identical to the unbounded source loop. -/
def siftdownGo (endIx : ℕ) (nk : K) (np : P) :
    ℕ → ℕ → PQueue P K → PQueue P K × ℕ
  | 0, ix, q => (q, ix)
  | fuel + 1, ix, q =>
    if 2 * ix + 1 < endIx then
      let childIx0 := 2 * ix + 1
      let rightIx := childIx0 + 1
      let childIx :=
        if rightIx < endIx ∧ (getN q.heap rightIx).item < (getN q.heap childIx0).item
        then rightIx else childIx0
      let child := getN q.heap childIx
      if np ≤ child.item then (q, ix)
      else
        siftdownGo endIx nk np fuel childIx
          ⟨swapL q.heap ix childIx, posSet q.positions (kix child.key) ix⟩
    else (q, ix)

/-- `PriorityQueue::siftdown`. -/
def siftdown (q : PQueue P K) (ix : ℕ) : PQueue P K × ℕ :=
  let nd := getN q.heap ix
  let r := siftdownGo q.heap.length nd.key nd.item q.heap.length ix q
  (⟨r.1.heap, posSet r.1.positions (kix nd.key) r.2⟩, r.2)

/-- `PriorityQueue::push`. Note: no check whatsoever that the key is absent. -/
def PQueue.push (q : PQueue P K) (key : K) (item : P) : PQueue P K :=
  let heap' := q.heap ++ [⟨item, key⟩]
  let ix := heap'.length - 1
  (siftup ⟨heap', posSet q.positions (kix key) ix⟩ ix).1

/-- `PriorityQueue::pop`: returns the root element and the remaining queue. -/
def PQueue.pop (q : PQueue P K) : Option (HeapNode P K × PQueue P K) :=
  let len := q.heap.length
  if len = 0 then none
  else
    let heapSw := swapL q.heap 0 (len - 1)
    let element := getN heapSw (len - 1)
    let heap' := heapSw.dropLast
    let pos' := posRemove q.positions (kix element.key)
    if len = 1 then some (element, ⟨heap', pos'⟩)
    else
      let pos2 := posSet pos' (kix (getN heap' 0).key) 0
      some (element, (siftdown ⟨heap', pos2⟩ 0).1)

/-- `PriorityQueue::update_priority_if_less` (the `_unsafe` variant used by the
search behaves identically when the key is present; absence, which the source
treats as a precondition violation, is modelled by `none`). Returns `none`
when no update happened. -/
def PQueue.updatePriorityIfLess (q : PQueue P K) (key : K) (priority : P) :
    Option (PQueue P K) :=
  match q.positions (kix key) with
  | none => none
  | some ix =>
    let node := getN q.heap ix
    if node.item ≤ priority then none
    else some (siftup ⟨q.heap.set ix ⟨priority, node.key⟩, q.positions⟩ ix).1

/-- `PriorityQueue::contains_key` (via `MapLike::contains_key`). -/
def PQueue.containsKey (q : PQueue P K) (key : K) : Bool :=
  (q.positions (kix key)).isSome

/-- `PriorityQueue::new` / `new_with_map` with an empty positions map. -/
def PQueue.empty : PQueue P K := ⟨[], fun _ => none⟩

/-- The binary min-heap ordering property of the backing array. -/
def heapProp (l : List (HeapNode P K)) : Prop :=
  ∀ i, 0 < i → i < l.length → (getN l ((i - 1) / 2)).item ≤ (getN l i).item

/-- Every positions entry points inside the heap, at a slot holding a key of
the entry's key class (`kix`-equivalence; with distinct keys this is exact). -/
def classCoh (q : PQueue P K) : Prop :=
  ∀ n i, q.positions n = some i →
    i < q.heap.length ∧ kix (getN q.heap i).key = n

/-- Every heap slot is pointed to by the positions entry of its key.
Together with `classCoh` this makes `positions` an exact inverse of the heap
(and forces the key classes in the heap to be distinct). -/
def posExact (q : PQueue P K) : Prop :=
  ∀ i, i < q.heap.length → q.positions (kix (getN q.heap i).key) = some i

/-- The invariant maintained by arbitrary queue operation sequences. -/
def QInv (q : PQueue P K) : Prop :=
  heapProp q.heap ∧ classCoh q

/-- Heap ordering everywhere except on the edge into slot `ix` (the state
during sift-up, where only the moving element may be below its parent). -/
def almostHeapUp (l : List (HeapNode P K)) (ix : ℕ) : Prop :=
  ∀ c, 0 < c → c < l.length → c ≠ ix →
    (getN l ((c - 1) / 2)).item ≤ (getN l c).item

/-- Heap ordering everywhere except on the edges out of slot `ix` (the state
during sift-down, where only the moving element may be above its children). -/
def almostHeapDown (l : List (HeapNode P K)) (ix : ℕ) : Prop :=
  ∀ c, 0 < c → c < l.length → (c - 1) / 2 ≠ ix →
    (getN l ((c - 1) / 2)).item ≤ (getN l c).item

/-- The children of slot `ix` fit below `ix`'s parent, so that the parent can
move across `ix` during a sift (vacuous at the root). -/
def bridgeAt (l : List (HeapNode P K)) (ix : ℕ) : Prop :=
  ∀ c, 0 < c → c < l.length → (c - 1) / 2 = ix → 0 < ix →
    (getN l ((ix - 1) / 2)).item ≤ (getN l c).item

/-- `classCoh` weakened at one key class `κ` (the element moving during a
sift, whose positions entry is refreshed only after the loop). -/
def cohX (q : PQueue P K) (κ : ℕ) : Prop :=
  ∀ n i, q.positions n = some i →
    i < q.heap.length ∧ (kix (getN q.heap i).key = n ∨ n = κ)

/-- `posExact` weakened at one heap slot `ix` (the moving element's slot). -/
def exactX (q : PQueue P K) (ix : ℕ) : Prop :=
  ∀ i, i < q.heap.length → i ≠ ix →
    q.positions (kix (getN q.heap i).key) = some i

/-- The key classes stored in the heap are pairwise distinct. -/
def nodupKeys (l : List (HeapNode P K)) : Prop :=
  (l.map fun nd => kix nd.key).Nodup

/-- A queue operation, as issued by clients: `push`, `pop`, or
`update_priority_if_less`. -/
inductive QOp (P K : Type) where
  | push (key : K) (item : P)
  | pop
  | updLess (key : K) (item : P)

/-- Run one operation. `pop` on an empty queue and a no-op `update` leave the
queue unchanged (the source returns `None` in both cases); `update` of an
absent key is the source's precondition violation, modelled as `none`. -/
def runOp (q : PQueue P K) : QOp P K → Option (PQueue P K)
  | .push k p => some (q.push k p)
  | .pop =>
    match q.pop with
    | none => some q
    | some (_, q') => some q'
  | .updLess k p =>
    if q.containsKey k then
      match q.updatePriorityIfLess k p with
      | none => some q
      | some q' => some q'
    else none

/-- Run a list of operations from a queue state. -/
def runOps (q : PQueue P K) : List (QOp P K) → Option (PQueue P K)
  | [] => some q
  | op :: rest => (runOp q op).bind fun q' => runOps q' rest

/-- Drain the queue by repeated `pop`, collecting the popped elements. The
fuel `q.heap.length` is exact because every `pop` removes one element. -/
def popListGo : ℕ → PQueue P K → List (HeapNode P K)
  | 0, _ => []
  | fuel + 1, q =>
    match q.pop with
    | none => []
    | some (e, q') => e :: popListGo fuel q'

/-- The full pop order of a queue. -/
def popList (q : PQueue P K) : List (HeapNode P K) :=
  popListGo q.heap.length q

/-- Push keys `0, …, N-1` (a permutation `l` of them) with priority equal to
the key, as in the spec's priority-queue stress scenario. -/
def pushAll (l : List ℕ) : PQueue ℕ ℕ :=
  l.foldl (fun q k => q.push k k) PQueue.empty

instance : Inhabited (PQueue P K) := ⟨PQueue.empty⟩

/-- A concrete queue for exercising the pop-order theorem: keys 0 and 1 with
priorities 3 and 2. -/
def popOrderQ : PQueue ℕ ℕ := (PQueue.empty.push 0 3).push 1 2

/-- First pop of `popOrderQ`. -/
def popOrderX : HeapNode ℕ ℕ := (popOrderQ.pop.getD default).1

/-- Queue after the first pop of `popOrderQ`. -/
def popOrderQ1 : PQueue ℕ ℕ := (popOrderQ.pop.getD default).2

/-- Second pop of `popOrderQ`. -/
def popOrderY : HeapNode ℕ ℕ := (popOrderQ1.pop.getD default).1

/-- A concrete queue holding key 5, for exercising duplicate pushes. -/
def dupQ : PQueue ℕ ℕ := PQueue.empty.push 5 1

end PQ

namespace Srch

/-- `GridIx` from search.rs: a grid position together with its flat offset.
The source `PartialEq` compares only `ix`; all embedded comparisons and map
accesses go through `ix` accordingly. -/
structure GridIx where
  pos : ℕ × ℕ
  ix : ℕ

instance : Inhabited GridIx := ⟨⟨(0, 0), 0⟩⟩

instance : KeyIx GridIx := ⟨GridIx.ix⟩

/-- `GridIx::from_grid`. -/
def fromGrid (pos : ℕ × ℕ) (gridShape : ℕ × ℕ) : GridIx :=
  ⟨pos, pos.1 * gridShape.2 + pos.2⟩

/-- `to_ix` from search.rs (flat offset to `GridIx`). -/
def toIx (gridShape : ℕ × ℕ) (index : ℕ) : GridIx :=
  ⟨(index / gridShape.2, index % gridShape.2), index⟩

/-- `Node` from search.rs. -/
structure Node where
  height : ℝ
  ix : GridIx
  reference : Option GridIx
  distance : ℝ
  reachable : Bool
  explored : Bool

/-- `Node::new`. -/
def Node.new : Node :=
  { height := 0, ix := ⟨(0, 0), 0⟩, reference := none, distance := 0,
    reachable := false, explored := false }

instance : Inhabited Node := ⟨Node.new⟩

/-- `HeightGrid` from height_data.rs, restricted to the fields the search
reads: the dense elevation array (as a function of row and column), the grid
shape, and the metric cell size. -/
structure HeightGrid where
  heights : ℕ → ℕ → ℤ
  shape : ℕ × ℕ
  cell_size : ℝ

/-- `SearchQuery` from search.rs. The field `glide` embeds the source field
`glide_ratio` (fall per unit of forward travel). -/
structure SearchQuery where
  glide : ℝ
  trim_speed : ℝ
  wind_direction : ℝ
  wind_speed : ℝ
  start_height : Option ℝ
  additional_height : ℝ
  safety_margin : ℝ
  start_distance : ℝ

/-- `SearchConfig` from search.rs. -/
structure SearchConfig where
  grid : HeightGrid
  query : SearchQuery

/-- `SearchConfig::get_safety_margin_at_distance`. -/
def getSafetyMarginAtDistance (cfg : SearchConfig) (distance : ℝ) : ℝ :=
  if distance < cfg.query.start_distance then 0 else cfg.query.safety_margin

/-- The `explored` map (`GridMap`): the source stores a dense `Vec<Node>`
indexed by the flat offset; we model it as a total function on offsets. -/
def Explored : Type := ℕ → Node

/-- `GridMap::new`: every slot holds a default node carrying its own index. -/
def gridMapNew (gridShape : ℕ × ℕ) : Explored :=
  fun i => { Node.new with ix := toIx gridShape i }

/-- `GridMap::insert` (overwrite a whole record). -/
def exploredSet (m : Explored) (ix : GridIx) (v : Node) : Explored :=
  fun i => if i = ix.ix then v else m i

/-- Field-wise mutation of the record at `ix` through the `&mut Node` the
source obtains from `get_unchecked_mut`. -/
def exploredInsert (m : Explored) (ix : GridIx) (f : Node → Node) : Explored :=
  fun i => if i = ix.ix then f (m ix.ix) else m i

/-- `SearchState` from search.rs. -/
structure SearchState where
  explored : Explored
  queue : PQ.PQueue ℝ GridIx

/-- `get_neighbor_indices` from search.rs (rook neighbours, in source order:
up, left, down, right). -/
def getNeighborIndices (ix : GridIx) (grid : HeightGrid) : List GridIx :=
  (if 0 < ix.pos.1 then [fromGrid (ix.pos.1 - 1, ix.pos.2) grid.shape] else []) ++
  (if 0 < ix.pos.2 then [fromGrid (ix.pos.1, ix.pos.2 - 1) grid.shape] else []) ++
  (if ix.pos.1 < grid.shape.1 - 1 then [fromGrid (ix.pos.1 + 1, ix.pos.2) grid.shape] else []) ++
  (if ix.pos.2 < grid.shape.2 - 1 then [fromGrid (ix.pos.1, ix.pos.2 + 1) grid.shape] else [])

/-- `l2_distance` from search.rs. -/
def l2Distance (a b : ℕ × ℕ) : ℝ :=
  Real.sqrt (((a.1 : ℝ) - (b.1 : ℝ)) ^ 2 + ((a.2 : ℝ) - (b.2 : ℝ)) ^ 2)

/-- `l2_diff` from search.rs. -/
def l2Diff (a b : ℕ × ℕ) : ℤ × ℤ :=
  ((a.1 : ℤ) - (b.1 : ℤ), (a.2 : ℤ) - (b.2 : ℤ))

/-- `EffectiveGlide` from search.rs. The field `egr` embeds the source field
`glide_ratio`; the sentinel `f32::INFINITY` is modelled by `none`. -/
structure EffectiveGlide where
  speed : ℝ
  egr : Option ℝ

/-- `get_effective_glide_ratio` from search.rs. -/
def getEffectiveGlideRatio (effectiveWindAngle windSpeed trimSpeed glide : ℝ) :
    EffectiveGlide :=
  let sideWind := Real.sin effectiveWindAngle * windSpeed
  let backWind := Real.cos effectiveWindAngle * windSpeed
  let rs := trimSpeed * trimSpeed - sideWind * sideWind
  if rs ≤ 0 then ⟨0, none⟩
  else
    let restSpeed := Real.sqrt rs
    let effectiveSpeed := restSpeed + backWind
    if effectiveSpeed ≤ 0 then ⟨0, none⟩
    else ⟨effectiveSpeed, some (glide / (effectiveSpeed / trimSpeed))⟩

/-- `f32::atan2` (principal value in `(-π, π]`), via the complex argument. -/
def atan2 (y x : ℝ) : ℝ := Complex.arg ⟨x, y⟩

/-- `get_effective_glide_ratio_from_to` from search.rs. -/
def getEffectiveGlideRatioFromTo (query : SearchQuery) (start finish : ℕ × ℕ) :
    EffectiveGlide :=
  if query.wind_speed = 0 then ⟨query.trim_speed, some query.glide⟩
  else
    let diff := l2Diff finish start
    let angle := atan2 (diff.1 : ℝ) (diff.2 : ℝ)
    let effectiveWindAngle := (-query.wind_direction + Real.pi / 2) - angle
    getEffectiveGlideRatio effectiveWindAngle query.wind_speed query.trim_speed
      query.glide

/-- `is_straight` from search.rs. -/
def isStraight (a b : ℕ × ℕ) : Bool :=
  a.1 == b.1 || a.2 == b.2

/-- `is_in_line` from search.rs. -/
def isInLine (point start finish : ℕ × ℕ) : Bool :=
  if point.1 == start.1 && point.1 == finish.1 then
    decide (min start.2 finish.2 ≤ point.2) && decide (point.2 ≤ max start.2 finish.2)
  else if point.2 == start.2 && point.2 == finish.2 then
    decide (min start.1 finish.1 ≤ point.1) && decide (point.1 ≤ max start.1 finish.1)
  else false

/-- `get_straight_line_ref` from search.rs, with explicit fuel for the chain
walk (in any state the search produces, reference chains are finite, so a fuel
of at least the grid size makes the walk identical to the source loop). -/
def getStraightLineRef : ℕ → GridIx → Node → Explored → Node
  | 0, _, n, _ => n
  | fuel + 1, ix, n, explored =>
    match n.reference with
    | none => n
    | some reference =>
      if isStraight reference.pos ix.pos then
        getStraightLineRef fuel ix (explored reference.ix) explored
      else n

/-- Fuel used for `getStraightLineRef`: the number of grid cells, an upper
bound on the length of any acyclic reference chain. -/
def chainFuel (cfg : SearchConfig) : ℕ := cfg.grid.shape.1 * cfg.grid.shape.2

/-- `f32_usize` from search.rs (`x.round() as u16` on non-negative input). -/
def f32Usize (x : ℝ) : ℕ := (⌊x + 1 / 2⌋).toNat

/-- `ndarray::linspace`: `n` evenly spaced samples, endpoint included. -/
def linspaceR (a b : ℝ) (n : ℕ) : List ℝ :=
  let step := if 1 < n then (b - a) / ((n - 1 : ℕ) : ℝ) else 0
  (List.range n).map fun i => a + step * (i : ℝ)

/-- The middle loop of `is_line_intersecting` (segment straddling
`start_distance`): walks the samples accumulating `cur_distance`. -/
def middleLoop (cfg : SearchConfig) : ℝ → ℝ → List ((ℝ × ℝ) × ℝ) → Bool
  | _, _, [] => false
  | cur, step, s :: rest =>
    let gridHeight := (cfg.grid.heights (f32Usize s.1.1) (f32Usize s.1.2) : ℝ)
    let checkHeight :=
      if cur < cfg.query.start_distance then s.2 else s.2 - cfg.query.safety_margin
    if checkHeight < gridHeight then true else middleLoop cfg (cur + step) step rest

/-- `is_line_intersecting` from search.rs. -/
def isLineIntersecting (toN : Node) (ix : GridIx) (cfg : SearchConfig) : Bool :=
  let effectiveGlide := getEffectiveGlideRatioFromTo cfg.query ix.pos toN.ix.pos
  match effectiveGlide.egr with
  | none => true
  | some gr =>
    let length := l2Distance toN.ix.pos ix.pos
    let iLen := (⌈length⌉).toNat
    let xIndices := linspaceR (toN.ix.pos.1 : ℝ) (ix.pos.1 : ℝ) iLen
    let yIndices := linspaceR (toN.ix.pos.2 : ℝ) (ix.pos.2 : ℝ) iLen
    let distance := length * cfg.grid.cell_size
    let realHeights := linspaceR toN.height (toN.height - distance * gr) iLen
    let samples := (xIndices.zip yIndices).zip realHeights
    if cfg.query.safety_margin = 0 ∨ toN.distance + distance ≤ cfg.query.start_distance then
      samples.any fun s =>
        decide (s.2 < (cfg.grid.heights (f32Usize s.1.1) (f32Usize s.1.2) : ℝ))
    else if toN.distance < cfg.query.start_distance ∧
        toN.distance + distance > cfg.query.start_distance then
      middleLoop cfg toN.distance (distance / ((iLen - 1 : ℕ) : ℝ)) samples
    else
      samples.any fun s =>
        decide (s.2 - cfg.query.safety_margin <
          (cfg.grid.heights (f32Usize s.1.1) (f32Usize s.1.2) : ℝ))

/-- `put_or_update` from search.rs: advances the queue and reports whether the
caller received a `&mut Node` to overwrite. -/
def putOrUpdate (st : SearchState) (ix : GridIx) (distance : ℝ) :
    SearchState × Bool :=
  if st.queue.containsKey ix then
    match st.queue.updatePriorityIfLess ix distance with
    | some q => ({ st with queue := q }, true)
    | none => (st, false)
  else ({ st with queue := st.queue.push ix distance }, true)

/-- `put_node` from search.rs. -/
def putNode (st : SearchState) (node : Node) : SearchState :=
  if st.queue.containsKey node.ix then
    match st.queue.updatePriorityIfLess node.ix node.distance with
    | some q => { explored := exploredSet st.explored node.ix node, queue := q }
    | none => st
  else
    { explored := exploredSet st.explored node.ix node,
      queue := st.queue.push node.ix node.distance }

/-- `Option<GridIx>` equality as derived in the source (`GridIx` compares by
`ix` only). -/
def optEqIx : Option GridIx → Option GridIx → Bool
  | none, none => true
  | some a, some b => a.ix == b.ix
  | _, _ => false

/-- `ref_paths_intersection` from search.rs. -/
def refPathsIntersection (ix1 : GridIx) (ref1 : Option GridIx) (ix2 : GridIx)
    (ref2 : Option GridIx) : Option GridIx :=
  if optEqIx ref1 ref2 then ref1
  else
    match ref1, ref2 with
    | _, none => none
    | none, _ => none
    | some a, some b =>
      if isStraight ix1.pos a.pos ∧ isInLine b.pos ix1.pos a.pos then ref2
      else if isStraight ix2.pos b.pos ∧ isInLine a.pos ix2.pos b.pos then ref1
      else none

/-- The tail of `update_one_neighbor` after the reference has been selected:
effective glide, distance, straight-line collapsing, and the proposal commit. -/
def updateOneCommit (reference : Node) (ix : GridIx) (cfg : SearchConfig)
    (st : SearchState) : SearchState :=
  let effectiveGlide := getEffectiveGlideRatioFromTo cfg.query ix.pos reference.ix.pos
  let distance := l2Distance ix.pos reference.ix.pos * cfg.grid.cell_size
  match effectiveGlide.egr with
  | none => st
  | some gr =>
    let totalDistance := distance + reference.distance
    let straightLineRef := (getStraightLineRef (chainFuel cfg) ix reference st.explored).ix
    let refHeight := reference.height
    let pu := putOrUpdate st ix totalDistance
    if pu.2 then
      let height := refHeight - distance * gr
      let gridHeight := (cfg.grid.heights ix.pos.1 ix.pos.2 : ℝ)
      let safetyMargin := getSafetyMarginAtDistance cfg totalDistance
      let reachable := decide (gridHeight + safetyMargin < height)
      { pu.1 with explored := exploredInsert pu.1.explored ix fun old =>
          { old with
            height := height
            reference := some straightLineRef
            distance := totalDistance
            reachable := reachable } }
    else pu.1

/-- The reference-selection logic of `update_one_neighbor` (without the early
return, which `updateOneNeighbor` handles separately). -/
def selectReference (ix : GridIx) (cfg : SearchConfig) (st : SearchState)
    (neighbor : Node) (doCheck : Bool) : Node :=
  if neighbor.reference.isSome = true ∧
      (cfg.query.wind_speed ≥ cfg.query.trim_speed ∨ doCheck = true) then
    let reference := st.explored (neighbor.reference.getD default).ix
    if isLineIntersecting reference ix cfg then neighbor else reference
  else neighbor

/-- The early-return test inside `update_one_neighbor`'s reference branch. -/
def earlyRefReturn (ix : GridIx) (st : SearchState) (reference : Node) : Bool :=
  st.queue.containsKey ix &&
    (match (st.explored ix.ix).reference with
     | some ar => ar.ix == reference.ix.ix
     | none => false)

/-- `update_one_neighbor` from search.rs. -/
def updateOneNeighbor (neighborIx ix : GridIx) (cfg : SearchConfig)
    (st : SearchState) (doIntersectionCheckOpt : Option Bool) : SearchState :=
  let doCheck := doIntersectionCheckOpt.getD false
  let neighbor := st.explored neighborIx.ix
  if neighbor.reachable = false then st
  else if (neighbor.reference.isSome = true ∧
        (cfg.query.wind_speed ≥ cfg.query.trim_speed ∨ doCheck = true)) ∧
      earlyRefReturn ix st (st.explored (neighbor.reference.getD default).ix) = true
    then st
  else updateOneCommit (selectReference ix cfg st neighbor doCheck) ix cfg st

/-- `update_two_with_different_references` from search.rs. -/
def updateTwoWithDifferentReferences (n1 n2 ix : GridIx) (cfg : SearchConfig)
    (st : SearchState) : SearchState :=
  updateOneNeighbor n2 ix cfg (updateOneNeighbor n1 ix cfg st (some true)) (some true)

/-- `update_two_neighbors` from search.rs. -/
def updateTwoNeighbors (neighbor1Ix neighbor2Ix ix : GridIx) (cfg : SearchConfig)
    (st : SearchState) : SearchState :=
  let n1 := st.explored neighbor1Ix.ix
  let n2 := st.explored neighbor2Ix.ix
  if n1.reachable = true ∧ n2.reachable = true then
    match refPathsIntersection n1.ix n1.reference n2.ix n2.reference with
    | some rpi =>
      if st.queue.containsKey ix = true ∧
          optEqIx (st.explored ix.ix).reference (some rpi) = true then st
      else
        let distance := l2Distance ix.pos rpi.pos * cfg.grid.cell_size
        let effectiveGlide := getEffectiveGlideRatioFromTo cfg.query ix.pos rpi.pos
        match effectiveGlide.egr with
        | none => st
        | some gr =>
          let rpiNode := st.explored rpi.ix
          let totalDistance := distance + rpiNode.distance
          let rpiHeight := rpiNode.height
          let pu := putOrUpdate st ix totalDistance
          if pu.2 then
            let height := rpiHeight - distance * gr
            let gridHeight := (cfg.grid.heights ix.pos.1 ix.pos.2 : ℝ)
            let reachable :=
              decide (gridHeight + getSafetyMarginAtDistance cfg totalDistance < height)
            { pu.1 with explored := exploredInsert pu.1.explored ix fun old =>
                { old with
                  height := height
                  reference := some rpi
                  distance := totalDistance
                  reachable := reachable } }
          else pu.1
    | none => updateTwoWithDifferentReferences neighbor1Ix neighbor2Ix ix cfg st
  else if n1.reachable = true then updateOneNeighbor neighbor1Ix ix cfg st none
  else if n2.reachable = true then updateOneNeighbor neighbor2Ix ix cfg st none
  else st

/-- Read the `i`-th entry of a node list (`Vec` indexing). -/
def nodeAt (l : List Node) (i : ℕ) : Node := l.getD i default

/-- The size of the `HashSet` of the neighbours' references, compared by the
flat `ix` as in the source (`x.reference.map(|y| y.ix)`). -/
def refSetLen (l : List Node) : ℕ :=
  ((l.map fun x => x.reference.map GridIx.ix).dedup).length

/-- The source's `sort_by(distance partial_cmp)` (a stable sort, as `Vec::sort_by`). -/
def sortByDistance (l : List Node) : List Node :=
  l.mergeSort fun x y => decide (x.distance ≤ y.distance)

/-- The explored rook neighbours of a cell, as `update_node` computes them. -/
def exploredNbrs (ix : GridIx) (cfg : SearchConfig) (st : SearchState) :
    List GridIx :=
  (getNeighborIndices ix cfg.grid).filter fun x => (st.explored x.ix).explored

/-- The reachable nodes among a list of (explored) neighbour indices, as
`update_three_neighbors` / `update_four_neighbors` compute them. -/
def reachableOf (l : List GridIx) (st : SearchState) : List Node :=
  (l.map fun x => st.explored x.ix).filter fun x => x.reachable

/-- `update_three_neighbors` from search.rs. -/
def updateThreeNeighbors (exploredNeighbors : List GridIx) (ix : GridIx)
    (cfg : SearchConfig) (st : SearchState) : SearchState :=
  let reachable := reachableOf exploredNeighbors st
  if reachable.length = 1 then
    updateOneNeighbor (nodeAt reachable 0).ix ix cfg st none
  else if reachable.length = 2 then
    updateTwoNeighbors (nodeAt reachable 0).ix (nodeAt reachable 1).ix ix cfg st
  else if reachable.length = 3 then
    if refSetLen reachable = 3 then
      let sorted := sortByDistance reachable
      let r1 := (nodeAt sorted 0).ix
      let r2 := (nodeAt sorted 1).ix
      let r3 := (nodeAt sorted 2).ix
      updateOneNeighbor r3 ix cfg
        (updateOneNeighbor r2 ix cfg (updateOneNeighbor r1 ix cfg st none) none) none
    else if refSetLen reachable = 2 then
      let r1 := (nodeAt reachable 0).ix
      let r2 := (nodeAt reachable 1).ix
      let r3 := (nodeAt reachable 2).ix
      if optEqIx (nodeAt reachable 0).reference (nodeAt reachable 1).reference then
        updateOneNeighbor r3 ix cfg (updateTwoNeighbors r1 r2 ix cfg st) none
      else if optEqIx (nodeAt reachable 0).reference (nodeAt reachable 2).reference then
        updateOneNeighbor r2 ix cfg (updateTwoNeighbors r1 r3 ix cfg st) none
      else
        updateOneNeighbor r1 ix cfg (updateTwoNeighbors r2 r3 ix cfg st) none
    else st
  else st

/-- `update_four_neighbors` from search.rs. -/
def updateFourNeighbors (exploredNeighbors : List GridIx) (ix : GridIx)
    (cfg : SearchConfig) (st : SearchState) : SearchState :=
  let reachable := reachableOf exploredNeighbors st
  if reachable.length = 0 then
    let pu := putOrUpdate st ix 0
    if pu.2 then
      { pu.1 with explored := exploredInsert pu.1.explored ix fun old =>
          { old with
            height := 0
            reference := none
            distance := 0
            reachable := false } }
    else pu.1
  else if reachable.length < 4 then
    updateThreeNeighbors exploredNeighbors ix cfg st
  else if reachable.length = 4 then
    if refSetLen reachable = 4 then
      let sorted := sortByDistance reachable
      updateOneNeighbor (nodeAt sorted 0).ix ix cfg st none
    else st
  else st

/-- `update_node` from search.rs. -/
def updateNode (ix : GridIx) (cfg : SearchConfig) (st : SearchState) :
    SearchState :=
  let exploredNeighbors := exploredNbrs ix cfg st
  if exploredNeighbors.length = 1 then
    updateOneNeighbor (exploredNeighbors.getD 0 default) ix cfg st none
  else if exploredNeighbors.length = 2 then
    updateTwoNeighbors (exploredNeighbors.getD 0 default)
      (exploredNeighbors.getD 1 default) ix cfg st
  else if exploredNeighbors.length = 3 then
    updateThreeNeighbors exploredNeighbors ix cfg st
  else if exploredNeighbors.length = 4 then
    updateFourNeighbors exploredNeighbors ix cfg st
  else st

/-- Set the `explored` flag of the record at `k` (`explored.get_unchecked_mut(&first.key).explored = true`). -/
def markExplored (m : Explored) (k : GridIx) : Explored :=
  exploredInsert m k fun old => { old with explored := true }

/-- One iteration of the `search` main loop, after the pop: mark the popped
cell explored and relax its unexplored rook neighbours. -/
def searchIter (cfg : SearchConfig) (first : PQ.HeapNode ℝ GridIx)
    (st : SearchState) : SearchState :=
  let st1 : SearchState := { st with explored := markExplored st.explored first.key }
  (getNeighborIndices first.key cfg.grid).foldl
    (fun s n => if (s.explored n.ix).explored = true then s else updateNode n cfg s)
    st1

/-- The `while let Some(first) = queue.pop()` loop of `search`, with fuel;
`none` models non-termination within the given fuel. -/
def searchLoop (cfg : SearchConfig) : ℕ → SearchState → Option SearchState
  | 0, st =>
    match st.queue.pop with
    | none => some st
    | some _ => none
  | fuel + 1, st =>
    match st.queue.pop with
    | none => some st
    | some (first, q') => searchLoop cfg fuel (searchIter cfg first { st with queue := q' })

/-- The initial state of `search`: start node pushed with distance 0. -/
def initState (start : ℕ × ℕ) (height : ℝ) (cfg : SearchConfig) : SearchState :=
  putNode { explored := gridMapNew cfg.grid.shape, queue := PQ.PQueue.empty }
    { height := height, ix := fromGrid start cfg.grid.shape, reference := none,
      distance := 0, reachable := true, explored := false }

/-- `search` from search.rs, with fuel for the main loop. -/
def searchF (fuel : ℕ) (start : ℕ × ℕ) (height : ℝ) (cfg : SearchConfig) :
    Option SearchState :=
  searchLoop cfg fuel (initState start height cfg)

/-! Concrete configurations and states used to exercise the claims. -/

/-- A benign query: glide 1/2, trim speed 1, no wind, no safety margin. -/
def calmQuery : SearchQuery :=
  { glide := 1 / 2, trim_speed := 1, wind_direction := 0, wind_speed := 0,
    start_height := none, additional_height := 0, safety_margin := 0,
    start_distance := 0 }

/-- A flat 3×3 grid with cell size 1. -/
def flatGrid3 : HeightGrid := { heights := fun _ _ => 0, shape := (3, 3), cell_size := 1 }

/-- Search configuration over the flat 3×3 grid. -/
def cfg3 : SearchConfig := { grid := flatGrid3, query := calmQuery }

/-- The centre cell of the 3×3 grid. -/
def centreT : GridIx := fromGrid (1, 1) (3, 3)

/-- An explored, reachable neighbour whose reference is cell (0,0). -/
def sharedRefNbr (pos : ℕ × ℕ) : Node :=
  { height := 4, ix := fromGrid pos (3, 3), reference := some (fromGrid (0, 0) (3, 3)),
    distance := 1, reachable := true, explored := true }

/-- State with exactly three explored neighbours of the centre, all reachable
and all sharing the reference (0,0); the queue is empty. -/
def threeSharedSt : SearchState :=
  { explored := fun i =>
      if i = 1 then sharedRefNbr (0, 1)
      else if i = 3 then sharedRefNbr (1, 0)
      else if i = 5 then sharedRefNbr (1, 2)
      else gridMapNew (3, 3) i,
    queue := PQ.PQueue.empty }

/-- An explored but unreachable neighbour at (0,1). -/
def unreachNbr (pos : ℕ × ℕ) : Node :=
  { height := 0, ix := fromGrid pos (3, 3), reference := none, distance := 0,
    reachable := false, explored := true }

/-- State where the centre cell has exactly one explored neighbour, which is
unreachable; the queue is empty. -/
def oneUnreachSt : SearchState :=
  { explored := fun i =>
      if i = 1 then unreachNbr (0, 1) else gridMapNew (3, 3) i,
    queue := PQ.PQueue.empty }

/-- State where all four neighbours of the centre cell are explored and
unreachable; the queue is empty. -/
def fourUnreachSt : SearchState :=
  { explored := fun i =>
      if i = 1 then unreachNbr (0, 1)
      else if i = 3 then unreachNbr (1, 0)
      else if i = 5 then unreachNbr (1, 2)
      else if i = 7 then unreachNbr (2, 1)
      else gridMapNew (3, 3) i,
    queue := PQ.PQueue.empty }

/-- A strong-wind query: trim speed 1, wind speed 2 blowing from the east
(wind_direction π/2), making westward travel infeasible. -/
def stormQuery : SearchQuery :=
  { glide := 1 / 2, trim_speed := 1, wind_direction := Real.pi / 2, wind_speed := 2,
    start_height := none, additional_height := 0, safety_margin := 0,
    start_distance := 0 }

/-- A flat 1×2 grid with cell size 1. -/
def flatGrid12 : HeightGrid :=
  { heights := fun _ _ => 0, shape := (1, 2), cell_size := 1 }

/-- Search configuration with the strong east wind on the 1×2 grid. -/
def stormCfg : SearchConfig := { grid := flatGrid12, query := stormQuery }

/-- Reachable explored node at (0,0) of the 1×2 grid, with no reference. -/
def stormNbr : Node :=
  { height := 10, ix := fromGrid (0, 0) (1, 2), reference := none, distance := 0,
    reachable := true, explored := true }

/-- State for the infeasible-move scenario: (0,0) explored and reachable, the
cell (0,1) about to be relaxed from it against the wind. -/
def stormSt : SearchState :=
  { explored := fun i => if i = 0 then stormNbr else gridMapNew (1, 2) i,
    queue := PQ.PQueue.empty }

/-- A flat 3×2 grid (3 rows, 2 columns) with cell size 1. -/
def flatGrid32 : HeightGrid :=
  { heights := fun _ _ => 0, shape := (3, 2), cell_size := 1 }

/-- Calm configuration over the 3×2 grid. -/
def collapseCfg : SearchConfig := { grid := flatGrid32, query := calmQuery }

/-- The ancestor node A at (0,1): explored, reachable, the search start. -/
def collapseA : Node :=
  { height := 10, ix := fromGrid (0, 1) (3, 2), reference := none, distance := 0,
    reachable := true, explored := true }

/-- The neighbour n at (2,0): explored, reachable, referencing A with the
consistent distance `√5` and height `10 - √5/2` (cell size 1, glide 1/2). -/
def collapseN : Node :=
  { height := 10 - Real.sqrt 5 / 2, ix := fromGrid (2, 0) (3, 2),
    reference := some (fromGrid (0, 1) (3, 2)), distance := Real.sqrt 5,
    reachable := true, explored := true }

/-- State for the straight-line-collapsing scenario: A and n explored and
mutually consistent, the cell T = (2,1) about to be relaxed from n (its only
explored neighbour); the queue is empty. -/
def collapseSt : SearchState :=
  { explored := fun i =>
      if i = 1 then collapseA
      else if i = 4 then collapseN
      else gridMapNew (3, 2) i,
    queue := PQ.PQueue.empty }

/-- The cell T = (2,1) of the 3×2 grid. -/
def collapseT : GridIx := fromGrid (2, 1) (3, 2)

/-- Two search configurations that differ at most in `wind_direction`, in calm
air (`wind_speed = 0`): the scenario of the wind-rotation symmetry claim. -/
def calmAgree (cfg1 cfg2 : SearchConfig) : Prop :=
  cfg1.query.wind_speed = 0 ∧
  cfg2.grid = cfg1.grid ∧
  cfg2.query = { cfg1.query with wind_direction := cfg2.query.wind_direction }

/-- The calm configuration of the 3×2 grid with a rotated wind direction. -/
def collapseCfgRot : SearchConfig :=
  { grid := flatGrid32, query := { calmQuery with wind_direction := 1 } }

/-- A well-formed grid key: in-bounds coordinates, with the flat offset
actually computed from them (as every `GridIx` built by `from_grid` is). -/
def keyWF (cfg : SearchConfig) (k : GridIx) : Prop :=
  k.pos.1 < cfg.grid.shape.1 ∧ k.pos.2 < cfg.grid.shape.2 ∧
  k.ix = k.pos.1 * cfg.grid.shape.2 + k.pos.2

/-- The search-loop invariant: the queue is a coherent duplicate-free binary
heap whose keys are well-formed and point at unexplored cells. -/
def SInv (cfg : SearchConfig) (st : SearchState) : Prop :=
  PQ.heapProp st.queue.heap ∧ PQ.classCoh st.queue ∧ PQ.posExact st.queue ∧
  PQ.nodupKeys st.queue.heap ∧
  ∀ nd ∈ st.queue.heap, keyWF cfg nd.key ∧ (st.explored nd.key.ix).explored = false

/-- The flat offsets currently stored in the queue. -/
def classesOf (q : PQ.PQueue ℝ GridIx) : List ℕ :=
  q.heap.map fun nd => nd.key.ix

/-- The number of grid cells that are unexplored and not in the queue. -/
def unqueuedCount (cfg : SearchConfig) (st : SearchState) : ℕ :=
  ((List.range (cfg.grid.shape.1 * cfg.grid.shape.2)).filter
    (fun i => !(st.explored i).explored && (st.queue.positions i).isNone)).length

/-- The loop measure: queue size plus unexplored-unqueued cells. Every loop
iteration decreases it by exactly one. -/
def smeasure (cfg : SearchConfig) (st : SearchState) : ℕ :=
  st.queue.heap.length + unqueuedCount cfg st

/-- What one relaxation (`update_node` and each of its parts) guarantees:
the invariant is kept, the measure is unchanged, and no `explored` flag moves. -/
def RelaxPost (cfg : SearchConfig) (s s1 : SearchState) : Prop :=
  SInv cfg s1 ∧ smeasure cfg s1 = smeasure cfg s ∧
  (∀ i, (s1.explored i).explored = (s.explored i).explored)

/-- The reference invariant: every record carries its own index, and every
stored reference points at a cell whose record is reachable and explored. -/
def refOK (m : Explored) : Prop :=
  (∀ i, (m i).ix.ix = i) ∧
  (∀ i r, (m i).reference = some r →
    (m r.ix).reachable = true ∧ (m r.ix).explored = true)

/-- What one relaxation guarantees for the reference invariant: it is kept,
and no `explored` flag moves. -/
def RefPost (s s1 : SearchState) : Prop :=
  refOK s1.explored ∧ (∀ i, (s1.explored i).explored = (s.explored i).explored)

/-- A flat 1×1 grid with cell size 1. -/
def flatGrid11 : HeightGrid :=
  { heights := fun _ _ => 0, shape := (1, 1), cell_size := 1 }

/-- Calm configuration over the 1×1 grid (a search with no relaxations). -/
def cfg11 : SearchConfig := { grid := flatGrid11, query := calmQuery }

/-- The final state of the trivial 1×1-grid search (it terminates in one
iteration, so fuel 1 suffices). -/
def c9res : SearchState :=
  (searchF 1 (0, 0) 10 cfg11).getD ⟨fun _ => Node.new, PQ.PQueue.empty⟩

end Srch

namespace Hgt

/-- `HGT_SIZE` from height_data.rs. -/
def hgtSize : ℕ := 3601

/-- One iteration of the void-patching loop in `load_hgt` (height_data.rs,
the loader used by `get_height_data_around_point`): `acc` is `result_vec` so
far, `r0` the freshly decoded sample. The truncating `ℕ` subtractions differ
from Rust `usize` arithmetic only in branches that are unreachable (they fire
only when `acc` is empty, where their length guards fail for `S = 3601`). -/
def patchValue (S : ℕ) (acc : List ℤ) (r0 : ℤ) : Option ℤ :=
  let n := acc.length
  let r1 := if r0 < -1000 ∧ 1 ≤ n then acc.getD (n - 1) 0 else r0
  let r2 := if r1 < -1000 ∧ S ≤ n then acc.getD (n - S - 1) 0 else r1
  let r3 := if r2 < -1000 ∧ S - 1 ≤ n then acc.getD (n - S) 0 else r2
  let r4 := if r3 < -1000 ∧ S + 1 ≤ n then acc.getD (n - S - 2) 0 else r3
  if r4 < -1000 then none else some r4

/-- The decoding loop of `load_hgt` over the stream of samples; `none` models
the `panic!` on an unpatchable void. -/
def loadHgtGo (S : ℕ) (acc : List ℤ) : List ℤ → Option (List ℤ)
  | [] => some acc
  | r :: rest =>
    match patchValue S acc r with
    | none => none
    | some v => loadHgtGo S (acc ++ [v]) rest

/-- The void-patching part of `load_hgt` from height_data.rs, applied to the
already-decoded row-major sample stream. -/
def loadHgt (S : ℕ) (input : List ℤ) : Option (List ℤ) :=
  loadHgtGo S [] input

/-- The void-patching rule exactly as the specification sentence states it:
each value below −1000 is replaced by the first available neighbour among
left, above, above-right, above-left (in that order), reading already patched
values; if no neighbour is available the load fails. Stated over the same flat
row-major stream as `loadHgt` for direct comparison. -/
def claimedPatchValue (S : ℕ) (acc : List ℤ) (r0 : ℤ) : Option ℤ :=
  let n := acc.length
  let x := n / S
  let y := n % S
  if r0 < -1000 then
    if 0 < y then some (acc.getD (n - 1) 0)
    else if 0 < x then some (acc.getD (n - S) 0)
    else if 0 < x ∧ y < S - 1 then some (acc.getD (n - S + 1) 0)
    else if 0 < x ∧ 0 < y then some (acc.getD (n - S - 1) 0)
    else none
  else some r0

/-- The fold of `claimedPatchValue` over the sample stream (the loader the
specification describes). -/
def claimedLoadGo (S : ℕ) (acc : List ℤ) : List ℤ → Option (List ℤ)
  | [] => some acc
  | r :: rest =>
    match claimedPatchValue S acc r with
    | none => none
    | some v => claimedLoadGo S (acc ++ [v]) rest

/-- The whole-tile patching the specification claims for tile load. -/
def claimedLoad (S : ℕ) (input : List ℤ) : Option (List ℤ) :=
  claimedLoadGo S [] input

/-- The first row of a tile whose second row starts with a void: value 7 at
(0,0), zeros in between, value 9 at (0,3600). -/
def c4row0 : List ℤ := 7 :: (List.replicate 3599 0 ++ [9])

/-- A full 3601×3601 tile: row 0 as in `c4row0`, a void (−32768) at (1,0),
zeros everywhere else. -/
def c4input : List ℤ :=
  c4row0 ++ ([-32768] ++ List.replicate (hgtSize * hgtSize - 3602) 0)

end Hgt

/-! ### Priority-queue lemmas -/

namespace PQ

section Lemmas

variable {P K : Type} [Inhabited P] [Inhabited K]

theorem getN_cons_zero (x : HeapNode P K) (xs : List (HeapNode P K)) :
    getN (x :: xs) 0 = x := rfl

theorem getN_cons_succ (x : HeapNode P K) (xs : List (HeapNode P K)) (k : ℕ) :
    getN (x :: xs) (k + 1) = getN xs k := rfl

theorem getN_of_lt (l : List (HeapNode P K)) (i : ℕ) (h : i < l.length) :
    getN l i = l.get ⟨i, h⟩ := by
  simp [getN, List.getD_eq_getElem?_getD, List.getElem?_eq_getElem h]

@[simp] theorem swapL_length (l : List (HeapNode P K)) (i j : ℕ) :
    (swapL l i j).length = l.length := by simp [swapL]

theorem getN_set_self (l : List (HeapNode P K)) (i : ℕ) (v : HeapNode P K)
    (h : i < l.length) : getN (l.set i v) i = v := by
  simp [getN, List.getD_eq_getElem?_getD, List.getElem?_set_self h]

theorem getN_set_ne (l : List (HeapNode P K)) (i k : ℕ) (v : HeapNode P K)
    (h : i ≠ k) : getN (l.set i v) k = getN l k := by
  simp [getN, List.getD_eq_getElem?_getD, List.getElem?_set_ne h]

theorem getN_swapL (l : List (HeapNode P K)) (i j k : ℕ)
    (hi : i < l.length) (hj : j < l.length) :
    getN (swapL l i j) k =
      if k = j then getN l i else if k = i then getN l j else getN l k := by
  unfold swapL
  by_cases hkj : k = j
  · subst hkj
    simp only [if_pos rfl]
    exact getN_set_self _ _ _ (by simpa using hj)
  · rw [getN_set_ne _ _ _ _ (fun h => hkj h.symm), if_neg hkj]
    by_cases hki : k = i
    · subst hki
      simp only [if_pos rfl]
      exact getN_set_self _ _ _ hi
    · rw [getN_set_ne _ _ _ _ (fun h => hki h.symm), if_neg hki]

theorem getN_append_lt (l l' : List (HeapNode P K)) (i : ℕ) (h : i < l.length) :
    getN (l ++ l') i = getN l i := by
  simp [getN, List.getD_eq_getElem?_getD, List.getElem?_append_left h]

theorem getN_append_len (l : List (HeapNode P K)) (x : HeapNode P K) :
    getN (l ++ [x]) l.length = x := by
  simp [getN, List.getD_eq_getElem?_getD]

theorem getN_dropLast (l : List (HeapNode P K)) (i : ℕ)
    (h : i < l.length - 1) : getN l.dropLast i = getN l i := by
  simp only [getN, List.getD_eq_getElem?_getD]
  rw [List.getElem?_dropLast, if_pos (by simpa using h)]

theorem getN_cons_set_perm (x : HeapNode P K) :
    ∀ (xs : List (HeapNode P K)) (j : ℕ), j < xs.length →
      (getN xs j :: xs.set j x).Perm (x :: xs)
  | [], j, h => by simp at h
  | y :: ys, 0, _ => by
    simpa [getN_cons_zero] using List.Perm.swap x y ys
  | y :: ys, j + 1, h => by
    have hj : j < ys.length := by simpa using h
    have e1 : getN (y :: ys) (j + 1) :: (y :: ys).set (j + 1) x
        = getN ys j :: y :: ys.set j x := by simp [getN_cons_succ]
    rw [e1]
    have p1 : (getN ys j :: y :: ys.set j x).Perm (y :: getN ys j :: ys.set j x) :=
      List.Perm.swap _ _ _
    have p2 : (y :: getN ys j :: ys.set j x).Perm (y :: x :: ys) :=
      (getN_cons_set_perm x ys j hj).cons y
    have p3 : (y :: x :: ys).Perm (x :: y :: ys) := List.Perm.swap _ _ _
    exact (p1.trans p2).trans p3

theorem swapL_perm :
    ∀ (l : List (HeapNode P K)) (i j : ℕ), i < l.length → j < l.length →
      (swapL l i j).Perm l
  | [], i, _, hi, _ => by simp at hi
  | x :: xs, 0, 0, _, _ => by
    simp [swapL, getN_cons_zero]
  | x :: xs, 0, j + 1, _, hj => by
    have hj' : j < xs.length := by simpa using hj
    have : swapL (x :: xs) 0 (j + 1) = getN xs j :: xs.set j x := by
      simp [swapL, getN_cons_succ, getN_cons_zero]
    rw [this]
    exact getN_cons_set_perm x xs j hj'
  | x :: xs, i + 1, 0, hi, _ => by
    have hi' : i < xs.length := by simpa using hi
    have : swapL (x :: xs) (i + 1) 0 = getN xs i :: xs.set i x := by
      simp [swapL, getN_cons_succ, getN_cons_zero]
    rw [this]
    exact getN_cons_set_perm x xs i hi'
  | x :: xs, i + 1, j + 1, hi, hj => by
    have hi' : i < xs.length := by simpa using hi
    have hj' : j < xs.length := by simpa using hj
    have : swapL (x :: xs) (i + 1) (j + 1) = x :: swapL xs i j := by
      simp [swapL, getN_cons_succ]
    rw [this]
    exact (swapL_perm xs i j hi' hj').cons x

end Lemmas

section HeapLemmas

variable {P K : Type} [LinearOrder P] [Inhabited P] [Inhabited K] [KeyIx K]

open KeyIx

theorem nodup_class_inj {l : List (HeapNode P K)} (h : nodupKeys l) {i j : ℕ}
    (hi : i < l.length) (hj : j < l.length)
    (he : kix (getN l i).key = kix (getN l j).key) : i = j := by
  have hmap : ∀ t (ht : t < l.length),
      (l.map fun nd => kix nd.key).get ⟨t, by simpa using ht⟩ = kix (getN l t).key := by
    intro t ht
    simp [List.get_map, getN_of_lt _ _ ht]
  have := @List.Nodup.get_inj_iff _ _ h ⟨i, by simpa using hi⟩
    ⟨j, by simpa using hj⟩
  rw [hmap i hi, hmap j hj] at this
  simpa using this.mp he

theorem nodupKeys_of_perm {l l' : List (HeapNode P K)} (hp : l.Perm l')
    (h : nodupKeys l) : nodupKeys l' := by
  unfold nodupKeys at h ⊢
  exact ((hp.map _).nodup_iff).mp h

theorem siftupGo_spec (key : K) (p : P) :
    ∀ (fuel ix : ℕ) (q : PQueue P K),
      ix < fuel → ix < q.heap.length →
      (getN q.heap ix).item = p → kix (getN q.heap ix).key = kix key →
      almostHeapUp q.heap ix → bridgeAt q.heap ix → cohX q (kix key) →
      (siftupGo key p fuel ix q).1.heap.Perm q.heap ∧
      (siftupGo key p fuel ix q).2 < q.heap.length ∧
      (getN (siftupGo key p fuel ix q).1.heap (siftupGo key p fuel ix q).2).item = p ∧
      kix (getN (siftupGo key p fuel ix q).1.heap (siftupGo key p fuel ix q).2).key
        = kix key ∧
      heapProp (siftupGo key p fuel ix q).1.heap ∧
      cohX (siftupGo key p fuel ix q).1 (kix key) ∧
      (nodupKeys q.heap → exactX q ix →
        exactX (siftupGo key p fuel ix q).1 (siftupGo key p fuel ix q).2) := by
  intro fuel
  induction fuel with
  | zero => intro ix q h1; exact absurd h1 (Nat.not_lt_zero ix)
  | succ f ih =>
    intro ix q hfuel hix hitem hkey halmost hbridge hcoh
    by_cases h0 : 0 < ix
    case neg =>
      have hix0 : ix = 0 := by omega
      subst hix0
      simp only [siftupGo, if_neg h0]
      refine ⟨.refl _, hix, hitem, hkey, ?_, hcoh, fun _ hx => hx⟩
      intro c hc hcl
      exact halmost c hc hcl (by omega)
    case pos =>
      have hpixd : (ix - 1) / 2 ≤ ix - 1 := Nat.div_le_self _ _
      have hpixlt : (ix - 1) / 2 < ix := by omega
      have hpixlen : (ix - 1) / 2 < q.heap.length := by omega
      by_cases hcmp : (getN q.heap ((ix - 1) / 2)).item ≤ p
      · simp only [siftupGo, if_pos h0, if_pos hcmp]
        refine ⟨.refl _, hix, hitem, hkey, ?_, hcoh, fun _ hx => hx⟩
        intro c hc hcl
        by_cases hcix : c = ix
        · subst hcix; rw [hitem]; exact hcmp
        · exact halmost c hc hcl hcix
      · simp only [siftupGo, if_pos h0, if_neg hcmp]
        set pix := (ix - 1) / 2 with hpixdef
        set q' : PQueue P K :=
          ⟨swapL q.heap ix pix,
           posSet q.positions (kix (getN q.heap pix).key) ix⟩ with hq2def
        have hlen' : q'.heap.length = q.heap.length := swapL_length _ _ _
        have hswapperm : q'.heap.Perm q.heap := swapL_perm _ _ _ hix hpixlen
        have hA' : ∀ k, getN q'.heap k =
            if k = pix then getN q.heap ix
            else if k = ix then getN q.heap pix
            else getN q.heap k :=
          fun k => getN_swapL q.heap ix pix k hix hpixlen
        have hplt : p < (getN q.heap pix).item := lt_of_not_le hcmp
        -- hypotheses for the recursive call
        have hfuel' : pix < f := by omega
        have hix' : pix < q'.heap.length := by omega
        have hitem' : (getN q'.heap pix).item = p := by
          rw [hA']; simp [hitem]
        have hkey' : kix (getN q'.heap pix).key = kix key := by
          rw [hA']; simp [hkey]
        have halmost' : almostHeapUp q'.heap pix := by
          intro c hc hcl hcpix
          have hcl0 : c < q.heap.length := by omega
          rw [hA', hA']
          by_cases hcix : c = ix
        -- c = ix: its parent is pix
          · subst hcix
            have : (c - 1) / 2 = pix := hpixdef.symm
            rw [if_pos this, if_neg (by omega : ¬ c = pix), if_pos rfl, hitem]
            exact le_of_lt hplt
          · have hAc : (if c = pix then getN q.heap ix
                else if c = ix then getN q.heap pix else getN q.heap c)
                = getN q.heap c := by
              rw [if_neg hcpix, if_neg hcix]
            rw [hAc]
            by_cases hpc : (c - 1) / 2 = pix
            · rw [if_pos hpc, hitem]
              have h1 : (getN q.heap ((c - 1) / 2)).item ≤ (getN q.heap c).item :=
                halmost c hc hcl0 hcix
              rw [hpc] at h1
              exact le_trans (le_of_lt hplt) h1
            · rw [if_neg hpc]
              by_cases hpcix : (c - 1) / 2 = ix
              · rw [if_pos hpcix]
                exact hbridge c hc hcl0 hpcix h0
              · rw [if_neg hpcix]
                exact halmost c hc hcl0 hcix
        have hbridge' : bridgeAt q'.heap pix := by
          intro c hc hcl hpc hpix0
          have hcl0 : c < q.heap.length := by omega
          have hgp_lt : (pix - 1) / 2 < pix := by
            have := Nat.div_le_self (pix - 1) 2; omega
          have hgpne : ¬ (pix - 1) / 2 = pix := by omega
          have hgpneix : ¬ (pix - 1) / 2 = ix := by omega
          have hcgt : pix < c := by
            have := Nat.div_le_self (c - 1) 2; omega
          rw [hA', hA', if_neg hgpne, if_neg hgpneix]
          have hstep : (getN q.heap ((pix - 1) / 2)).item ≤ (getN q.heap pix).item :=
            halmost pix hpix0 hpixlen (by omega)
          by_cases hcix : c = ix
          · subst hcix
            rw [if_neg (by omega : ¬ c = pix), if_pos rfl]
            exact hstep
          · rw [if_neg (by omega : ¬ c = pix), if_neg hcix]
            have h2 : (getN q.heap ((c - 1) / 2)).item ≤ (getN q.heap c).item :=
              halmost c hc hcl0 hcix
            rw [hpc] at h2
            exact le_trans hstep h2
        have hcoh' : cohX q' (kix key) := by
          intro n i hni
          simp only [hq2def, posSet] at hni
          by_cases hn : n = kix (getN q.heap pix).key
          · rw [if_pos hn] at hni
            cases hni
            refine ⟨by omega, Or.inl ?_⟩
            rw [hA', if_neg (by omega : ¬ ix = pix), if_pos rfl, hn]
          · rw [if_neg hn] at hni
            obtain ⟨hilen, hclass⟩ := hcoh n i hni
            refine ⟨by omega, ?_⟩
            rcases hclass with hcl | hck
            · by_cases hipix : i = pix
              · exact absurd (by rw [← hcl, hipix]) hn
              · by_cases hiix : i = ix
                · subst hiix
                  rw [← hcl, hkey]
                  exact Or.inr rfl
                · rw [hA', if_neg hipix, if_neg hiix]
                  exact Or.inl hcl
            · exact Or.inr hck
        have hnodup' : nodupKeys q.heap → nodupKeys q'.heap := fun h =>
          nodupKeys_of_perm hswapperm.symm h
        have hexact' : nodupKeys q.heap → exactX q ix → exactX q' pix := by
          intro hnd hex i hi hipix
          rw [hlen'] at hi
          by_cases hiix : i = ix
          · have hval : getN q'.heap i = getN q.heap pix := by
              rw [hA', hiix, if_neg (by omega : ¬ ix = pix), if_pos rfl]
            rw [hval]
            simp only [hq2def, posSet]
            simp [hiix]
          · rw [hA', if_neg hipix, if_neg hiix]
            simp only [hq2def, posSet]
            rw [if_neg ?hne]
            case hne =>
              intro heq
              exact hipix (nodup_class_inj hnd hi hpixlen heq)
            exact hex i hi hiix
        obtain ⟨c1, c2, c3, c4, c5, c6, c7⟩ :=
          ih pix q' hfuel' hix' hitem' hkey' halmost' hbridge' hcoh'
        refine ⟨c1.trans hswapperm, by omega, c3, c4, c5, c6, fun hnd hex =>
          c7 (hnodup' hnd) (hexact' hnd hex)⟩
theorem set_getN_self (l : List (HeapNode P K)) (i : ℕ) (h : i < l.length) :
    l.set i (getN l i) = l := by
  apply List.ext_getElem?
  intro n
  by_cases hn : n = i
  · subst hn
    rw [List.getElem?_set_self h, getN_of_lt _ _ h]
    simp [List.getElem?_eq_getElem h]
  · exact List.getElem?_set_ne (fun hh => hn hh.symm)

theorem siftup_spec (q : PQueue P K) (ix : ℕ)
    (hix : ix < q.heap.length)
    (halmost : almostHeapUp q.heap ix) (hbridge : bridgeAt q.heap ix)
    (hcoh : cohX q (kix (getN q.heap ix).key)) :
    (siftup q ix).1.heap.Perm q.heap ∧
    heapProp (siftup q ix).1.heap ∧
    classCoh (siftup q ix).1 ∧
    (siftup q ix).1.positions (kix (getN q.heap ix).key) = some (siftup q ix).2 ∧
    (siftup q ix).2 < q.heap.length ∧
    (getN (siftup q ix).1.heap (siftup q ix).2).item = (getN q.heap ix).item ∧
    kix (getN (siftup q ix).1.heap (siftup q ix).2).key
      = kix (getN q.heap ix).key ∧
    (nodupKeys q.heap → exactX q ix → posExact (siftup q ix).1) := by
  obtain ⟨c1, c2, c3, c4, c5, c6, c7⟩ :=
    siftupGo_spec (getN q.heap ix).key (getN q.heap ix).item (ix + 1) ix q
      (Nat.lt_succ_self ix) hix rfl rfl halmost hbridge hcoh
  set r := siftupGo (getN q.heap ix).key (getN q.heap ix).item (ix + 1) ix q with hr
  have hres : siftup q ix
      = (⟨r.1.heap, posSet r.1.positions (kix (getN q.heap ix).key) r.2⟩, r.2) := rfl
  rw [hres]
  have hlen : r.1.heap.length = q.heap.length := c1.length_eq
  refine ⟨c1, c5, ?_, ?_, c2, c3, c4, ?_⟩
  · -- classCoh
    intro n i hni
    simp only [posSet] at hni
    by_cases hn : n = kix (getN q.heap ix).key
    · rw [if_pos hn] at hni
      cases hni
      refine ⟨?_, by rw [c4, hn]⟩
      show r.2 < r.1.heap.length
      omega
    · rw [if_neg hn] at hni
      obtain ⟨h1, h2⟩ := c6 n i hni
      rcases h2 with h2 | h2
      · exact ⟨h1, h2⟩
      · exact absurd h2 hn
  · simp [posSet]
  · -- posExact
    intro hnd hex
    have hex' := c7 hnd hex
    have hnd' : nodupKeys r.1.heap := nodupKeys_of_perm c1.symm hnd
    intro i hi
    have hi' : i < r.1.heap.length := hi
    by_cases hir : i = r.2
    · subst hir
      simp only [posSet]
      rw [if_pos c4]
    · simp only [posSet]
      rw [if_neg ?hcl]
      case hcl =>
        intro heq
        exact hir (nodup_class_inj hnd' hi' (by omega) (by rw [heq, c4]))
      exact hex' i hi' hir

theorem push_spec (q : PQueue P K) (k : K) (p : P)
    (hheap : heapProp q.heap) (hcoh : classCoh q) :
    (q.push k p).heap.Perm (q.heap ++ [⟨p, k⟩]) ∧
    heapProp (q.push k p).heap ∧
    classCoh (q.push k p) ∧
    (q.push k p).containsKey k = true ∧
    (q.push k p).heap.length = q.heap.length + 1 ∧
    (posExact q → q.positions (kix k) = none → nodupKeys q.heap →
      posExact (q.push k p) ∧ nodupKeys (q.push k p).heap) := by
  set L := q.heap.length with hL
  set q1 : PQueue P K :=
    ⟨q.heap ++ [⟨p, k⟩], posSet q.positions (kix k) L⟩ with hq1
  have hlen1 : q1.heap.length = L + 1 := by simp [hq1]
  have hgetL : getN q1.heap L = ⟨p, k⟩ := getN_append_len q.heap ⟨p, k⟩
  have hgetlt : ∀ i, i < L → getN q1.heap i = getN q.heap i := fun i hi =>
    getN_append_lt q.heap _ i hi
  have hres : q.push k p = (siftup q1 L).1 := by
    unfold PQueue.push
    simp only [List.length_append, List.length_cons, List.length_nil,
      Nat.add_sub_cancel]
  have hixlt : L < q1.heap.length := by omega
  have halmost : almostHeapUp q1.heap L := by
    intro c hc hcl hcL
    have hclt : c < L := by omega
    have hplt : (c - 1) / 2 < L := by
      have := Nat.div_le_self (c - 1) 2; omega
    rw [hgetlt c hclt, hgetlt _ hplt]
    exact hheap c hc hclt
  have hbridge : bridgeAt q1.heap L := by
    intro c hc hcl hpc _
    have := Nat.div_le_self (c - 1) 2
    omega
  have hcohX : cohX q1 (kix (getN q1.heap L).key) := by
    rw [hgetL]
    intro n i hni
    simp only [hq1, posSet] at hni
    by_cases hn : n = kix k
    · rw [if_pos hn] at hni
      cases hni
      exact ⟨by omega, Or.inl (by rw [hgetL, hn])⟩
    · rw [if_neg hn] at hni
      obtain ⟨h1, h2⟩ := hcoh n i hni
      exact ⟨by omega, Or.inl (by rw [hgetlt i (by omega), h2])⟩
  obtain ⟨c1, c2, c3, c4, c5, c6, c7, c8⟩ := siftup_spec q1 L hixlt halmost hbridge hcohX
  rw [hgetL] at c4 c7
  have c4' : (siftup q1 L).1.positions (kix k) = some (siftup q1 L).2 := c4
  constructor
  · rw [hres]; exact c1
  · refine ⟨by rw [hres]; exact c2, by rw [hres]; exact c3, ?_, ?_, ?_⟩
    · simp only [PQueue.containsKey, hres, c4', Option.isSome_some]
    · rw [hres, c1.length_eq, hlen1]
    · intro hex hnone hnd
      have hknotin : ∀ i, i < L → kix (getN q.heap i).key ≠ kix k := by
        intro i hi heq
        have := hex i hi
        rw [heq, hnone] at this
        exact Option.noConfusion this
      have hexX : exactX q1 L := by
        intro i hi hiL
        have hilt : i < L := by omega
        rw [hgetlt i hilt]
        simp only [hq1, posSet]
        rw [if_neg (hknotin i hilt)]
        exact hex i hilt
      have hnd1 : nodupKeys q1.heap := by
        unfold nodupKeys at hnd ⊢
        simp only [hq1, List.map_append, List.map_cons, List.map_nil]
        rw [List.nodup_append]
        refine ⟨hnd, List.nodup_singleton _, ?_⟩
        intro a ha hb
        simp only [List.mem_singleton] at hb
        subst hb
        obtain ⟨nd, hndmem, hndeq⟩ := List.mem_map.mp ha
        obtain ⟨⟨i, hilt⟩, hieq⟩ := List.mem_iff_get.mp hndmem
        apply hknotin i hilt
        rw [getN_of_lt _ _ hilt, hieq, hndeq]
      refine ⟨by rw [hres]; exact c8 hnd1 hexX, ?_⟩
      rw [hres]
      exact nodupKeys_of_perm c1.symm hnd1

theorem updLess_spec (q : PQueue P K) (k : K) (p : P) (q' : PQueue P K)
    (hupd : q.updatePriorityIfLess k p = some q')
    (hheap : heapProp q.heap) (hcoh : classCoh q) :
    (q'.heap.map fun nd => kix nd.key).Perm (q.heap.map fun nd => kix nd.key) ∧
    q'.heap.length = q.heap.length ∧
    heapProp q'.heap ∧ classCoh q' ∧
    (posExact q → nodupKeys q.heap → posExact q' ∧ nodupKeys q'.heap) := by
  unfold PQueue.updatePriorityIfLess at hupd
  cases hpos : q.positions (kix k) with
  | none => rw [hpos] at hupd; exact Option.noConfusion hupd
  | some ix =>
  rw [hpos] at hupd
  simp only at hupd
  by_cases hle : (getN q.heap ix).item ≤ p
  · rw [if_pos hle] at hupd; exact Option.noConfusion hupd
  · rw [if_neg hle] at hupd
    obtain ⟨hixlt, hclass⟩ := hcoh (kix k) ix hpos
    set nd0 : HeapNode P K := ⟨p, (getN q.heap ix).key⟩ with hnd0
    set q0 : PQueue P K := ⟨q.heap.set ix nd0, q.positions⟩ with hq0
    have hlen0 : q0.heap.length = q.heap.length := by simp [hq0]
    have hget0ix : getN q0.heap ix = nd0 := getN_set_self _ _ _ hixlt
    have hget0ne : ∀ i, i ≠ ix → getN q0.heap i = getN q.heap i := fun i hi =>
      getN_set_ne _ _ _ _ (fun hh => hi hh.symm)
    have hclass0 : ∀ i, kix (getN q0.heap i).key = kix (getN q.heap i).key := by
      intro i
      by_cases hi : i = ix
      · subst hi; rw [hget0ix, hnd0]
      · rw [hget0ne i hi]
    have hmap0 : q0.heap.map (fun nd => kix nd.key)
        = q.heap.map (fun nd => kix nd.key) := by
      have : q0.heap.map (fun nd => kix nd.key)
          = (q.heap.map fun nd => kix nd.key).set ix (kix nd0.key) := by
        simp [hq0, List.map_set]
      rw [this]
      have hv : kix nd0.key = kix (getN q.heap ix).key := by rw [hnd0]
      apply List.ext_getElem?
      intro n
      by_cases hn : n = ix
      · subst hn
        rw [List.getElem?_set_self (by simpa using hixlt)]
        rw [List.getElem?_eq_getElem (by simpa using hixlt)]
        simp only [List.getElem_map, hv, getN_of_lt _ _ hixlt, List.get_eq_getElem]
      · exact List.getElem?_set_ne (fun hh => hn hh.symm)
    have halmost : almostHeapUp q0.heap ix := by
      intro c hc hcl hcix
      rw [hget0ne c hcix]
      by_cases hpc : (c - 1) / 2 = ix
      · rw [hpc, hget0ix]
        have h1 := hheap c hc (by omega)
        rw [hpc] at h1
        calc nd0.item ≤ (getN q.heap ix).item := le_of_lt (lt_of_not_le hle)
          _ ≤ (getN q.heap c).item := h1
      · rw [hget0ne _ hpc]
        exact hheap c hc (by omega)
    have hbridge : bridgeAt q0.heap ix := by
      intro c hc hcl hpc hix0
      have hplt : (ix - 1) / 2 < ix := by
        have := Nat.div_le_self (ix - 1) 2; omega
      rw [hget0ne _ (by omega), hget0ne c (by
        have := Nat.div_le_self (c - 1) 2; omega)]
      have h1 := hheap ix hix0 hixlt
      have h2 := hheap c hc (by omega)
      rw [hpc] at h2
      exact le_trans h1 h2
    have hcohX : cohX q0 (kix (getN q0.heap ix).key) := by
      intro n i hni
      obtain ⟨h1, h2⟩ := hcoh n i hni
      exact ⟨by omega, Or.inl (by rw [hclass0 i, h2])⟩
    obtain ⟨c1, c2, c3, c4, c5, c6, c7, c8⟩ := siftup_spec q0 ix (by omega) halmost hbridge hcohX
    have hq' : q' = (siftup q0 ix).1 := by
      cases hupd
      rfl
    subst hq'
    refine ⟨?_, by rw [c1.length_eq, hlen0], c2, c3, ?_⟩
    · have := c1.map (fun nd => kix nd.key)
      rw [hmap0] at this
      exact this
    · intro hex hnd
      have hnd0' : nodupKeys q0.heap := by
        unfold nodupKeys at hnd ⊢
        rw [hmap0]
        exact hnd
      have hex0 : exactX q0 ix := by
        intro i hi hiix
        rw [hclass0 i]
        exact hex i (by omega)
      refine ⟨c8 hnd0' hex0, nodupKeys_of_perm c1.symm hnd0'⟩

theorem siftdownGo_spec (nk : K) (np : P) :
    ∀ (fuel ix : ℕ) (q : PQueue P K) (endIx : ℕ),
      endIx = q.heap.length → endIx ≤ fuel + ix → ix < endIx →
      (getN q.heap ix).item = np → kix (getN q.heap ix).key = kix nk →
      almostHeapDown q.heap ix → bridgeAt q.heap ix → cohX q (kix nk) →
      (siftdownGo endIx nk np fuel ix q).1.heap.Perm q.heap ∧
      (siftdownGo endIx nk np fuel ix q).2 < q.heap.length ∧
      (getN (siftdownGo endIx nk np fuel ix q).1.heap
        (siftdownGo endIx nk np fuel ix q).2).item = np ∧
      kix (getN (siftdownGo endIx nk np fuel ix q).1.heap
        (siftdownGo endIx nk np fuel ix q).2).key = kix nk ∧
      heapProp (siftdownGo endIx nk np fuel ix q).1.heap ∧
      cohX (siftdownGo endIx nk np fuel ix q).1 (kix nk) ∧
      (nodupKeys q.heap → exactX q ix →
        exactX (siftdownGo endIx nk np fuel ix q).1
          (siftdownGo endIx nk np fuel ix q).2) := by
  intro fuel
  induction fuel with
  | zero => intro ix q endIx hend hf hixe; omega
  | succ f ih =>
    intro ix q endIx hend hf hixe hitem hkey halmost hbridge hcoh
    have hixlen : ix < q.heap.length := by omega
    by_cases hchild : 2 * ix + 1 < endIx
    case neg =>
      simp only [siftdownGo, if_neg hchild]
      refine ⟨.refl _, hixlen, hitem, hkey, ?_, hcoh, fun _ hx => hx⟩
      intro c hc hcl
      by_cases hpc : (c - 1) / 2 = ix
      · exfalso; omega
      · exact halmost c hc (by omega) hpc
    case pos =>
      set childIx0 := 2 * ix + 1 with hchild0
      set rightIx := childIx0 + 1 with hright
      set childIx :=
        if rightIx < endIx ∧ (getN q.heap rightIx).item < (getN q.heap childIx0).item
        then rightIx else childIx0 with hchden
      have hchlt : childIx < endIx := by
        rw [hchden]; split
        · omega
        · omega
      have hchgt : ix < childIx := by
        rw [hchden]; split <;> omega
      have hchlen : childIx < q.heap.length := by omega
      have hchparent : (childIx - 1) / 2 = ix := by
        rw [hchden]; split <;> omega
      have hmin : ∀ c, 0 < c → c < endIx → (c - 1) / 2 = ix →
          (getN q.heap childIx).item ≤ (getN q.heap c).item := by
        intro c hc hcl hpc
        have hcrange : c = childIx0 ∨ c = rightIx := by omega
        rw [hchden]
        split
        case isTrue h =>
          rcases hcrange with hcc | hcc <;> subst hcc
          · exact le_of_lt h.2
          · exact le_refl _
        case isFalse h =>
          rcases hcrange with hcc | hcc <;> subst hcc
          · exact le_refl _
          · by_cases hr : rightIx < endIx
            · have : ¬ (getN q.heap rightIx).item < (getN q.heap childIx0).item := by
                intro hcon; exact h ⟨hr, hcon⟩
              exact le_of_not_lt this
            · omega
      by_cases hcmp : np ≤ (getN q.heap childIx).item
      · have hres : siftdownGo endIx nk np (f + 1) ix q = (q, ix) := by
          simp only [siftdownGo, if_pos hchild, ← hchden]
          rw [if_pos hcmp]
        rw [hres]
        refine ⟨.refl _, hixlen, hitem, hkey, ?_, hcoh, fun _ hx => hx⟩
        intro c hc hcl
        have hcl' : c < q.heap.length := hcl
        by_cases hpc : (c - 1) / 2 = ix
        · rw [hpc, hitem]
          exact le_trans hcmp (hmin c hc (by omega) hpc)
        · exact halmost c hc hcl' hpc
      · have hres : siftdownGo endIx nk np (f + 1) ix q =
            siftdownGo endIx nk np f childIx
              ⟨swapL q.heap ix childIx,
               posSet q.positions (kix (getN q.heap childIx).key) ix⟩ := by
          simp only [siftdownGo, if_pos hchild, ← hchden]
          rw [if_neg hcmp]
        set q' : PQueue P K :=
          ⟨swapL q.heap ix childIx,
           posSet q.positions (kix (getN q.heap childIx).key) ix⟩ with hq2def
        have hlen' : q'.heap.length = q.heap.length := swapL_length _ _ _
        have hswapperm : q'.heap.Perm q.heap := swapL_perm _ _ _ hixlen hchlen
        have hA' : ∀ k, getN q'.heap k =
            if k = childIx then getN q.heap ix
            else if k = ix then getN q.heap childIx
            else getN q.heap k :=
          fun k => getN_swapL q.heap ix childIx k hixlen hchlen
        have hchlt' : (getN q.heap childIx).item < np := lt_of_not_le hcmp
        have hitem' : (getN q'.heap childIx).item = np := by
          rw [hA']; simp [hitem]
        have hkey' : kix (getN q'.heap childIx).key = kix nk := by
          rw [hA']; simp [hkey]
        have halmost' : almostHeapDown q'.heap childIx := by
          intro c hc hcl hpcne
          have hcl0 : c < q.heap.length := by omega
          rw [hA', hA']
          by_cases hcix : c = ix
          · -- c = ix: need parent(ix) ≤ new value at ix = old child value
            have hix0 : 0 < ix := by omega
            have hpix_lt : (ix - 1) / 2 < ix := by
              have := Nat.div_le_self (ix - 1) 2; omega
            have e1 : ¬ (c - 1) / 2 = childIx := by
              subst hcix
              have := Nat.div_le_self (c - 1) 2; omega
            rw [if_neg ?g1, if_neg ?g2]
            case g1 =>
              subst hcix
              have := Nat.div_le_self (c - 1) 2; omega
            case g2 =>
              subst hcix
              have := Nat.div_le_self (c - 1) 2; omega
            rw [if_neg (by omega : ¬ c = childIx), if_pos hcix]
            have hcb : (childIx - 1) / 2 = ix := hchparent
            have := hbridge childIx (by omega) hchlen hcb hix0
            subst hcix
            exact this
          · by_cases hcch : c = childIx
            · subst hcch
              rw [hchparent, if_neg (by omega : ¬ ix = childIx), if_pos rfl,
                if_pos rfl, hitem]
              exact le_of_lt hchlt'
            · rw [if_neg hcch, if_neg hcix]
              by_cases hpc : (c - 1) / 2 = ix
              · rw [if_neg (by omega : ¬ (c - 1) / 2 = childIx), if_pos hpc]
                exact hmin c hc (by omega) hpc
              · rw [if_neg (by
                  intro hcon
                  exact hpcne hcon), if_neg hpc]
                exact halmost c hc hcl0 hpc
        have hbridge' : bridgeAt q'.heap childIx := by
          intro c hc hcl hpc hch0
          have hcl0 : c < q.heap.length := by omega
          have hcgt : childIx < c := by
            have := Nat.div_le_self (c - 1) 2; omega
          rw [hA', hA', hchparent]
          rw [if_neg (by omega : ¬ ix = childIx), if_pos rfl,
            if_neg (by omega : ¬ c = childIx), if_neg (by omega : ¬ c = ix)]
          have := halmost c hc hcl0 (by omega)
          rw [hpc] at this
          exact this
        have hcoh' : cohX q' (kix nk) := by
          intro n i hni
          simp only [hq2def, posSet] at hni
          by_cases hn : n = kix (getN q.heap childIx).key
          · rw [if_pos hn] at hni
            cases hni
            refine ⟨by omega, Or.inl ?_⟩
            rw [hA', if_neg (by omega : ¬ ix = childIx), if_pos rfl, hn]
          · rw [if_neg hn] at hni
            obtain ⟨hilen, hclass⟩ := hcoh n i hni
            refine ⟨by omega, ?_⟩
            rcases hclass with hcl | hck
            · by_cases hich : i = childIx
              · exact absurd (by rw [← hcl, hich]) hn
              · by_cases hiix : i = ix
                · rw [← hcl, hiix, hkey]
                  exact Or.inr rfl
                · rw [hA', if_neg hich, if_neg hiix]
                  exact Or.inl hcl
            · exact Or.inr hck
        have hexact' : nodupKeys q.heap → exactX q ix → exactX q' childIx := by
          intro hnd hex i hi hich
          have hi' : i < q.heap.length := by omega
          by_cases hiix : i = ix
          · have hval : getN q'.heap i = getN q.heap childIx := by
              rw [hA', hiix, if_neg (by omega : ¬ ix = childIx), if_pos rfl]
            rw [hval]
            simp only [hq2def, posSet]
            simp [hiix]
          · rw [hA', if_neg hich, if_neg hiix]
            simp only [hq2def, posSet]
            rw [if_neg ?hne]
            case hne =>
              intro heq
              exact hich (nodup_class_inj hnd hi' hchlen heq)
            exact hex i hi' hiix
        rw [hres]
        obtain ⟨c1, c2, c3, c4, c5, c6, c7⟩ :=
          ih childIx q' endIx (by omega) (by omega) (by omega) hitem' hkey'
            halmost' hbridge' hcoh'
        refine ⟨c1.trans hswapperm, by omega, c3, c4, c5, c6, fun hnd hex =>
          c7 (nodupKeys_of_perm hswapperm.symm hnd) (hexact' hnd hex)⟩

theorem siftdown_spec (q : PQueue P K) (ix : ℕ)
    (hix : ix < q.heap.length)
    (halmost : almostHeapDown q.heap ix) (hbridge : bridgeAt q.heap ix)
    (hcoh : cohX q (kix (getN q.heap ix).key)) :
    (siftdown q ix).1.heap.Perm q.heap ∧
    heapProp (siftdown q ix).1.heap ∧
    classCoh (siftdown q ix).1 ∧
    (nodupKeys q.heap → exactX q ix → posExact (siftdown q ix).1) := by
  obtain ⟨c1, c2, c3, c4, c5, c6, c7⟩ :=
    siftdownGo_spec (getN q.heap ix).key (getN q.heap ix).item q.heap.length ix q
      q.heap.length rfl (by omega) hix rfl rfl halmost hbridge hcoh
  set r := siftdownGo q.heap.length (getN q.heap ix).key (getN q.heap ix).item
    q.heap.length ix q with hr
  have hres : siftdown q ix
      = (⟨r.1.heap, posSet r.1.positions (kix (getN q.heap ix).key) r.2⟩, r.2) := rfl
  rw [hres]
  have hlen : r.1.heap.length = q.heap.length := c1.length_eq
  refine ⟨c1, c5, ?_, ?_⟩
  · intro n i hni
    simp only [posSet] at hni
    by_cases hn : n = kix (getN q.heap ix).key
    · rw [if_pos hn] at hni
      cases hni
      refine ⟨?_, by rw [c4, hn]⟩
      show r.2 < r.1.heap.length
      omega
    · rw [if_neg hn] at hni
      obtain ⟨h1, h2⟩ := c6 n i hni
      rcases h2 with h2 | h2
      · exact ⟨h1, h2⟩
      · exact absurd h2 hn
  · intro hnd hex
    have hex' := c7 hnd hex
    have hnd' : nodupKeys r.1.heap := nodupKeys_of_perm c1.symm hnd
    intro i hi
    have hi' : i < r.1.heap.length := hi
    by_cases hir : i = r.2
    · subst hir
      simp only [posSet]
      rw [if_pos c4]
    · simp only [posSet]
      rw [if_neg ?hcl]
      case hcl =>
        intro heq
        exact hir (nodup_class_inj hnd' hi' (by omega) (by rw [heq, c4]))
      exact hex' i hi' hir

theorem heapProp_root_min {l : List (HeapNode P K)} (h : heapProp l) :
    ∀ i, i < l.length → (getN l 0).item ≤ (getN l i).item := by
  intro i
  induction i using Nat.strong_induction_on with
  | _ i ih =>
    intro hi
    by_cases h0 : i = 0
    · subst h0; exact le_refl _
    · have hpos : 0 < i := Nat.pos_of_ne_zero h0
      have hplt : (i - 1) / 2 < i := by
        have := Nat.div_le_self (i - 1) 2; omega
      exact le_trans (ih _ hplt (by omega)) (h i hpos hi)

theorem pop_none_iff (q : PQueue P K) : q.pop = none ↔ q.heap.length = 0 := by
  unfold PQueue.pop
  by_cases h : q.heap.length = 0
  · simp [h]
  · simp only [if_neg h]
    constructor
    · intro hc
      by_cases h1 : q.heap.length = 1 <;> simp [h1] at hc
    · intro hc; exact absurd hc h

theorem siftdownGo_heap_length (endIx : ℕ) (nk : K) (np : P) :
    ∀ (fuel ix : ℕ) (q : PQueue P K),
      (siftdownGo endIx nk np fuel ix q).1.heap.length = q.heap.length := by
  intro fuel
  induction fuel with
  | zero => intro ix q; rfl
  | succ f ih =>
    intro ix q
    simp only [siftdownGo]
    repeat' split
    all_goals first
      | rfl
      | (rw [ih]; simp)

theorem siftdown_heap_length (q : PQueue P K) (ix : ℕ) :
    (siftdown q ix).1.heap.length = q.heap.length := by
  unfold siftdown
  simp only
  exact siftdownGo_heap_length _ _ _ _ _ _

theorem pop_length {q : PQueue P K} {e : HeapNode P K} {q' : PQueue P K}
    (hpop : q.pop = some (e, q')) :
    0 < q.heap.length ∧ q'.heap.length = q.heap.length - 1 := by
  unfold PQueue.pop at hpop
  by_cases h : q.heap.length = 0
  · rw [if_pos h] at hpop; exact Option.noConfusion hpop
  · rw [if_neg h] at hpop
    refine ⟨by omega, ?_⟩
    by_cases h1 : q.heap.length = 1
    · rw [if_pos h1] at hpop
      cases hpop
      simp [h1]
    · rw [if_neg h1] at hpop
      cases hpop
      rw [siftdown_heap_length]
      simp

theorem pop_element {q : PQueue P K} {e : HeapNode P K} {q' : PQueue P K}
    (hpop : q.pop = some (e, q')) : e = getN q.heap 0 := by
  unfold PQueue.pop at hpop
  by_cases h : q.heap.length = 0
  · rw [if_pos h] at hpop; exact Option.noConfusion hpop
  · rw [if_neg h] at hpop
    have hsw : getN (swapL q.heap 0 (q.heap.length - 1)) (q.heap.length - 1)
        = getN q.heap 0 := by
      rw [getN_swapL q.heap 0 (q.heap.length - 1) _ (by omega) (by omega)]
      rw [if_pos rfl]
    by_cases h1 : q.heap.length = 1
    · rw [if_pos h1] at hpop
      cases hpop
      exact hsw
    · rw [if_neg h1] at hpop
      cases hpop
      exact hsw

theorem pop_spec {q : PQueue P K} {e : HeapNode P K} {q' : PQueue P K}
    (hpop : q.pop = some (e, q'))
    (hheap : heapProp q.heap) (hcoh : classCoh q) :
    (q'.heap ++ [e]).Perm q.heap ∧
    heapProp q'.heap ∧ classCoh q' ∧
    (posExact q → nodupKeys q.heap →
      posExact q' ∧ nodupKeys q'.heap ∧ q'.positions (kix e.key) = none) := by
  have he := pop_element hpop
  obtain ⟨hlen0, hlen'⟩ := pop_length hpop
  set L := q.heap.length with hLdef
  unfold PQueue.pop at hpop
  rw [if_neg (by omega : ¬ q.heap.length = 0)] at hpop
  set heapSw := swapL q.heap 0 (L - 1) with hswdef
  have hswlen : heapSw.length = L := swapL_length _ _ _
  have hswelem : ∀ c, c < L →
      getN heapSw c = if c = L - 1 then getN q.heap 0
        else if c = 0 then getN q.heap (L - 1) else getN q.heap c := by
    intro c _
    exact getN_swapL q.heap 0 (L - 1) c (by omega) (by omega)
  have hswperm : heapSw.Perm q.heap := swapL_perm _ _ _ (by omega) (by omega)
  set heap' := heapSw.dropLast with hh2def
  have hh2len : heap'.length = L - 1 := by
    rw [hh2def, List.length_dropLast, hswlen]
  have hh2get : ∀ c, c < L - 1 → getN heap' c = getN heapSw c := by
    intro c hc
    rw [hh2def]
    exact getN_dropLast heapSw c (by omega)
  have hswne : heapSw ≠ [] := by
    intro hcon
    rw [hcon] at hswlen
    simp at hswlen
    omega
  have hE : getN heapSw (L - 1) = e := by
    rw [hswelem (L - 1) (by omega), if_pos rfl, ← he]
  have hrestore : heap' ++ [e] = heapSw := by
    have h1 := List.dropLast_append_getLast hswne
    have h2 : heapSw.getLast hswne = e := by
      have h3 : getN heapSw (L - 1) = heapSw.getLast hswne := by
        rw [getN_of_lt _ _ (by omega : L - 1 < heapSw.length)]
        rw [List.getLast_eq_getElem]
        simp only [List.get_eq_getElem, hswlen]
      rw [← h3, hE]
    rw [h2] at h1
    exact h1
  by_cases h1 : q.heap.length = 1
  · -- singleton heap
    rw [if_pos h1] at hpop
    have hL1 : L = 1 := h1
    have hh2nil : heap' = [] := List.eq_nil_of_length_eq_zero (by omega)
    have hinj := Option.some.inj hpop
    have hel : getN heapSw (q.heap.length - 1) = e := congrArg Prod.fst hinj
    have hq2eq : q' = ⟨heap', posRemove q.positions (kix e.key)⟩ := by
      have h2 : (⟨heap', posRemove q.positions
          (kix (getN heapSw (q.heap.length - 1)).key)⟩ : PQueue P K) = q' :=
        congrArg Prod.snd hinj
      rw [← h2, hel]
    rw [hq2eq]
    refine ⟨?_, ?_, ?_, ?_⟩
    · show (heap' ++ [e]).Perm q.heap
      rw [hrestore]; exact hswperm
    · show heapProp heap'
      rw [hh2nil]
      intro c hc hcl
      simp at hcl
    · intro n i hni
      simp only [posRemove] at hni
      by_cases hn : n = kix e.key
      · rw [if_pos hn] at hni
        exact Option.noConfusion hni
      · rw [if_neg hn] at hni
        obtain ⟨hi1, hi2⟩ := hcoh n i hni
        exfalso
        have hi0 : i = 0 := by omega
        rw [hi0, ← he] at hi2
        exact hn hi2.symm
    · intro _ _
      refine ⟨?_, ?_, ?_⟩
      · intro i hi
        exfalso
        have hi' : i < heap'.length := hi
        rw [hh2nil] at hi'
        simp at hi'
      · show nodupKeys heap'
        unfold nodupKeys
        rw [hh2nil]
        simp
      · simp [posRemove]
  · -- at least two elements
    rw [if_neg h1] at hpop
    have hL2 : 2 ≤ L := by omega
    set pos2 := posSet (posRemove q.positions (kix e.key))
      (kix (getN heap' 0).key) 0 with hpos2def
    have hpopeq : q' = (siftdown ⟨heap', pos2⟩ 0).1 := by
      cases hpop
      rfl
    set q0 : PQueue P K := ⟨heap', pos2⟩ with hq0def
    have hq0len : q0.heap.length = L - 1 := hh2len
    have hroot : getN heap' 0 = getN q.heap (L - 1) := by
      rw [hh2get 0 (by omega), hswelem 0 (by omega),
        if_neg (by omega : ¬ (0 : ℕ) = L - 1), if_pos rfl]
    have hmid : ∀ t, 0 < t → t < L - 1 → getN heap' t = getN q.heap t := by
      intro t ht htl
      rw [hh2get t htl, hswelem t (by omega),
        if_neg (by omega : ¬ t = L - 1), if_neg (by omega : ¬ t = 0)]
    have halmost : almostHeapDown q0.heap 0 := by
      intro c hc hcl hpc
      have hcl' : c < L - 1 := by
        have : c < q0.heap.length := hcl
        omega
      have hpclt : (c - 1) / 2 < L - 1 := by
        have := Nat.div_le_self (c - 1) 2
        omega
      show (getN heap' ((c - 1) / 2)).item ≤ (getN heap' c).item
      rw [hmid c hc hcl', hmid _ (Nat.pos_of_ne_zero hpc) hpclt]
      exact hheap c hc (by omega)
    have hbridge : bridgeAt q0.heap 0 := by
      intro c hc hcl hpc h0
      exact absurd h0 (lt_irrefl 0)
    have hcohX : cohX q0 (kix (getN q0.heap 0).key) := by
      intro n i hni
      simp only [hq0def, hpos2def, posSet, posRemove] at hni
      by_cases hn : n = kix (getN heap' 0).key
      · rw [if_pos hn] at hni
        cases hni
        exact ⟨by omega, Or.inl hn.symm⟩
      · rw [if_neg hn] at hni
        by_cases hne : n = kix e.key
        · rw [if_pos hne] at hni
          exact Option.noConfusion hni
        · rw [if_neg hne] at hni
          obtain ⟨hi1, hi2⟩ := hcoh n i hni
          have hine : i ≠ 0 := by
            intro hcon
            rw [hcon, ← he] at hi2
            exact hne hi2.symm
          have hinl : i ≠ L - 1 := by
            intro hcon
            rw [hcon] at hi2
            rw [← hroot] at hi2
            exact hn hi2.symm
          refine ⟨by omega, Or.inl ?_⟩
          show kix (getN heap' i).key = n
          rw [hmid i (by omega) (by omega)]
          exact hi2
    obtain ⟨c1, c2, c3, c4⟩ := siftdown_spec q0 0 (by omega) halmost hbridge hcohX
    rw [hpopeq]
    have hq2perm : (siftdown q0 0).1.heap.Perm q.heap.dropLast ∨ True := Or.inr trivial
    refine ⟨?_, c2, c3, ?_⟩
    · have hstep : ((siftdown q0 0).1.heap ++ [e]).Perm (heap' ++ [e]) :=
        c1.append_right [e]
      rw [hrestore] at hstep
      exact hstep.trans hswperm
    · intro hex hnd
      have hndsw : nodupKeys heapSw := nodupKeys_of_perm hswperm.symm hnd
      have hndh' : nodupKeys heap' := by
        unfold nodupKeys at hndsw ⊢
        have hsub : heap'.Sublist heapSw := by
          rw [hh2def]
          exact List.dropLast_sublist heapSw
        exact (hsub.map _).nodup hndsw
      have hndq0 : nodupKeys q0.heap := hndh'
      have hexX : exactX q0 0 := by
        intro i hi hi0
        have hi' : i < L - 1 := by
          have : i < q0.heap.length := hi
          omega
        have hval : getN q0.heap i = getN q.heap i := hmid i (by omega) hi'
        rw [hval]
        have hne1 : kix (getN q.heap i).key ≠ kix e.key := by
          intro hcon
          rw [he] at hcon
          exact (by omega : i ≠ 0) (nodup_class_inj hnd (by omega) (by omega) hcon)
        have hne2 : kix (getN q.heap i).key ≠ kix (getN heap' 0).key := by
          rw [hroot]
          intro hcon
          exact (by omega : i ≠ L - 1) (nodup_class_inj hnd (by omega) (by omega) hcon)
        simp only [hq0def, hpos2def, posSet, posRemove]
        rw [if_neg hne2, if_neg hne1]
        exact hex i (by omega)
      have hpe := c4 hndq0 hexX
      refine ⟨hpe, nodupKeys_of_perm c1.symm hndq0, ?_⟩
      cases hq' : (siftdown q0 0).1.positions (kix e.key) with
      | none => rfl
      | some i =>
        exfalso
        obtain ⟨hi1, hi2⟩ := c3 _ _ hq'
        -- the popped key class would have to live in the remaining heap
        have hin : (getN (siftdown q0 0).1.heap i) ∈ (siftdown q0 0).1.heap := by
          rw [getN_of_lt _ _ hi1]
          exact List.get_mem _ _ _
        have hin' := c1.subset hin
        obtain ⟨⟨t, htl⟩, hteq⟩ := List.mem_iff_get.mp hin'
        have ht' : t < L - 1 := by
          have : t < heap'.length := htl
          omega
        have htc : kix (getN heap' t).key = kix e.key := by
          rw [getN_of_lt _ _ htl, hteq, hi2]
        by_cases ht0 : t = 0
        · rw [ht0, hroot, he] at htc
          exact (by omega : L - 1 ≠ 0) (nodup_class_inj hnd (by omega) (by omega) htc)
        · rw [hmid t (by omega) ht', he] at htc
          exact ht0 (nodup_class_inj hnd (by omega) (by omega) htc)

theorem QInv_empty : QInv (PQueue.empty : PQueue P K) := by
  constructor
  · intro i h1 h2
    simp [PQueue.empty] at h2
  · intro n i hni
    exact Option.noConfusion hni

theorem runOp_inv {q q' : PQueue P K} {op : QOp P K}
    (h : runOp q op = some q') (hinv : QInv q) : QInv q' := by
  cases op with
  | push k p =>
    simp only [runOp] at h
    cases h
    obtain ⟨c1, c2, c3, _⟩ := push_spec q k p hinv.1 hinv.2
    exact ⟨c2, c3⟩
  | pop =>
    simp only [runOp] at h
    cases hpop : q.pop with
    | none => rw [hpop] at h; cases h; exact hinv
    | some eq' =>
      rw [hpop] at h
      cases h
      obtain ⟨_, c2, c3, _⟩ := pop_spec hpop hinv.1 hinv.2
      exact ⟨c2, c3⟩
  | updLess k p =>
    simp only [runOp] at h
    by_cases hc : q.containsKey k
    · rw [if_pos hc] at h
      cases hupd : q.updatePriorityIfLess k p with
      | none => rw [hupd] at h; cases h; exact hinv
      | some q2 =>
        rw [hupd] at h
        cases h
        obtain ⟨_, _, c3, c4, _⟩ := updLess_spec q k p _ hupd hinv.1 hinv.2
        exact ⟨c3, c4⟩
    · rw [if_neg hc] at h
      exact Option.noConfusion h

theorem runOps_inv : ∀ (ops : List (QOp P K)) (q q' : PQueue P K),
    runOps q ops = some q' → QInv q → QInv q' := by
  intro ops
  induction ops with
  | nil => intro q q' h hinv; cases h; exact hinv
  | cons op rest ih =>
    intro q q' h hinv
    simp only [runOps] at h
    cases hop : runOp q op with
    | none => rw [hop] at h; exact Option.noConfusion h
    | some q1 =>
      rw [hop] at h
      exact ih q1 q' h (runOp_inv hop hinv)

theorem pop_pop_le {q q1 q2 : PQueue P K} {x y : HeapNode P K}
    (hinv : QInv q) (hp1 : q.pop = some (x, q1)) (hp2 : q1.pop = some (y, q2)) :
    x.item ≤ y.item := by
  obtain ⟨hperm, hheap1, hcoh1, _⟩ := pop_spec hp1 hinv.1 hinv.2
  have hx := pop_element hp1
  have hy := pop_element hp2
  obtain ⟨hlen1, _⟩ := pop_length hp2
  have hymem : y ∈ q1.heap := by
    rw [hy, getN_of_lt _ _ hlen1]
    exact List.get_mem _ _ _
  have hymem' : y ∈ q.heap := hperm.subset (List.mem_append_left _ hymem)
  obtain ⟨⟨i, hi⟩, hieq⟩ := List.mem_iff_get.mp hymem'
  have := heapProp_root_min hinv.1 i hi
  rw [getN_of_lt _ _ hi, hieq, ← hx] at this
  exact this

theorem popListGo_spec : ∀ (fuel : ℕ) (q : PQueue P K), QInv q →
    q.heap.length ≤ fuel →
    (popListGo fuel q).Perm q.heap ∧
    List.Pairwise (fun a b : HeapNode P K => a.item ≤ b.item) (popListGo fuel q) := by
  intro fuel
  induction fuel with
  | zero =>
    intro q _ hlen
    have : q.heap = [] := List.eq_nil_of_length_eq_zero (by omega)
    simp only [popListGo, this]
    exact ⟨.refl _, List.Pairwise.nil⟩
  | succ f ih =>
    intro q hinv hlen
    cases hpop : q.pop with
    | none =>
      have : q.heap = [] :=
        List.eq_nil_of_length_eq_zero ((pop_none_iff q).mp hpop)
      simp only [popListGo, hpop, this]
      exact ⟨.refl _, List.Pairwise.nil⟩
    | some eq' =>
      obtain ⟨e, q'⟩ := eq'
      obtain ⟨hperm, hh', hc', _⟩ := pop_spec hpop hinv.1 hinv.2
      obtain ⟨hlen0, hlen'⟩ := pop_length hpop
      obtain ⟨ihp, ihs⟩ := ih q' ⟨hh', hc'⟩ (by omega)
      simp only [popListGo, hpop]
      constructor
      · have h1 : (e :: popListGo f q').Perm (e :: q'.heap) := ihp.cons e
        have h2 : (q'.heap ++ [e]).Perm (e :: q'.heap) :=
          List.perm_append_singleton e q'.heap
        exact h1.trans (h2.symm.trans hperm)
      · rw [List.pairwise_cons]
        refine ⟨?_, ihs⟩
        intro z hz
        have hz1 : z ∈ q'.heap := ihp.subset hz
        have hz2 : z ∈ q.heap := hperm.subset (List.mem_append_left _ hz1)
        obtain ⟨⟨i, hi⟩, hieq⟩ := List.mem_iff_get.mp hz2
        have hmin := heapProp_root_min hinv.1 i hi
        rw [getN_of_lt _ _ hi, hieq, ← pop_element hpop] at hmin
        exact hmin

theorem pushFold_spec : ∀ (l : List ℕ) (q : PQueue ℕ ℕ), QInv q →
    QInv (l.foldl (fun q k => q.push k k) q) ∧
    (l.foldl (fun q k => q.push k k) q).heap.Perm
      (q.heap ++ l.map fun k => (⟨k, k⟩ : HeapNode ℕ ℕ)) := by
  intro l
  induction l with
  | nil => intro q hinv; exact ⟨hinv, by simp⟩
  | cons k rest ih =>
    intro q hinv
    obtain ⟨c1, c2, c3, _⟩ := push_spec q k k hinv.1 hinv.2
    obtain ⟨ih1, ih2⟩ := ih (q.push k k) ⟨c2, c3⟩
    refine ⟨ih1, ?_⟩
    simp only [List.foldl_cons, List.map_cons]
    have h1 : ((q.push k k).heap ++ rest.map fun k => (⟨k, k⟩ : HeapNode ℕ ℕ)).Perm
        ((q.heap ++ [⟨k, k⟩]) ++ rest.map fun k => (⟨k, k⟩ : HeapNode ℕ ℕ)) :=
      c1.append_right _
    have h2 : (q.heap ++ [(⟨k, k⟩ : HeapNode ℕ ℕ)]) ++
        (rest.map fun k => (⟨k, k⟩ : HeapNode ℕ ℕ))
        = q.heap ++ (⟨k, k⟩ :: rest.map fun k => (⟨k, k⟩ : HeapNode ℕ ℕ)) := by
      rw [List.append_assoc]
      rfl
    rw [h2] at h1
    exact ih2.trans h1

theorem stress_pop_order (N : ℕ) (l : List ℕ) (hperm : l.Perm (List.range N)) :
    (popList (pushAll l)).map (fun nd => nd.item) = List.range N := by
  obtain ⟨hinv, hheapperm⟩ := pushFold_spec l PQueue.empty QInv_empty
  have hheapperm' : (pushAll l).heap.Perm (l.map fun k => (⟨k, k⟩ : HeapNode ℕ ℕ)) := by
    have : (PQueue.empty : PQueue ℕ ℕ).heap ++ (l.map fun k => (⟨k, k⟩ : HeapNode ℕ ℕ))
        = l.map fun k => (⟨k, k⟩ : HeapNode ℕ ℕ) := by
      simp [PQueue.empty]
    rw [this] at hheapperm
    exact hheapperm
  obtain ⟨hp, hs⟩ := popListGo_spec (pushAll l).heap.length (pushAll l) hinv (le_refl _)
  have hplist : (popList (pushAll l)).Perm (pushAll l).heap := hp
  have hmapperm : ((popList (pushAll l)).map fun nd => nd.item).Perm (List.range N) := by
    have h1 := (hplist.trans hheapperm').map (fun nd : HeapNode ℕ ℕ => nd.item)
    rw [List.map_map] at h1
    have h2 : ((fun nd : HeapNode ℕ ℕ => nd.item) ∘ fun k => (⟨k, k⟩ : HeapNode ℕ ℕ))
        = id := rfl
    rw [h2, List.map_id] at h1
    exact h1.trans hperm
  have hsorted : List.Sorted (· ≤ ·) ((popList (pushAll l)).map fun nd => nd.item) :=
    List.pairwise_map.mpr hs
  have hrange : List.Sorted (· ≤ ·) (List.range N) :=
    (List.pairwise_lt_range N).imp le_of_lt
  exact List.eq_of_perm_of_sorted hmapperm hsorted hrange

theorem siftupGo_perm (key : K) (p : P) : ∀ (fuel ix : ℕ) (q : PQueue P K),
    ix < q.heap.length → (siftupGo key p fuel ix q).1.heap.Perm q.heap := by
  intro fuel
  induction fuel with
  | zero => intro ix q _; exact .refl _
  | succ f ih =>
    intro ix q hix
    simp only [siftupGo]
    by_cases h0 : 0 < ix
    · rw [if_pos h0]
      by_cases hcmp : (getN q.heap ((ix - 1) / 2)).item ≤ p
      · rw [if_pos hcmp]
      · rw [if_neg hcmp]
        have hplt : (ix - 1) / 2 < ix := by
          have := Nat.div_le_self (ix - 1) 2; omega
        have h1 := ih ((ix - 1) / 2)
          ⟨swapL q.heap ix ((ix - 1) / 2),
           posSet q.positions (kix (getN q.heap ((ix - 1) / 2)).key) ix⟩
          (by simp only [swapL_length]; omega)
        exact h1.trans (swapL_perm _ _ _ hix (by omega))
    · rw [if_neg h0]

theorem push_key_perm (q : PQueue P K) (k : K) (p : P) :
    ((q.push k p).heap.map fun nd => nd.key).Perm
      (k :: q.heap.map fun nd => nd.key) := by
  have h1 : (q.push k p).heap.Perm (q.heap ++ [⟨p, k⟩]) := by
    unfold PQueue.push siftup
    simp only
    exact siftupGo_perm _ _ _ _ _ (by simp)
  have h2 := h1.map (fun nd : HeapNode P K => nd.key)
  simp only [List.map_append, List.map_cons, List.map_nil] at h2
  have h3 : ((q.heap.map fun nd => nd.key) ++ [k]).Perm
      (k :: q.heap.map fun nd => nd.key) :=
    List.perm_append_singleton _ _
  exact h2.trans h3

end HeapLemmas

end PQ

/-! ### Claim theorems for the priority queue -/

/-- C2: for every sequence of priority-queue operations run from the empty
queue, two successive pops return non-decreasing priorities; in particular,
for every permutation of the keys 0..N-1 pushed with priority equal to the
key (the spec's stress scenario), the pop order is exactly 0, 1, …, N-1. -/
theorem claim_c2_pqueue_pop_order :
    (∀ (P K : Type) [LinearOrder P] [Inhabited P] [Inhabited K] [KeyIx K]
        (ops : List (PQ.QOp P K)) (q q1 q2 : PQ.PQueue P K)
        (x y : PQ.HeapNode P K),
        PQ.runOps PQ.PQueue.empty ops = some q →
        q.pop = some (x, q1) → q1.pop = some (y, q2) → x.item ≤ y.item) ∧
    (∀ (N : ℕ) (l : List ℕ), l.Perm (List.range N) →
      (PQ.popList (PQ.pushAll l)).map (fun nd => nd.item) = List.range N) := by
  constructor
  · intro P K _ _ _ _ ops q q1 q2 x y hrun hp1 hp2
    exact PQ.pop_pop_le (PQ.runOps_inv ops _ q hrun PQ.QInv_empty) hp1 hp2
  · intro N l hperm
    exact PQ.stress_pop_order N l hperm

/-- Witness for C2: a concrete run (priorities 3 then 2 pushed, two pops) and
the stress scenario at N = 3 with the permutation `[2, 0, 1]`. -/
theorem claim_c2_pqueue_pop_order_witness :
    PQ.popOrderX.item ≤ PQ.popOrderY.item ∧
    (PQ.popList (PQ.pushAll [2, 0, 1])).map (fun nd => nd.item) = List.range 3 := by
  constructor
  · exact claim_c2_pqueue_pop_order.1 ℕ ℕ [.push 0 3, .push 1 2]
      PQ.popOrderQ PQ.popOrderQ1 (PQ.popOrderQ1.pop.getD default).2
      PQ.popOrderX PQ.popOrderY rfl rfl rfl
  · exact claim_c2_pqueue_pop_order.2 3 [2, 0, 1] (by decide)

/-- C6 counterexample: `push` on a key already present does not abort; it
silently inserts a second heap entry carrying the same key (here key 5,
pushed with priorities 1 and then 2). -/
theorem claim_c6_counterexample :
    PQ.dupQ.containsKey 5 = true ∧
    (PQ.dupQ.push 5 2).heap.length = 2 ∧
    ((PQ.dupQ.push 5 2).heap.map fun nd => nd.key) = [5, 5] :=
  ⟨rfl, rfl, rfl⟩

/-! ### Search relaxation lemmas -/

namespace Srch

theorem getNeighborIndices_length_le (ix : GridIx) (grid : HeightGrid) :
    (getNeighborIndices ix grid).length ≤ 4 := by
  unfold getNeighborIndices
  split_ifs <;> simp

theorem exploredNbrs_length_le (ix : GridIx) (cfg : SearchConfig)
    (st : SearchState) : (exploredNbrs ix cfg st).length ≤ 4 :=
  le_trans (List.length_filter_le _ _) (getNeighborIndices_length_le ix cfg.grid)

theorem reachableOf_length_le (l : List GridIx) (st : SearchState) :
    (reachableOf l st).length ≤ l.length := by
  unfold reachableOf
  exact le_trans (List.length_filter_le _ _) (le_of_eq (List.length_map _ _))

theorem updateThreeNeighbors_frame (ens : List GridIx) (ix : GridIx)
    (cfg : SearchConfig) (st : SearchState)
    (h3 : (reachableOf ens st).length = 3)
    (h1 : refSetLen (reachableOf ens st) = 1) :
    updateThreeNeighbors ens ix cfg st = st := by
  simp only [updateThreeNeighbors]
  rw [if_neg (by omega), if_neg (by omega), if_pos h3,
    if_neg (by omega), if_neg (by omega)]

theorem updateNode_frame (ix : GridIx) (cfg : SearchConfig) (st : SearchState)
    (h : ((reachableOf (exploredNbrs ix cfg st) st).length = 3 ∧
          refSetLen (reachableOf (exploredNbrs ix cfg st) st) = 1) ∨
         ((reachableOf (exploredNbrs ix cfg st) st).length = 4 ∧
          refSetLen (reachableOf (exploredNbrs ix cfg st) st) < 4)) :
    updateNode ix cfg st = st := by
  have hle4 := exploredNbrs_length_le ix cfg st
  have hrle := reachableOf_length_le (exploredNbrs ix cfg st) st
  simp only [updateNode]
  rcases h with ⟨h3, h1⟩ | ⟨h4, hlt⟩
  · by_cases hl : (exploredNbrs ix cfg st).length = 3
    · rw [if_neg (by omega), if_neg (by omega), if_pos hl]
      exact updateThreeNeighbors_frame _ _ _ _ h3 h1
    · have hl4 : (exploredNbrs ix cfg st).length = 4 := by omega
      rw [if_neg (by omega), if_neg (by omega), if_neg hl, if_pos hl4]
      simp only [updateFourNeighbors]
      rw [if_neg (by omega), if_pos (by omega)]
      exact updateThreeNeighbors_frame _ _ _ _ h3 h1
  · have hl4 : (exploredNbrs ix cfg st).length = 4 := by omega
    rw [if_neg (by omega), if_neg (by omega), if_neg (by omega), if_pos hl4]
    simp only [updateFourNeighbors]
    rw [if_neg (by omega), if_neg (by omega), if_pos h4, if_neg (by omega)]

end Srch

/-- C10: when a cell has exactly three reachable explored neighbours that all
share one identical reference, or exactly four reachable explored neighbours
with fewer than four distinct references, the relaxation makes no proposal:
the search state (queue and explored map) is left completely unchanged. -/
theorem claim_c10_relaxation_no_proposal (ix : Srch.GridIx)
    (cfg : Srch.SearchConfig) (st : Srch.SearchState)
    (h : ((Srch.reachableOf (Srch.exploredNbrs ix cfg st) st).length = 3 ∧
          Srch.refSetLen (Srch.reachableOf (Srch.exploredNbrs ix cfg st) st) = 1) ∨
         ((Srch.reachableOf (Srch.exploredNbrs ix cfg st) st).length = 4 ∧
          Srch.refSetLen (Srch.reachableOf (Srch.exploredNbrs ix cfg st) st) < 4)) :
    Srch.updateNode ix cfg st = st :=
  Srch.updateNode_frame ix cfg st h

/-- Witness for C10: the centre of a 3×3 grid with three reachable explored
neighbours all referencing cell (0,0); relaxation leaves the state unchanged. -/
theorem claim_c10_relaxation_no_proposal_witness :
    ((Srch.reachableOf (Srch.exploredNbrs Srch.centreT Srch.cfg3 Srch.threeSharedSt)
        Srch.threeSharedSt).length = 3 ∧
     Srch.refSetLen (Srch.reachableOf (Srch.exploredNbrs Srch.centreT Srch.cfg3
        Srch.threeSharedSt) Srch.threeSharedSt) = 1) ∧
    Srch.updateNode Srch.centreT Srch.cfg3 Srch.threeSharedSt = Srch.threeSharedSt :=
  ⟨⟨rfl, rfl⟩,
   claim_c10_relaxation_no_proposal Srch.centreT Srch.cfg3 Srch.threeSharedSt
     (Or.inl ⟨rfl, rfl⟩)⟩

namespace PQ

section MoreLemmas

variable {P K : Type} [LinearOrder P] [Inhabited P] [Inhabited K] [KeyIx K]

open KeyIx

theorem push_contains_self (q : PQueue P K) (k : K) (p : P) :
    (q.push k p).containsKey k = true := by
  unfold PQueue.push
  simp only [List.length_append, List.length_cons, List.length_nil,
    Nat.add_sub_cancel]
  unfold siftup
  simp only [PQueue.containsKey]
  rw [getN_append_len]
  simp [posSet]

end MoreLemmas

end PQ

namespace Srch

theorem putOrUpdate_not_contained (st : SearchState) (ix : GridIx) (d : ℝ)
    (hq : st.queue.containsKey ix = false) :
    putOrUpdate st ix d = ({ st with queue := st.queue.push ix d }, true) := by
  simp only [putOrUpdate, hq]
  simp

theorem updateNode_k0_records (ix : GridIx) (cfg : SearchConfig)
    (st : SearchState)
    (h4 : (exploredNbrs ix cfg st).length = 4)
    (h0 : (reachableOf (exploredNbrs ix cfg st) st).length = 0)
    (hq : st.queue.containsKey ix = false) :
    (updateNode ix cfg st).explored ix.ix =
      { st.explored ix.ix with
        height := 0, reference := none, distance := 0, reachable := false } ∧
    (updateNode ix cfg st).queue.containsKey ix = true := by
  simp only [updateNode]
  rw [if_neg (by omega), if_neg (by omega), if_neg (by omega), if_pos h4]
  simp only [updateFourNeighbors]
  rw [if_pos h0, putOrUpdate_not_contained st ix 0 hq]
  constructor
  · simp [exploredInsert]
  · exact PQ.push_contains_self st.queue ix 0

end Srch

/-- C3 counterexample: a cell whose (single) explored neighbourhood contains
zero reachable nodes, where the relaxation records nothing at all — the state
is unchanged and the queue stays empty, so no "unreachable, distance 0, no
reference" record for the cell is created. -/
theorem claim_c3_counterexample :
    (Srch.exploredNbrs Srch.centreT Srch.cfg3 Srch.oneUnreachSt).length = 1 ∧
    (Srch.reachableOf (Srch.exploredNbrs Srch.centreT Srch.cfg3 Srch.oneUnreachSt)
      Srch.oneUnreachSt).length = 0 ∧
    Srch.updateNode Srch.centreT Srch.cfg3 Srch.oneUnreachSt = Srch.oneUnreachSt ∧
    Srch.oneUnreachSt.queue.heap = [] :=
  ⟨rfl, rfl, rfl, rfl⟩

/-- C3 amended: the "K = 0 records the cell as unreachable (height 0,
distance 0, no reference)" rule fires only in `update_four_neighbors`, i.e.
only when all four rook neighbours are explored and none reachable (and the
cell is not already queued); with one to three explored neighbours and zero
reachable ones, nothing is recorded. -/
theorem claim_c3_k0_unreachable_record (ix : Srch.GridIx)
    (cfg : Srch.SearchConfig) (st : Srch.SearchState)
    (h4 : (Srch.exploredNbrs ix cfg st).length = 4)
    (h0 : (Srch.reachableOf (Srch.exploredNbrs ix cfg st) st).length = 0)
    (hq : st.queue.containsKey ix = false) :
    (Srch.updateNode ix cfg st).explored ix.ix =
      { st.explored ix.ix with
        height := 0, reference := none, distance := 0, reachable := false } ∧
    (Srch.updateNode ix cfg st).queue.containsKey ix = true :=
  Srch.updateNode_k0_records ix cfg st h4 h0 hq

/-- Witness for the amended C3: the centre of a 3×3 grid with all four
neighbours explored and unreachable is recorded as unreachable and queued. -/
theorem claim_c3_k0_unreachable_record_witness :
    ((Srch.exploredNbrs Srch.centreT Srch.cfg3 Srch.fourUnreachSt).length = 4 ∧
     (Srch.reachableOf (Srch.exploredNbrs Srch.centreT Srch.cfg3 Srch.fourUnreachSt)
        Srch.fourUnreachSt).length = 0 ∧
     Srch.fourUnreachSt.queue.containsKey Srch.centreT = false) ∧
    ((Srch.updateNode Srch.centreT Srch.cfg3 Srch.fourUnreachSt).explored
        Srch.centreT.ix =
      { Srch.fourUnreachSt.explored Srch.centreT.ix with
        height := 0, reference := none, distance := 0, reachable := false } ∧
     (Srch.updateNode Srch.centreT Srch.cfg3 Srch.fourUnreachSt).queue.containsKey
        Srch.centreT = true) :=
  ⟨⟨rfl, rfl, rfl⟩,
   claim_c3_k0_unreachable_record Srch.centreT Srch.cfg3 Srch.fourUnreachSt
     rfl rfl rfl⟩

namespace Srch

theorem atan2_zero_neg_one : atan2 0 (-1) = Real.pi := by
  unfold atan2
  have h : (⟨-1, 0⟩ : ℂ) = -1 := by
    apply Complex.ext <;> simp
  rw [h]
  exact Complex.arg_neg_one

theorem storm_selectReference :
    selectReference (fromGrid (0, 1) (1, 2)) stormCfg stormSt
      (stormSt.explored (fromGrid (0, 0) (1, 2)).ix) false = stormNbr := by
  simp [selectReference, stormSt, fromGrid, stormNbr]

theorem storm_egr_eval :
    (getEffectiveGlideRatioFromTo stormCfg.query (fromGrid (0, 1) (1, 2)).pos
      stormNbr.ix.pos).egr = none := by
  have hpos1 : (fromGrid (0, 1) (1, 2)).pos = (0, 1) := rfl
  have hpos0 : stormNbr.ix.pos = (0, 0) := rfl
  rw [hpos1, hpos0]
  simp only [getEffectiveGlideRatioFromTo, stormCfg, stormQuery]
  rw [if_neg (by norm_num)]
  have hdiff : l2Diff (0, 0) (0, 1) = (0, -1) := by
    simp [l2Diff]
  rw [hdiff]
  have hangle : atan2 ((0 : ℤ) : ℝ) (((-1 : ℤ)) : ℝ) = Real.pi := by
    push_cast
    exact atan2_zero_neg_one
  rw [hangle]
  have hewa : -(Real.pi / 2) + Real.pi / 2 - Real.pi = -Real.pi := by ring
  rw [hewa]
  simp only [getEffectiveGlideRatio]
  rw [if_neg (by
    simp only [Real.sin_neg, Real.sin_pi]
    norm_num)]
  rw [if_pos (by
    simp only [Real.sin_neg, Real.sin_pi, Real.cos_neg, Real.cos_pi]
    norm_num [Real.sqrt_one])]

end Srch

/-- C5: whenever the crosswind leaves no forward airspeed
(`trim² − side_wind² ≤ 0`) or the ground forward component
(`√(trim² − side_wind²) + back_wind`) is non-positive, the effective glide
ratio is infinite; and whenever the effective glide ratio toward the selected
reference is infinite, `update_one_neighbor` silently skips the edge, leaving
the search state unchanged. -/
theorem claim_c5_infeasible_move_skipped :
    (∀ (angle w trim g : ℝ),
        (trim * trim - Real.sin angle * w * (Real.sin angle * w) ≤ 0 ∨
         Real.sqrt (trim * trim - Real.sin angle * w * (Real.sin angle * w)) +
           Real.cos angle * w ≤ 0) →
        (Srch.getEffectiveGlideRatio angle w trim g).egr = none) ∧
    (∀ (nbrIx ix : Srch.GridIx) (cfg : Srch.SearchConfig) (st : Srch.SearchState)
        (dc : Option Bool),
        (Srch.getEffectiveGlideRatioFromTo cfg.query ix.pos
          (Srch.selectReference ix cfg st (st.explored nbrIx.ix)
            (dc.getD false)).ix.pos).egr = none →
        Srch.updateOneNeighbor nbrIx ix cfg st dc = st) := by
  constructor
  · intro angle w trim g h
    simp only [Srch.getEffectiveGlideRatio]
    by_cases h1 : trim * trim - Real.sin angle * w * (Real.sin angle * w) ≤ 0
    · rw [if_pos h1]
    · rw [if_neg h1]
      rcases h with h | h
      · exact absurd h h1
      · rw [if_pos h]
  · intro nbrIx ix cfg st dc hegr
    simp only [Srch.updateOneNeighbor]
    split_ifs with h1 h2
    · rfl
    · rfl
    · simp only [Srch.updateOneCommit, hegr]

/-- Witness for C5: a glider with trim speed 1 against a 2 m/s wind from the
east; the move from (0,0) to (0,1) is infeasible and the relaxation leaves
the state unchanged. -/
theorem claim_c5_infeasible_move_skipped_witness :
    (((1 : ℝ) * 1 - Real.sin Real.pi * 2 * (Real.sin Real.pi * 2) ≤ 0 ∨
      Real.sqrt ((1 : ℝ) * 1 - Real.sin Real.pi * 2 * (Real.sin Real.pi * 2)) +
        Real.cos Real.pi * 2 ≤ 0) ∧
     (Srch.getEffectiveGlideRatio Real.pi 2 1 (1 / 2)).egr = none) ∧
    Srch.updateOneNeighbor (Srch.fromGrid (0, 0) (1, 2)) (Srch.fromGrid (0, 1) (1, 2))
      Srch.stormCfg Srch.stormSt none = Srch.stormSt := by
  have hdisj : (1 : ℝ) * 1 - Real.sin Real.pi * 2 * (Real.sin Real.pi * 2) ≤ 0 ∨
      Real.sqrt ((1 : ℝ) * 1 - Real.sin Real.pi * 2 * (Real.sin Real.pi * 2)) +
        Real.cos Real.pi * 2 ≤ 0 :=
    Or.inr (by norm_num [Real.sin_pi, Real.cos_pi, Real.sqrt_one])
  refine ⟨⟨hdisj, claim_c5_infeasible_move_skipped.1 Real.pi 2 1 (1 / 2) hdisj⟩, ?_⟩
  apply claim_c5_infeasible_move_skipped.2
  show (Srch.getEffectiveGlideRatioFromTo Srch.stormCfg.query _
    (Srch.selectReference _ Srch.stormCfg Srch.stormSt _ (Option.getD none false)).ix.pos).egr = none
  rw [show Option.getD none false = false from rfl, Srch.storm_selectReference]
  exact Srch.storm_egr_eval

/-! ### Height-data lemmas -/

namespace Hgt

theorem getD_append_lt {α : Type} (l l' : List α) (d : α) (i : ℕ)
    (h : i < l.length) : (l ++ l').getD i d = l.getD i d := by
  simp [List.getD_eq_getElem?_getD, List.getElem?_append_left h]

theorem getD_append_ge {α : Type} (l l' : List α) (d : α) (i : ℕ)
    (h : l.length ≤ i) : (l ++ l').getD i d = l'.getD (i - l.length) d := by
  simp [List.getD_eq_getElem?_getD, List.getElem?_append_right h]

theorem ite_void_guard_some {x v : ℤ}
    (h : (if x < -1000 then (none : Option ℤ) else some x) = some v) :
    ¬ v < -1000 := by
  split at h
  · exact Option.noConfusion h
  · cases h
    assumption

theorem patchValue_some_ge {S : ℕ} {acc : List ℤ} {r v : ℤ}
    (h : patchValue S acc r = some v) : ¬ v < -1000 :=
  ite_void_guard_some h

theorem patchValue_nonvoid (S : ℕ) (acc : List ℤ) (r : ℤ) (hr : ¬ r < -1000) :
    patchValue S acc r = some r := by
  simp [patchValue, hr]

theorem patchValue_void (S : ℕ) (acc : List ℤ) (r : ℤ) (hr : r < -1000)
    (hlen : 1 ≤ acc.length) (hlast : ¬ acc.getD (acc.length - 1) 0 < -1000) :
    patchValue S acc r = some (acc.getD (acc.length - 1) 0) := by
  have hlast' : ¬ (acc[acc.length - 1]?.getD 0) < -1000 := by
    simpa [List.getD_eq_getElem?_getD] using hlast
  simp [patchValue, hr, hlen, hlast, hlast']

theorem patchValue_empty_void (S : ℕ) (r : ℤ) (hr : r < -1000) (hS : 2 < S) :
    patchValue S [] r = none := by
  have h2 : ¬ S ≤ 0 := by omega
  have h3 : ¬ S - 1 ≤ 0 := by omega
  have h4 : ¬ S + 1 ≤ 0 := by omega
  have h5 : ¬ S ≤ 1 := by omega
  simp [patchValue, hr, h2, h3, h4, h5]

theorem loadHgtGo_nil (S : ℕ) (acc : List ℤ) : loadHgtGo S acc [] = some acc := rfl

theorem loadHgtGo_cons (S : ℕ) (acc : List ℤ) (r : ℤ) (rest : List ℤ) :
    loadHgtGo S acc (r :: rest)
      = match patchValue S acc r with
        | none => none
        | some v => loadHgtGo S (acc ++ [v]) rest := rfl

theorem loadHgtGo_cons_none {S : ℕ} {acc : List ℤ} {r : ℤ} (rest : List ℤ)
    (h : patchValue S acc r = none) : loadHgtGo S acc (r :: rest) = none := by
  rw [loadHgtGo_cons, h]

theorem loadHgtGo_cons_some {S : ℕ} {acc : List ℤ} {r v : ℤ} (rest : List ℤ)
    (h : patchValue S acc r = some v) :
    loadHgtGo S acc (r :: rest) = loadHgtGo S (acc ++ [v]) rest := by
  rw [loadHgtGo_cons, h]

theorem loadHgtGo_voidfree (S : ℕ) :
    ∀ (l acc : List ℤ), (∀ x ∈ l, ¬ x < -1000) →
      loadHgtGo S acc l = some (acc ++ l) := by
  intro l
  induction l with
  | nil => intro acc _; rw [loadHgtGo_nil]; simp
  | cons r rest ih =>
    intro acc hok
    rw [loadHgtGo_cons_some rest
        (patchValue_nonvoid S acc r (hok r (List.mem_cons_self r rest))),
      ih (acc ++ [r]) (fun x hx => hok x (List.mem_cons_of_mem r hx))]
    simp

theorem loadHgtGo_append (S : ℕ) :
    ∀ (l1 l2 acc : List ℤ),
      loadHgtGo S acc (l1 ++ l2)
        = (loadHgtGo S acc l1).bind fun a => loadHgtGo S a l2 := by
  intro l1
  induction l1 with
  | nil => intro l2 acc; rw [List.nil_append, loadHgtGo_nil, Option.some_bind]
  | cons r rest ih =>
    intro l2 acc
    rw [List.cons_append]
    cases hpv : patchValue S acc r with
    | none => rw [loadHgtGo_cons_none _ hpv, loadHgtGo_cons_none _ hpv, Option.none_bind]
    | some v =>
      rw [loadHgtGo_cons_some _ hpv, loadHgtGo_cons_some _ hpv]
      exact ih l2 (acc ++ [v])

theorem claimedPatchValue_nonvoid (S : ℕ) (acc : List ℤ) (r : ℤ)
    (hr : ¬ r < -1000) : claimedPatchValue S acc r = some r := by
  simp only [claimedPatchValue]
  rw [if_neg hr]

theorem claimedLoadGo_nil (S : ℕ) (acc : List ℤ) :
    claimedLoadGo S acc [] = some acc := rfl

theorem claimedLoadGo_cons (S : ℕ) (acc : List ℤ) (r : ℤ) (rest : List ℤ) :
    claimedLoadGo S acc (r :: rest)
      = match claimedPatchValue S acc r with
        | none => none
        | some v => claimedLoadGo S (acc ++ [v]) rest := rfl

theorem claimedLoadGo_cons_none {S : ℕ} {acc : List ℤ} {r : ℤ} (rest : List ℤ)
    (h : claimedPatchValue S acc r = none) :
    claimedLoadGo S acc (r :: rest) = none := by
  rw [claimedLoadGo_cons, h]

theorem claimedLoadGo_cons_some {S : ℕ} {acc : List ℤ} {r v : ℤ} (rest : List ℤ)
    (h : claimedPatchValue S acc r = some v) :
    claimedLoadGo S acc (r :: rest) = claimedLoadGo S (acc ++ [v]) rest := by
  rw [claimedLoadGo_cons, h]

theorem claimedLoadGo_voidfree (S : ℕ) :
    ∀ (l acc : List ℤ), (∀ x ∈ l, ¬ x < -1000) →
      claimedLoadGo S acc l = some (acc ++ l) := by
  intro l
  induction l with
  | nil => intro acc _; rw [claimedLoadGo_nil]; simp
  | cons r rest ih =>
    intro acc hok
    rw [claimedLoadGo_cons_some rest
        (claimedPatchValue_nonvoid S acc r (hok r (List.mem_cons_self r rest))),
      ih (acc ++ [r]) (fun x hx => hok x (List.mem_cons_of_mem r hx))]
    simp

theorem claimedLoadGo_append (S : ℕ) :
    ∀ (l1 l2 acc : List ℤ),
      claimedLoadGo S acc (l1 ++ l2)
        = (claimedLoadGo S acc l1).bind fun a => claimedLoadGo S a l2 := by
  intro l1
  induction l1 with
  | nil => intro l2 acc; rw [List.nil_append, claimedLoadGo_nil, Option.some_bind]
  | cons r rest ih =>
    intro l2 acc
    rw [List.cons_append]
    cases hpv : claimedPatchValue S acc r with
    | none =>
      rw [claimedLoadGo_cons_none _ hpv, claimedLoadGo_cons_none _ hpv, Option.none_bind]
    | some v =>
      rw [claimedLoadGo_cons_some _ hpv, claimedLoadGo_cons_some _ hpv]
      exact ih l2 (acc ++ [v])

theorem loadHgtGo_spec :
    ∀ (l acc out : List ℤ), (∀ x ∈ acc, ¬ x < -1000) →
      loadHgtGo hgtSize acc l = some out →
      (∀ x ∈ out, ¬ x < -1000) ∧
      out.length = acc.length + l.length ∧
      (∀ i, i < acc.length → out.getD i 0 = acc.getD i 0) ∧
      (∀ i, acc.length ≤ i → i < out.length →
        out.getD i 0 = if l.getD (i - acc.length) 0 < -1000
          then out.getD (i - 1) 0 else l.getD (i - acc.length) 0) := by
  intro l
  induction l with
  | nil =>
    intro acc out hok h
    rw [loadHgtGo_nil] at h
    cases h
    refine ⟨hok, by simp, fun i _ => rfl, fun i h1 h2 => ?_⟩
    exact absurd h2 (by omega)
  | cons r rest ih =>
    intro acc out hok h
    cases hpv : patchValue hgtSize acc r with
    | none => rw [loadHgtGo_cons_none _ hpv] at h; exact Option.noConfusion h
    | some v =>
      rw [loadHgtGo_cons_some _ hpv] at h
      have hvok : ¬ v < -1000 := patchValue_some_ge hpv
      have haccok : ∀ x ∈ acc ++ [v], ¬ x < -1000 := by
        intro x hx
        rcases List.mem_append.mp hx with hx | hx
        · exact hok x hx
        · rw [List.mem_singleton.mp hx]; exact hvok
      obtain ⟨c1, c2, c3, c4⟩ := ih (acc ++ [v]) out haccok h
      have hvval : v = if r < -1000 then acc.getD (acc.length - 1) 0 else r := by
        by_cases hr : r < -1000
        · rw [if_pos hr]
          by_cases hlen : 1 ≤ acc.length
          · have hlast : ¬ acc.getD (acc.length - 1) 0 < -1000 := by
              by_cases haccnil : acc.length = 0
              · exfalso; omega
              · apply hok
                rw [List.getD_eq_getElem?_getD,
                  List.getElem?_eq_getElem (by omega : acc.length - 1 < acc.length)]
                simp only [Option.getD_some]
                exact List.getElem_mem _
            rw [patchValue_void hgtSize acc r hr hlen hlast] at hpv
            exact (Option.some.inj hpv).symm
          · exfalso
            have hacc0 : acc = [] := List.eq_nil_of_length_eq_zero (by omega)
            rw [hacc0, patchValue_empty_void hgtSize r hr (by norm_num [hgtSize])] at hpv
            exact Option.noConfusion hpv
        · rw [if_neg hr]
          rw [patchValue_nonvoid hgtSize acc r hr] at hpv
          exact (Option.some.inj hpv).symm
      refine ⟨c1, by simp at c2 ⊢; omega, ?_, ?_⟩
      · intro i hi
        rw [c3 i (by simp; omega), getD_append_lt _ _ _ _ hi]
      · intro i h1 h2
        by_cases hieq : i = acc.length
        · subst hieq
          have hout : out.getD acc.length 0 = v := by
            rw [c3 acc.length (by simp),
              getD_append_ge _ _ _ _ (le_refl _)]
            simp
          rw [hout, Nat.sub_self, List.getD_cons_zero, hvval]
          by_cases hr : r < -1000
          · rw [if_pos hr, if_pos hr]
            have hlen1 : 1 ≤ acc.length := by
              by_contra hc
              have hacc0 : acc = [] := List.eq_nil_of_length_eq_zero (by omega)
              rw [hacc0, patchValue_empty_void hgtSize r hr (by norm_num [hgtSize])]
                at hpv
              exact Option.noConfusion hpv
            rw [c3 (acc.length - 1) (by simp; omega),
              getD_append_lt _ _ _ _ (by omega)]
          · rw [if_neg hr, if_neg hr]
        · have hgt : acc.length + 1 ≤ i := by omega
          have := c4 i (by simp; omega) h2
          have hcons : ∀ j, acc.length + 1 ≤ j →
              rest.getD (j - (acc ++ [v]).length) 0 = (r :: rest).getD (j - acc.length) 0 := by
            intro j hj
            have : j - acc.length = (j - (acc ++ [v]).length) + 1 := by
              simp; omega
            rw [this, List.getD_cons_succ]
          rw [hcons i hgt] at this
          rw [this]

theorem c4row0_len : c4row0.length = 3601 := by
  show (7 :: (List.replicate 3599 (0 : ℤ) ++ [9])).length = 3601
  rw [List.length_cons, List.length_append, List.length_replicate,
    List.length_singleton]

theorem c4row0_eq : c4row0 = (7 :: List.replicate 3599 0) ++ [9] := rfl

theorem c4row0_nonvoid : ∀ x ∈ c4row0, ¬ x < -1000 := by
  intro x hx
  rcases List.mem_cons.mp hx with rfl | hx1
  · norm_num
  rcases List.mem_append.mp hx1 with hx2 | hx2
  · rw [List.eq_of_mem_replicate hx2]
    norm_num
  · rw [List.mem_singleton.mp hx2]
    norm_num

theorem c4zeros_nonvoid :
    ∀ x ∈ List.replicate (hgtSize * hgtSize - 3602) (0 : ℤ), ¬ x < -1000 := by
  intro x hx
  rw [List.eq_of_mem_replicate hx]
  norm_num

theorem c4row0_getD0 : c4row0.getD 0 0 = 7 := rfl

theorem c4row0_getD3600 : c4row0.getD 3600 0 = 9 := by
  have hlen : (7 :: List.replicate 3599 (0 : ℤ)).length = 3600 := by
    rw [List.length_cons, List.length_replicate]
  rw [c4row0_eq, getD_append_ge _ _ _ _ hlen.le, hlen]
  norm_num

theorem loadHgt_c4 :
    loadHgt hgtSize c4input
      = some ((c4row0 ++ [9]) ++ List.replicate (hgtSize * hgtSize - 3602) 0) := by
  have h1 : loadHgtGo hgtSize [] c4row0 = some c4row0 := by
    have h := loadHgtGo_voidfree hgtSize c4row0 [] c4row0_nonvoid
    rw [List.nil_append] at h
    exact h
  have hpv : patchValue hgtSize c4row0 (-32768) = some 9 := by
    have hlast : ¬ c4row0.getD (c4row0.length - 1) 0 < -1000 := by
      rw [c4row0_len]
      show ¬ c4row0.getD 3600 0 < -1000
      rw [c4row0_getD3600]
      norm_num
    have h := patchValue_void hgtSize c4row0 (-32768) (by norm_num)
      (by rw [c4row0_len]; norm_num) hlast
    rw [h, c4row0_len]
    show some (c4row0.getD 3600 0) = some 9
    rw [c4row0_getD3600]
  show loadHgtGo hgtSize []
      (c4row0 ++ (-32768 :: List.replicate (hgtSize * hgtSize - 3602) 0)) = _
  rw [loadHgtGo_append, h1, Option.some_bind, loadHgtGo_cons_some _ hpv,
    loadHgtGo_voidfree hgtSize _ (c4row0 ++ [9]) c4zeros_nonvoid]

theorem claimedPV_c4 : claimedPatchValue hgtSize c4row0 (-32768) = some 7 := by
  have hx : c4row0.length / hgtSize = 1 := by rw [c4row0_len]; rfl
  have hy : c4row0.length % hgtSize = 0 := by rw [c4row0_len]; rfl
  simp only [claimedPatchValue, hx, hy]
  rw [if_pos (by norm_num : (-32768 : ℤ) < -1000),
    if_neg (by norm_num : ¬ (0 : ℕ) < 0),
    if_pos (by norm_num : (0 : ℕ) < 1)]
  rw [c4row0_len]
  show some (c4row0.getD 0 0) = some 7
  rw [c4row0_getD0]

theorem claimedLoad_c4 :
    claimedLoad hgtSize c4input
      = some ((c4row0 ++ [7]) ++ List.replicate (hgtSize * hgtSize - 3602) 0) := by
  have h1 : claimedLoadGo hgtSize [] c4row0 = some c4row0 := by
    have h := claimedLoadGo_voidfree hgtSize c4row0 [] c4row0_nonvoid
    rw [List.nil_append] at h
    exact h
  show claimedLoadGo hgtSize []
      (c4row0 ++ (-32768 :: List.replicate (hgtSize * hgtSize - 3602) 0)) = _
  rw [claimedLoadGo_append, h1, Option.some_bind,
    claimedLoadGo_cons_some _ claimedPV_c4,
    claimedLoadGo_voidfree hgtSize _ (c4row0 ++ [7]) c4zeros_nonvoid]

theorem c4_getD3601_patched (v : ℤ) :
    ((c4row0 ++ [v]) ++ List.replicate (hgtSize * hgtSize - 3602) 0).getD 3601 0
      = v := by
  rw [getD_append_lt _ _ _ _ (by rw [List.length_append, c4row0_len]; norm_num),
    getD_append_ge _ _ _ _ (by simp [c4row0_len]), c4row0_len]
  norm_num

theorem c4input_len : c4input.length = hgtSize * hgtSize := by
  show (c4row0 ++ ([-32768] ++
    List.replicate (hgtSize * hgtSize - 3602) (0 : ℤ))).length
      = hgtSize * hgtSize
  rw [List.length_append, List.length_append, List.length_replicate,
    c4row0_len, List.length_singleton]
  norm_num [hgtSize]

theorem c4input_getD3601 : c4input.getD 3601 0 = -32768 := by
  show (c4row0 ++ ((-32768) ::
    List.replicate (hgtSize * hgtSize - 3602) (0 : ℤ))).getD 3601 0 = -32768
  rw [getD_append_ge _ _ _ _ c4row0_len.le, c4row0_len]
  show ((-32768 : ℤ) ::
    List.replicate (hgtSize * hgtSize - 3602) (0 : ℤ)).getD 0 0 = -32768
  rw [List.getD_cons_zero]

end Hgt

/-- C4 counterexample: on a 3601×3601 tile whose cell (1,0) is a void
(−32768), with 7 at (0,0) [the claimed above-neighbour of the void] and 9 at
(0,3600) [the end of row 0], the loader of height_data.rs patches the void
with the flat predecessor 9 (the last cell of the previous row), while the
specified left/above/above-right/above-left cascade would patch it with the
above-neighbour 7. -/
theorem claim_c4_counterexample :
    Hgt.c4input.length = Hgt.hgtSize * Hgt.hgtSize ∧
    Hgt.c4input.getD 3601 0 = -32768 ∧
    (Hgt.loadHgt Hgt.hgtSize Hgt.c4input).map (fun out => out.getD 3601 0)
      = some 9 ∧
    (Hgt.claimedLoad Hgt.hgtSize Hgt.c4input).map (fun out => out.getD 3601 0)
      = some 7 := by
  refine ⟨Hgt.c4input_len, Hgt.c4input_getD3601, ?_, ?_⟩
  · rw [Hgt.loadHgt_c4, Option.map_some', Hgt.c4_getD3601_patched]
  · rw [Hgt.claimedLoad_c4, Option.map_some', Hgt.c4_getD3601_patched]

/-- C4 amended: the void patching of `load_hgt` replaces each value below
−1000 with the immediately preceding already-patched value of the row-major
sample stream (the left neighbour, wrapping across row ends to the last cell
of the previous row) — not with the left/above/above-right/above-left
cascade; a successful load has no residual voids and preserves length. -/
theorem claim_c4_flat_predecessor_patch (input out : List ℤ)
    (h : Hgt.loadHgt Hgt.hgtSize input = some out) :
    out.length = input.length ∧
    (∀ x ∈ out, ¬ x < -1000) ∧
    (∀ i, i < out.length →
      out.getD i 0 = if input.getD i 0 < -1000
        then out.getD (i - 1) 0 else input.getD i 0) := by
  obtain ⟨c1, c2, _, c4⟩ := Hgt.loadHgtGo_spec input [] out (by simp) h
  refine ⟨by simpa using c2, c1, fun i hi => ?_⟩
  simpa using c4 i (Nat.zero_le i) hi

/-- Witness for the C4 amendment: loading `[5, −2000]` patches the void with
its flat predecessor, yielding `[5, 5]`. -/
theorem claim_c4_flat_predecessor_patch_witness :
    [(5 : ℤ), 5].length = [(5 : ℤ), -2000].length ∧
    (∀ x ∈ [(5 : ℤ), 5], ¬ x < -1000) ∧
    (∀ i, i < [(5 : ℤ), 5].length →
      [(5 : ℤ), 5].getD i 0 = if [(5 : ℤ), -2000].getD i 0 < -1000
        then [(5 : ℤ), 5].getD (i - 1) 0 else [(5 : ℤ), -2000].getD i 0) :=
  claim_c4_flat_predecessor_patch [5, -2000] [5, 5] (by decide)

/-- C6 amended: `push` performs no presence check at all: for every queue and
key, it unconditionally adds one heap entry with that key (so pushing an
existing key silently duplicates it, and the no-duplicate discipline rests on
callers testing `contains` first). -/
theorem claim_c6_push_inserts_unconditionally :
    ∀ (P K : Type) [LinearOrder P] [Inhabited P] [Inhabited K] [KeyIx K]
      (q : PQ.PQueue P K) (k : K) (p : P),
      ((q.push k p).heap.map fun nd => nd.key).Perm
        (k :: q.heap.map fun nd => nd.key) := by
  intro P K _ _ _ _ q k p
  exact PQ.push_key_perm q k p

/-! ### The straight-line collapse and the commit equations (C1) -/

namespace Srch

/-- When the effective glide is finite and the target cell is not yet queued,
`updateOneCommit` pushes the cell and overwrites its record with the freshly
computed height, distance, reachability and the collapsed reference. -/
theorem updateOneCommit_push (reference : Node) (ix : GridIx)
    (cfg : SearchConfig) (st : SearchState) (gr : ℝ)
    (hegr : (getEffectiveGlideRatioFromTo cfg.query ix.pos
      reference.ix.pos).egr = some gr)
    (hq : st.queue.containsKey ix = false) :
    updateOneCommit reference ix cfg st =
      ({ explored := exploredInsert st.explored ix fun old =>
          { old with
            height := reference.height -
              l2Distance ix.pos reference.ix.pos * cfg.grid.cell_size * gr
            reference :=
              some (getStraightLineRef (chainFuel cfg) ix reference st.explored).ix
            distance := l2Distance ix.pos reference.ix.pos * cfg.grid.cell_size
              + reference.distance
            reachable := decide ((cfg.grid.heights ix.pos.1 ix.pos.2 : ℝ) +
              getSafetyMarginAtDistance cfg
                (l2Distance ix.pos reference.ix.pos * cfg.grid.cell_size
                  + reference.distance) <
              reference.height -
                l2Distance ix.pos reference.ix.pos * cfg.grid.cell_size * gr) }
         queue := st.queue.push ix
          (l2Distance ix.pos reference.ix.pos * cfg.grid.cell_size
            + reference.distance) } : SearchState) := by
  simp only [updateOneCommit, hegr, putOrUpdate_not_contained st ix _ hq, if_true]

theorem collapse_selectRef :
    selectReference collapseT collapseCfg collapseSt collapseN false
      = collapseN := by
  rw [selectReference, if_neg]
  rintro ⟨-, h | h⟩
  · exact absurd h (by norm_num [collapseCfg, calmQuery])
  · exact Bool.noConfusion h

theorem exploredInsert_ne (m : Explored) (k : GridIx) (f : Node → Node)
    (i : ℕ) (h : ¬ i = k.ix) : exploredInsert m k f i = m i := by
  rw [exploredInsert, if_neg h]

theorem state_explored_ne (m : Explored) (q : PQ.PQueue ℝ GridIx) (k : GridIx)
    (f : Node → Node) (i : ℕ) (h : ¬ i = k.ix) :
    ({ explored := exploredInsert m k f, queue := q } : SearchState).explored i
      = m i := by
  show exploredInsert m k f i = m i
  rw [exploredInsert, if_neg h]

theorem collapse_egr :
    getEffectiveGlideRatioFromTo collapseCfg.query collapseT.pos
      collapseN.ix.pos = ⟨1, some (1 / 2)⟩ := by
  rw [getEffectiveGlideRatioFromTo,
    if_pos (show collapseCfg.query.wind_speed = 0 from rfl)]
  rfl

theorem collapse_step1 :
    updateNode collapseT collapseCfg collapseSt
      = updateOneCommit collapseN collapseT collapseCfg collapseSt := by
  show updateOneNeighbor (fromGrid (2, 0) (3, 2)) collapseT collapseCfg
      collapseSt none = _
  simp only [updateOneNeighbor]
  rw [if_neg (by decide), if_neg (by
    rintro ⟨⟨-, h | h⟩, -⟩
    · exact absurd h (by norm_num [collapseCfg, calmQuery])
    · exact Bool.noConfusion h)]
  show updateOneCommit
      (selectReference collapseT collapseCfg collapseSt collapseN false)
      collapseT collapseCfg collapseSt = _
  rw [collapse_selectRef]

theorem collapse_slr :
    getStraightLineRef (chainFuel collapseCfg) collapseT collapseN
      collapseSt.explored = collapseA := rfl

theorem collapse_dist1 : l2Distance collapseT.pos collapseN.ix.pos = 1 := by
  show Real.sqrt ((((2 : ℕ) : ℝ) - ((2 : ℕ) : ℝ)) ^ 2 +
    (((1 : ℕ) : ℝ) - ((0 : ℕ) : ℝ)) ^ 2) = 1
  norm_num

theorem collapse_dist2 : l2Distance collapseT.pos collapseA.ix.pos = 2 := by
  show Real.sqrt ((((2 : ℕ) : ℝ) - ((0 : ℕ) : ℝ)) ^ 2 +
    (((1 : ℕ) : ℝ) - ((1 : ℕ) : ℝ)) ^ 2) = 2
  have h4 : (((2 : ℕ) : ℝ) - ((0 : ℕ) : ℝ)) ^ 2 +
      (((1 : ℕ) : ℝ) - ((1 : ℕ) : ℝ)) ^ 2 = 2 ^ 2 := by norm_num
  rw [h4, Real.sqrt_sq (by norm_num : (0 : ℝ) ≤ 2)]

theorem collapse_eval :
    ((updateNode collapseT collapseCfg collapseSt).explored
        collapseT.ix).reference = some collapseA.ix ∧
    ((updateNode collapseT collapseCfg collapseSt).explored
        collapseT.ix).distance = 1 + Real.sqrt 5 ∧
    (updateNode collapseT collapseCfg collapseSt).explored collapseA.ix.ix
      = collapseA := by
  rw [collapse_step1,
    updateOneCommit_push collapseN collapseT collapseCfg collapseSt (1 / 2)
      (by rw [collapse_egr]) rfl]
  refine ⟨?_, ?_, ?_⟩
  · show (exploredInsert collapseSt.explored collapseT _ collapseT.ix).reference
      = some collapseA.ix
    rw [exploredInsert, if_pos rfl]
    show some (getStraightLineRef (chainFuel collapseCfg) collapseT collapseN
      collapseSt.explored).ix = some collapseA.ix
    rw [collapse_slr]
  · show (exploredInsert collapseSt.explored collapseT _ collapseT.ix).distance
      = 1 + Real.sqrt 5
    rw [exploredInsert, if_pos rfl]
    show l2Distance collapseT.pos collapseN.ix.pos * collapseCfg.grid.cell_size
        + collapseN.distance = 1 + Real.sqrt 5
    rw [collapse_dist1]
    show (1 : ℝ) * 1 + Real.sqrt 5 = 1 + Real.sqrt 5
    rw [one_mul]
  · rw [state_explored_ne collapseSt.explored _ collapseT _ collapseA.ix.ix
      (by decide)]
    rfl

end Srch

/-- C1 counterexample: relaxing T = (2,1) of a flat 3×2 grid from its only
explored neighbour n = (2,0) (which references the start A = (0,1) in a
straight line with T), the commit stores distance `1 + √5` (computed from n)
but, after straight-line collapsing, stores A as the reference; with respect
to the stored reference the claimed equation would give distance
`A.distance + L2(T,A)·cell = 2`, and the committed distance exceeds that by
`√5 − 1 > 1` — far beyond any 1-ulp tolerance. -/
theorem claim_c1_counterexample :
    ((Srch.updateNode Srch.collapseT Srch.collapseCfg Srch.collapseSt).explored
        Srch.collapseT.ix).reference = some Srch.collapseA.ix ∧
    (Srch.updateNode Srch.collapseT Srch.collapseCfg Srch.collapseSt).explored
        Srch.collapseA.ix.ix = Srch.collapseA ∧
    Srch.collapseA.distance +
        Srch.l2Distance Srch.collapseT.pos Srch.collapseA.ix.pos *
          Srch.collapseCfg.grid.cell_size = 2 ∧
    ((Srch.updateNode Srch.collapseT Srch.collapseCfg Srch.collapseSt).explored
        Srch.collapseT.ix).distance = 1 + Real.sqrt 5 ∧
    1 < ((Srch.updateNode Srch.collapseT Srch.collapseCfg Srch.collapseSt).explored
        Srch.collapseT.ix).distance - 2 := by
  obtain ⟨h1, h2, h3⟩ := Srch.collapse_eval
  refine ⟨h1, h3, ?_, h2, ?_⟩
  · rw [Srch.collapse_dist2]
    show (0 : ℝ) + 2 * 1 = 2
    norm_num
  · rw [h2]
    have h5 : (2 : ℝ) < Real.sqrt 5 := by
      rw [show (2 : ℝ) = Real.sqrt 4 by
        rw [show (4 : ℝ) = 2 ^ 2 by norm_num,
          Real.sqrt_sq (by norm_num : (0 : ℝ) ≤ 2)]]
      exact Real.sqrt_lt_sqrt (by norm_num) (by norm_num)
    linarith

/-- C1 amended: the commit equations of `update_one_neighbor` hold with
respect to the *selected* (pre-collapse) reference node: the committed
distance is `reference.distance + L2(T, reference)·cell_size` and the
committed height is `reference.height − L2(T, reference)·cell_size·gr`; the
*stored* reference pointer, however, is the result of the straight-line
collapse `get_straight_line_ref`, which may be a strictly farther ancestor.
-/
theorem claim_c1_commit_equations (reference : Srch.Node) (ix : Srch.GridIx)
    (cfg : Srch.SearchConfig) (st : Srch.SearchState) (gr : ℝ)
    (hegr : (Srch.getEffectiveGlideRatioFromTo cfg.query ix.pos
      reference.ix.pos).egr = some gr)
    (hq : st.queue.containsKey ix = false) :
    ((Srch.updateOneCommit reference ix cfg st).explored ix.ix).distance
      = reference.distance +
        Srch.l2Distance ix.pos reference.ix.pos * cfg.grid.cell_size ∧
    ((Srch.updateOneCommit reference ix cfg st).explored ix.ix).height
      = reference.height -
        Srch.l2Distance ix.pos reference.ix.pos * cfg.grid.cell_size * gr ∧
    ((Srch.updateOneCommit reference ix cfg st).explored ix.ix).reference
      = some (Srch.getStraightLineRef (Srch.chainFuel cfg) ix reference
          st.explored).ix := by
  rw [Srch.updateOneCommit_push reference ix cfg st gr hegr hq]
  refine ⟨?_, ?_, ?_⟩
  · show (Srch.exploredInsert st.explored ix _ ix.ix).distance = _
    rw [Srch.exploredInsert, if_pos rfl]
    show Srch.l2Distance ix.pos reference.ix.pos * cfg.grid.cell_size
        + reference.distance = _
    ring
  · show (Srch.exploredInsert st.explored ix _ ix.ix).height = _
    rw [Srch.exploredInsert, if_pos rfl]
  · show (Srch.exploredInsert st.explored ix _ ix.ix).reference = _
    rw [Srch.exploredInsert, if_pos rfl]

/-- Witness for the C1 amendment: the collapse scenario itself — the
committed record at T satisfies the equations with respect to the selected
neighbour n, while storing the collapsed reference. -/
theorem claim_c1_commit_equations_witness :
    ((Srch.updateOneCommit Srch.collapseN Srch.collapseT Srch.collapseCfg
        Srch.collapseSt).explored Srch.collapseT.ix).distance
      = Srch.collapseN.distance +
        Srch.l2Distance Srch.collapseT.pos Srch.collapseN.ix.pos *
          Srch.collapseCfg.grid.cell_size ∧
    ((Srch.updateOneCommit Srch.collapseN Srch.collapseT Srch.collapseCfg
        Srch.collapseSt).explored Srch.collapseT.ix).height
      = Srch.collapseN.height -
        Srch.l2Distance Srch.collapseT.pos Srch.collapseN.ix.pos *
          Srch.collapseCfg.grid.cell_size * (1 / 2) ∧
    ((Srch.updateOneCommit Srch.collapseN Srch.collapseT Srch.collapseCfg
        Srch.collapseSt).explored Srch.collapseT.ix).reference
      = some (Srch.getStraightLineRef (Srch.chainFuel Srch.collapseCfg)
          Srch.collapseT Srch.collapseN Srch.collapseSt.explored).ix :=
  claim_c1_commit_equations Srch.collapseN Srch.collapseT Srch.collapseCfg
    Srch.collapseSt (1 / 2) (by rw [Srch.collapse_egr]) rfl

/-! ### Wind-direction irrelevance in calm air (C7) -/

namespace Srch

section CalmCongr

variable {cfg1 cfg2 : SearchConfig}

theorem calm_ws2 (h : calmAgree cfg1 cfg2) : cfg2.query.wind_speed = 0 := by
  rw [h.2.2]
  exact h.1

theorem calm_trim (h : calmAgree cfg1 cfg2) :
    cfg2.query.trim_speed = cfg1.query.trim_speed := by
  rw [h.2.2]

theorem calm_glide (h : calmAgree cfg1 cfg2) :
    cfg2.query.glide = cfg1.query.glide := by
  rw [h.2.2]

theorem calm_sd (h : calmAgree cfg1 cfg2) :
    cfg2.query.start_distance = cfg1.query.start_distance := by
  rw [h.2.2]

theorem calm_sm (h : calmAgree cfg1 cfg2) :
    cfg2.query.safety_margin = cfg1.query.safety_margin := by
  rw [h.2.2]

theorem calm_egrFromTo (h : calmAgree cfg1 cfg2) (s f : ℕ × ℕ) :
    getEffectiveGlideRatioFromTo cfg2.query s f
      = getEffectiveGlideRatioFromTo cfg1.query s f := by
  rw [getEffectiveGlideRatioFromTo, getEffectiveGlideRatioFromTo,
    if_pos (calm_ws2 h), if_pos h.1, calm_trim h, calm_glide h]

theorem middleLoop_cons_eq (cfg : SearchConfig) (a b : ℝ) (s : (ℝ × ℝ) × ℝ)
    (rest : List ((ℝ × ℝ) × ℝ)) :
    middleLoop cfg a b (s :: rest)
      = if (if a < cfg.query.start_distance then s.2
            else s.2 - cfg.query.safety_margin) <
          (cfg.grid.heights (f32Usize s.1.1) (f32Usize s.1.2) : ℝ) then true
        else middleLoop cfg (a + b) b rest := rfl

theorem calm_middleLoop (h : calmAgree cfg1 cfg2) :
    ∀ (l : List ((ℝ × ℝ) × ℝ)) (a b : ℝ),
      middleLoop cfg2 a b l = middleLoop cfg1 a b l := by
  intro l
  induction l with
  | nil => intro a b; rfl
  | cons s rest ih =>
    intro a b
    rw [middleLoop_cons_eq, middleLoop_cons_eq]
    simp only [h.2.1, calm_sd h, calm_sm h, ih]

theorem calm_safetyMargin (h : calmAgree cfg1 cfg2) (x : ℝ) :
    getSafetyMarginAtDistance cfg2 x = getSafetyMarginAtDistance cfg1 x := by
  simp only [getSafetyMarginAtDistance, calm_sd h, calm_sm h]

theorem calm_isLine (h : calmAgree cfg1 cfg2) (toN : Node) (ix : GridIx) :
    isLineIntersecting toN ix cfg2 = isLineIntersecting toN ix cfg1 := by
  simp only [isLineIntersecting, calm_egrFromTo h, h.2.1, calm_sd h, calm_sm h,
    calm_middleLoop h]

theorem calm_selectRef (h : calmAgree cfg1 cfg2) (ix : GridIx)
    (st : SearchState) (neighbor : Node) (dc : Bool) :
    selectReference ix cfg2 st neighbor dc
      = selectReference ix cfg1 st neighbor dc := by
  simp only [selectReference, calm_ws2 h, h.1, calm_trim h, calm_isLine h]

theorem calm_commit (h : calmAgree cfg1 cfg2) (reference : Node) (ix : GridIx)
    (st : SearchState) :
    updateOneCommit reference ix cfg2 st
      = updateOneCommit reference ix cfg1 st := by
  simp only [updateOneCommit, calm_egrFromTo h, h.2.1, chainFuel,
    calm_safetyMargin h]

theorem calm_updOne (h : calmAgree cfg1 cfg2) (nIx ix : GridIx)
    (st : SearchState) (dc : Option Bool) :
    updateOneNeighbor nIx ix cfg2 st dc = updateOneNeighbor nIx ix cfg1 st dc := by
  simp only [updateOneNeighbor, calm_ws2 h, h.1, calm_trim h, calm_selectRef h,
    calm_commit h]

theorem calm_updTwoDiff (h : calmAgree cfg1 cfg2) (n1 n2 ix : GridIx)
    (st : SearchState) :
    updateTwoWithDifferentReferences n1 n2 ix cfg2 st
      = updateTwoWithDifferentReferences n1 n2 ix cfg1 st := by
  simp only [updateTwoWithDifferentReferences, calm_updOne h]

theorem calm_updTwo (h : calmAgree cfg1 cfg2) (n1 n2 ix : GridIx)
    (st : SearchState) :
    updateTwoNeighbors n1 n2 ix cfg2 st = updateTwoNeighbors n1 n2 ix cfg1 st := by
  simp only [updateTwoNeighbors, calm_egrFromTo h, h.2.1, calm_safetyMargin h,
    calm_updOne h, calm_updTwoDiff h]

theorem calm_updThree (h : calmAgree cfg1 cfg2) (ens : List GridIx)
    (ix : GridIx) (st : SearchState) :
    updateThreeNeighbors ens ix cfg2 st = updateThreeNeighbors ens ix cfg1 st := by
  simp only [updateThreeNeighbors, calm_updOne h, calm_updTwo h]

theorem calm_updFour (h : calmAgree cfg1 cfg2) (ens : List GridIx)
    (ix : GridIx) (st : SearchState) :
    updateFourNeighbors ens ix cfg2 st = updateFourNeighbors ens ix cfg1 st := by
  simp only [updateFourNeighbors, calm_updThree h, calm_updOne h]

theorem calm_nbrs (h : calmAgree cfg1 cfg2) (ix : GridIx) (st : SearchState) :
    exploredNbrs ix cfg2 st = exploredNbrs ix cfg1 st := by
  simp only [exploredNbrs, h.2.1]

theorem calm_updNode (h : calmAgree cfg1 cfg2) (ix : GridIx) (st : SearchState) :
    updateNode ix cfg2 st = updateNode ix cfg1 st := by
  simp only [updateNode, calm_nbrs h, calm_updOne h, calm_updTwo h,
    calm_updThree h, calm_updFour h]

theorem calm_iter (h : calmAgree cfg1 cfg2) (first : PQ.HeapNode ℝ GridIx)
    (st : SearchState) :
    searchIter cfg2 first st = searchIter cfg1 first st := by
  simp only [searchIter, h.2.1, calm_updNode h]

theorem searchLoop_succ_eq (cfg : SearchConfig) (fuel : ℕ) (st : SearchState) :
    searchLoop cfg (fuel + 1) st
      = match st.queue.pop with
        | none => some st
        | some (first, q') =>
          searchLoop cfg fuel (searchIter cfg first { st with queue := q' }) := rfl

theorem calm_loop (h : calmAgree cfg1 cfg2) :
    ∀ (fuel : ℕ) (st : SearchState),
      searchLoop cfg2 fuel st = searchLoop cfg1 fuel st := by
  intro fuel
  induction fuel with
  | zero => intro st; rfl
  | succ fuel ih =>
    intro st
    rw [searchLoop_succ_eq, searchLoop_succ_eq]
    cases hp : st.queue.pop with
    | none => rfl
    | some p =>
      obtain ⟨first, q'⟩ := p
      show searchLoop cfg2 fuel (searchIter cfg2 first { st with queue := q' })
        = searchLoop cfg1 fuel (searchIter cfg1 first { st with queue := q' })
      rw [calm_iter h, ih]

end CalmCongr

end Srch

/-- C7: with `wind_speed = 0`, two searches that differ only in
`wind_direction` (same grid, same remaining query fields) produce identical
final states for every fuel, start position and start height — in particular
the same set of reachable cells. -/
theorem claim_c7_wind_direction_symmetric (cfg1 cfg2 : Srch.SearchConfig)
    (h : Srch.calmAgree cfg1 cfg2) (fuel : ℕ) (start : ℕ × ℕ) (height : ℝ) :
    Srch.searchF fuel start height cfg2 = Srch.searchF fuel start height cfg1 := by
  have hinit : Srch.initState start height cfg2
      = Srch.initState start height cfg1 := by
    simp only [Srch.initState, h.2.1]
  show Srch.searchLoop cfg2 fuel (Srch.initState start height cfg2)
    = Srch.searchLoop cfg1 fuel (Srch.initState start height cfg1)
  rw [hinit]
  exact Srch.calm_loop h fuel _

/-- Witness for C7: the calm 3×2-grid configuration and its copy with the
wind direction rotated to 1 radian give identical searches. -/
theorem claim_c7_wind_direction_symmetric_witness :
    Srch.searchF 3 (0, 1) 10 Srch.collapseCfgRot
      = Srch.searchF 3 (0, 1) 10 Srch.collapseCfg :=
  claim_c7_wind_direction_symmetric Srch.collapseCfg Srch.collapseCfgRot
    ⟨rfl, rfl, rfl⟩ 3 (0, 1) 10

/-! ### Termination of the search main loop (C8) -/

namespace PQ

section TerminationLemmas

variable {P K : Type} [LinearOrder P] [Inhabited P] [Inhabited K] [KeyIx K]

open KeyIx

theorem pop_eq_none_iff (q : PQueue P K) : q.pop = none ↔ q.heap.length = 0 := by
  unfold PQueue.pop
  by_cases h : q.heap.length = 0
  · rw [if_pos h]
    exact ⟨fun _ => h, fun _ => rfl⟩
  · rw [if_neg h]
    constructor
    · intro hx
      split at hx <;> exact Option.noConfusion hx
    · intro hx
      exact absurd hx h

theorem getN_mem (l : List (HeapNode P K)) (i : ℕ) (h : i < l.length) :
    getN l i ∈ l := by
  rw [getN_of_lt l i h]
  exact List.get_mem _ _ _

theorem mem_getN {l : List (HeapNode P K)} {nd : HeapNode P K} (h : nd ∈ l) :
    ∃ i, ∃ hlt : i < l.length, getN l i = nd := by
  obtain ⟨⟨i, hi⟩, hieq⟩ := List.mem_iff_get.mp h
  exact ⟨i, hi, by rw [getN_of_lt l i hi, hieq]⟩

theorem pos_none_iff {q : PQueue P K} (hcc : classCoh q) (hpe : posExact q)
    (n : ℕ) : q.positions n = none ↔ ∀ nd ∈ q.heap, kix nd.key ≠ n := by
  constructor
  · intro hnone nd hmem hkix
    obtain ⟨i, hlt, hget⟩ := mem_getN hmem
    have hsome := hpe i hlt
    rw [hget, hkix, hnone] at hsome
    exact Option.noConfusion hsome
  · intro hall
    cases hpos : q.positions n with
    | none => rfl
    | some i =>
      obtain ⟨hlt, hclass⟩ := hcc n i hpos
      exact absurd hclass (hall _ (getN_mem q.heap i hlt))

theorem updLess_keys_perm {q q' : PQueue P K} {k : K} {p : P}
    (hupd : q.updatePriorityIfLess k p = some q') (hcc : classCoh q) :
    (q'.heap.map fun nd => nd.key).Perm (q.heap.map fun nd => nd.key) := by
  unfold PQueue.updatePriorityIfLess at hupd
  cases hpos : q.positions (kix k) with
  | none => rw [hpos] at hupd; exact Option.noConfusion hupd
  | some ix =>
    rw [hpos] at hupd
    simp only at hupd
    by_cases hle : (getN q.heap ix).item ≤ p
    · rw [if_pos hle] at hupd; exact Option.noConfusion hupd
    · rw [if_neg hle] at hupd
      obtain ⟨hixlt, _⟩ := hcc (kix k) ix hpos
      cases hupd
      have hperm : ((siftup
          ⟨q.heap.set ix ⟨p, (getN q.heap ix).key⟩, q.positions⟩ ix).1).heap.Perm
          (q.heap.set ix ⟨p, (getN q.heap ix).key⟩) := by
        unfold siftup
        simp only
        exact siftupGo_perm _ _ _ _ _ (by simp only [List.length_set]; omega)
      have hset : ((q.heap.set ix ⟨p, (getN q.heap ix).key⟩).map
          fun nd => nd.key) = q.heap.map fun nd => nd.key := by
        rw [List.map_set]
        apply List.ext_getElem?
        intro n
        by_cases hn : n = ix
        · subst hn
          rw [List.getElem?_set_self (by simpa using hixlt),
            List.getElem?_eq_getElem (by simpa using hixlt)]
          simp [getN_of_lt _ _ hixlt]
        · exact List.getElem?_set_ne (fun hh => hn hh.symm)
      exact (hperm.map _).trans (by rw [hset])

theorem push_classes_perm (q : PQueue P K) (k : K) (p : P) :
    ((q.push k p).heap.map fun nd => kix nd.key).Perm
      (kix k :: q.heap.map fun nd => kix nd.key) := by
  have h1 := (push_key_perm q k p).map (fun key : K => kix key)
  simp only [List.map_map, List.map_cons] at h1
  exact h1

theorem pop_classes_perm {q q' : PQueue P K} {e : HeapNode P K}
    (hpop : q.pop = some (e, q')) (hheap : heapProp q.heap)
    (hcoh : classCoh q) :
    ((q'.heap.map fun nd => kix nd.key) ++ [kix e.key]).Perm
      (q.heap.map fun nd => kix nd.key) := by
  obtain ⟨hperm, _⟩ := pop_spec hpop hheap hcoh
  have h1 := hperm.map (fun nd : HeapNode P K => kix nd.key)
  simp only [List.map_append, List.map_cons, List.map_nil] at h1
  exact h1

end TerminationLemmas

end PQ

namespace Srch

theorem length_filter_and_ne :
    ∀ (l : List ℕ), l.Nodup → ∀ (m : ℕ) (p : ℕ → Bool), m ∈ l → p m = true →
      (l.filter fun i => p i && !(i == m)).length + 1 = (l.filter p).length := by
  intro l
  induction l with
  | nil => intro _ m p hm _; cases hm
  | cons a l ih =>
    intro hnd m p hm hpm
    obtain ⟨hnotin, hndl⟩ := List.nodup_cons.mp hnd
    rcases List.mem_cons.mp hm with rfl | hm'
    · have hfl : (l.filter fun i => p i && !(i == m)) = l.filter p :=
        List.filter_congr (fun i hi => by
          have hne : i ≠ m := fun h => hnotin (h ▸ hi)
          simp [hne])
      simp [List.filter_cons, hpm, hfl]
    · have ham : a ≠ m := fun h => hnotin (h ▸ hm')
      have hih := ih hndl m p hm' hpm
      cases hpa : p a <;> simp [List.filter_cons, hpa, ham, hih]

theorem keyWF_lt {cfg : SearchConfig} {k : GridIx} (h : keyWF cfg k) :
    k.ix < cfg.grid.shape.1 * cfg.grid.shape.2 := by
  obtain ⟨h1, h2, h3⟩ := h
  calc k.ix = k.pos.1 * cfg.grid.shape.2 + k.pos.2 := h3
    _ < (k.pos.1 + 1) * cfg.grid.shape.2 := by
        rw [Nat.add_mul, one_mul]; omega
    _ ≤ cfg.grid.shape.1 * cfg.grid.shape.2 :=
        Nat.mul_le_mul_right _ (by omega)

theorem classes_perm_push (q : PQ.PQueue ℝ GridIx) (k : GridIx) (d : ℝ) :
    (classesOf (q.push k d)).Perm (k.ix :: classesOf q) :=
  PQ.push_classes_perm q k d

theorem classes_perm_pop {q q' : PQ.PQueue ℝ GridIx} {e : PQ.HeapNode ℝ GridIx}
    (hpop : q.pop = some (e, q')) (hheap : PQ.heapProp q.heap)
    (hcoh : PQ.classCoh q) :
    (classesOf q' ++ [e.key.ix]).Perm (classesOf q) :=
  PQ.pop_classes_perm hpop hheap hcoh

theorem nodup_classesOf {q : PQ.PQueue ℝ GridIx} (h : PQ.nodupKeys q.heap) :
    (classesOf q).Nodup := h

theorem mem_classesOf_iff {q : PQ.PQueue ℝ GridIx} (n : ℕ) :
    n ∈ classesOf q ↔ ∃ nd ∈ q.heap, nd.key.ix = n := by
  unfold classesOf
  rw [List.mem_map]

theorem pos_isNone_eq {st : SearchState} (hcc : PQ.classCoh st.queue)
    (hpe : PQ.posExact st.queue) (n : ℕ) :
    (st.queue.positions n).isNone = !(decide (n ∈ classesOf st.queue)) := by
  by_cases hmem : n ∈ classesOf st.queue
  · obtain ⟨nd, hnd, hix⟩ := (mem_classesOf_iff n).mp hmem
    obtain ⟨i, hlt, hget⟩ := PQ.mem_getN hnd
    have hsome := hpe i hlt
    rw [hget] at hsome
    rw [show KeyIx.kix nd.key = n from hix] at hsome
    rw [hsome]
    simp [hmem]
  · have hnone : st.queue.positions n = none := by
      rw [PQ.pos_none_iff hcc hpe]
      intro nd hnd hkix
      exact hmem ((mem_classesOf_iff n).mpr ⟨nd, hnd, hkix⟩)
    rw [hnone]
    simp [hmem]

theorem unqueuedCount_eq_classes {cfg : SearchConfig} (st : SearchState)
    (hcc : PQ.classCoh st.queue) (hpe : PQ.posExact st.queue) :
    unqueuedCount cfg st =
      ((List.range (cfg.grid.shape.1 * cfg.grid.shape.2)).filter
        (fun i => !(st.explored i).explored &&
          !(decide (i ∈ classesOf st.queue)))).length := by
  unfold unqueuedCount
  rw [List.filter_congr (fun i _ => by rw [pos_isNone_eq hcc hpe])]

theorem unqueuedCount_push (cfg : SearchConfig) (s : SearchState) (ix : GridIx)
    (d : ℝ)
    (hcc : PQ.classCoh s.queue) (hpe : PQ.posExact s.queue)
    (hcc2 : PQ.classCoh (s.queue.push ix d))
    (hpe2 : PQ.posExact (s.queue.push ix d))
    (hWF : keyWF cfg ix)
    (hU : (s.explored ix.ix).explored = false)
    (hno : s.queue.positions ix.ix = none) :
    unqueuedCount cfg { s with queue := s.queue.push ix d } + 1
      = unqueuedCount cfg s := by
  have hnotin : ix.ix ∉ classesOf s.queue := by
    intro hmem
    obtain ⟨nd, hnd, hix⟩ := (mem_classesOf_iff _).mp hmem
    exact absurd hno (by
      rw [PQ.pos_none_iff hcc hpe]
      push_neg
      exact ⟨nd, hnd, hix⟩)
  have hmemiff : ∀ i, i ∈ classesOf (s.queue.push ix d) ↔
      i = ix.ix ∨ i ∈ classesOf s.queue := by
    intro i
    rw [(classes_perm_push s.queue ix d).mem_iff, List.mem_cons]
  rw [unqueuedCount_eq_classes { s with queue := s.queue.push ix d }
      hcc2 hpe2,
    unqueuedCount_eq_classes s hcc hpe]
  rw [List.filter_congr (fun i _ => by
    show (!(s.explored i).explored && !(decide (i ∈ classesOf (s.queue.push ix d))))
      = ((!(s.explored i).explored && !(decide (i ∈ classesOf s.queue))) && !(i == ix.ix))
    by_cases h1 : i = ix.ix
    · subst h1
      simp [hmemiff]
    · by_cases h2 : i ∈ classesOf s.queue
      · simp [hmemiff, h1, h2]
      · simp [hmemiff, h1, h2])]
  exact length_filter_and_ne _ (List.nodup_range _) ix.ix _
    (List.mem_range.mpr (keyWF_lt hWF))
    (by simp [hU, hnotin])

theorem unqueuedCount_pop (cfg : SearchConfig) {st : SearchState}
    {first : PQ.HeapNode ℝ GridIx} {q' : PQ.PQueue ℝ GridIx}
    (hpop : st.queue.pop = some (first, q'))
    (hheap : PQ.heapProp st.queue.heap) (hcc : PQ.classCoh st.queue)
    (hpe : PQ.posExact st.queue) (hnd : PQ.nodupKeys st.queue.heap)
    (hcc2 : PQ.classCoh q') (hpe2 : PQ.posExact q') :
    unqueuedCount cfg
        { explored := markExplored st.explored first.key, queue := q' }
      = unqueuedCount cfg st := by
  have hperm := classes_perm_pop hpop hheap hcc
  have hnd2 : (classesOf q' ++ [first.key.ix]).Nodup :=
    (hperm.nodup_iff).mpr (nodup_classesOf hnd)
  have hnotin : first.key.ix ∉ classesOf q' := by
    intro hmem
    have := (List.nodup_append.mp hnd2).2.2
    exact this hmem (List.mem_singleton.mpr rfl)
  have hmemst : first.key.ix ∈ classesOf st.queue :=
    hperm.mem_iff.mp (List.mem_append_right _ (List.mem_singleton.mpr rfl))
  have hmemiff : ∀ i, i ∈ classesOf st.queue ↔
      i ∈ classesOf q' ∨ i = first.key.ix := by
    intro i
    rw [← hperm.mem_iff, List.mem_append, List.mem_singleton]
  rw [unqueuedCount_eq_classes
      { explored := markExplored st.explored first.key, queue := q' }
      hcc2 hpe2,
    unqueuedCount_eq_classes st hcc hpe]
  congr 1
  apply List.filter_congr
  intro i _
  show (!(markExplored st.explored first.key i).explored &&
      !(decide (i ∈ classesOf q')))
    = (!(st.explored i).explored && !(decide (i ∈ classesOf st.queue)))
  by_cases h1 : i = first.key.ix
  · subst h1
    have hflag : (markExplored st.explored first.key first.key.ix).explored
        = true := by
      unfold markExplored exploredInsert
      rw [if_pos rfl]
    rw [hflag]
    simp [hmemiff]
  · have hflag : (markExplored st.explored first.key i).explored
        = (st.explored i).explored := by
      unfold markExplored exploredInsert
      rw [if_neg h1]
    rw [hflag]
    by_cases h2 : i ∈ classesOf q' <;> simp [hmemiff, h1, h2]

theorem putOrUpdate_upd_some (s : SearchState) (ix : GridIx) (d : ℝ)
    (q2 : PQ.PQueue ℝ GridIx) (hck : s.queue.containsKey ix = true)
    (hupd : s.queue.updatePriorityIfLess ix d = some q2) :
    putOrUpdate s ix d = ({ s with queue := q2 }, true) := by
  unfold putOrUpdate
  rw [if_pos hck, hupd]

theorem putOrUpdate_upd_none (s : SearchState) (ix : GridIx) (d : ℝ)
    (hck : s.queue.containsKey ix = true)
    (hupd : s.queue.updatePriorityIfLess ix d = none) :
    putOrUpdate s ix d = (s, false) := by
  unfold putOrUpdate
  rw [if_pos hck, hupd]

theorem exploredInsert_flag {m : Explored} {k : GridIx} {f : Node → Node}
    (hf : ∀ nd, (f nd).explored = nd.explored) (i : ℕ) :
    ((exploredInsert m k f) i).explored = (m i).explored := by
  unfold exploredInsert
  by_cases h : i = k.ix
  · rw [if_pos h, hf, h]
  · rw [if_neg h]

theorem updLess_state_post {cfg : SearchConfig} (s : SearchState) (ix : GridIx)
    (d : ℝ) (q2 : PQ.PQueue ℝ GridIx)
    (hupd : s.queue.updatePriorityIfLess ix d = some q2) (h : SInv cfg s) :
    SInv cfg { s with queue := q2 } ∧
    smeasure cfg { s with queue := q2 } = smeasure cfg s := by
  obtain ⟨hheap, hcc, hpe, hndk, hmem⟩ := h
  obtain ⟨hclassperm, hlen, hheap2, hcc2, hcond⟩ :=
    PQ.updLess_spec _ _ _ _ hupd hheap hcc
  obtain ⟨hpe2, hndk2⟩ := hcond hpe hndk
  have hkeysperm := PQ.updLess_keys_perm hupd hcc
  have hmem2 : ∀ nd ∈ q2.heap,
      keyWF cfg nd.key ∧ (s.explored nd.key.ix).explored = false := by
    intro nd hnd
    have h1 : nd.key ∈ q2.heap.map (fun nd => nd.key) :=
      List.mem_map_of_mem _ hnd
    have h2 : nd.key ∈ s.queue.heap.map (fun nd => nd.key) :=
      hkeysperm.mem_iff.mp h1
    obtain ⟨nd', hnd', hkeq⟩ := List.mem_map.mp h2
    rw [← hkeq]
    exact hmem nd' hnd'
  refine ⟨⟨hheap2, hcc2, hpe2, hndk2, hmem2⟩, ?_⟩
  unfold smeasure
  have hc2 : PQ.classCoh ({ s with queue := q2 } : SearchState).queue := hcc2
  have hp2 : PQ.posExact ({ s with queue := q2 } : SearchState).queue := hpe2
  rw [unqueuedCount_eq_classes { s with queue := q2 } hc2 hp2,
    unqueuedCount_eq_classes s hcc hpe]
  have hfil : ((List.range (cfg.grid.shape.1 * cfg.grid.shape.2)).filter
        (fun i => !(s.explored i).explored && !(decide (i ∈ classesOf q2))))
      = ((List.range (cfg.grid.shape.1 * cfg.grid.shape.2)).filter
        (fun i => !(s.explored i).explored &&
          !(decide (i ∈ classesOf s.queue)))) := by
    apply List.filter_congr
    intro i _
    have hciff : i ∈ classesOf q2 ↔ i ∈ classesOf s.queue :=
      List.Perm.mem_iff hclassperm
    by_cases h2 : i ∈ classesOf q2
    · simp [h2, hciff.mp h2]
    · have h3 : i ∉ classesOf s.queue := fun hh => h2 (hciff.mpr hh)
      simp [h2, h3]
  rw [hfil, hlen]

theorem push_state_post {cfg : SearchConfig} (s : SearchState) (ix : GridIx)
    (d : ℝ) (hck : s.queue.containsKey ix = false) (h : SInv cfg s)
    (hWF : keyWF cfg ix) (hU : (s.explored ix.ix).explored = false) :
    SInv cfg { s with queue := s.queue.push ix d } ∧
    smeasure cfg { s with queue := s.queue.push ix d } = smeasure cfg s := by
  obtain ⟨hheap, hcc, hpe, hndk, hmem⟩ := h
  have hno : s.queue.positions ix.ix = none := by
    unfold PQ.PQueue.containsKey at hck
    cases hpos : s.queue.positions (KeyIx.kix ix) with
    | none => rfl
    | some v => rw [hpos] at hck; simp at hck
  obtain ⟨hperm2, hheap2, hcc2, hck2, hlen2, hcond2⟩ :=
    PQ.push_spec s.queue ix d hheap hcc
  obtain ⟨hpe2, hndk2⟩ := hcond2 hpe hno hndk
  have hmem2 : ∀ nd ∈ (s.queue.push ix d).heap,
      keyWF cfg nd.key ∧ (s.explored nd.key.ix).explored = false := by
    intro nd hnd
    rcases List.mem_append.mp (hperm2.mem_iff.mp hnd) with h1 | h1
    · exact hmem nd h1
    · rw [List.mem_singleton.mp h1]
      exact ⟨hWF, hU⟩
  refine ⟨⟨hheap2, hcc2, hpe2, hndk2, hmem2⟩, ?_⟩
  unfold smeasure
  have hcount := unqueuedCount_push cfg s ix d hcc hpe hcc2 hpe2 hWF hU hno
  rw [hlen2]
  omega

theorem RelaxPost_refl {cfg : SearchConfig} (s : SearchState) (hs : SInv cfg s) :
    RelaxPost cfg s s := ⟨hs, rfl, fun _ => rfl⟩

theorem RelaxPost_trans {cfg : SearchConfig} {s s1 s2 : SearchState}
    (h1 : RelaxPost cfg s s1) (h2 : RelaxPost cfg s1 s2) : RelaxPost cfg s s2 :=
  ⟨h2.1, h2.2.1.trans h1.2.1, fun i => (h2.2.2 i).trans (h1.2.2 i)⟩

theorem unqueuedCount_congr {cfg : SearchConfig} {s1 s2 : SearchState}
    (hfl : ∀ i, (s1.explored i).explored = (s2.explored i).explored)
    (hpos : ∀ i, (s1.queue.positions i).isNone = (s2.queue.positions i).isNone) :
    unqueuedCount cfg s1 = unqueuedCount cfg s2 := by
  unfold unqueuedCount
  rw [List.filter_congr (fun i _ => by rw [hfl, hpos])]

theorem insert_post {cfg : SearchConfig} (s : SearchState) (k : GridIx)
    (f : Node → Node) (hf : ∀ nd, (f nd).explored = nd.explored)
    (h : SInv cfg s) :
    SInv cfg { s with explored := exploredInsert s.explored k f } ∧
    smeasure cfg { s with explored := exploredInsert s.explored k f }
      = smeasure cfg s := by
  obtain ⟨hheap, hcc, hpe, hndk, hmem⟩ := h
  refine ⟨⟨hheap, hcc, hpe, hndk, ?_⟩, ?_⟩
  · intro nd hnd
    obtain ⟨h1, h2⟩ := hmem nd hnd
    exact ⟨h1, by rw [exploredInsert_flag hf]; exact h2⟩
  · unfold smeasure
    congr 1
    exact unqueuedCount_congr (fun i => exploredInsert_flag hf i) (fun i => rfl)

theorem commit_branch_post {cfg : SearchConfig} (s : SearchState) (ix : GridIx)
    (td : ℝ) (f : Node → Node) (hf : ∀ nd, (f nd).explored = nd.explored)
    (h : SInv cfg s) (hWF : keyWF cfg ix)
    (hU : (s.explored ix.ix).explored = false) :
    RelaxPost cfg s
      (if (putOrUpdate s ix td).2 then
        { (putOrUpdate s ix td).1 with
          explored := exploredInsert (putOrUpdate s ix td).1.explored ix f }
       else (putOrUpdate s ix td).1) := by
  by_cases hck : s.queue.containsKey ix = true
  · cases hupd : s.queue.updatePriorityIfLess ix td with
    | none =>
      rw [putOrUpdate_upd_none s ix td hck hupd]
      exact RelaxPost_refl s h
    | some q2 =>
      rw [putOrUpdate_upd_some s ix td q2 hck hupd]
      obtain ⟨hS1, hm1⟩ := updLess_state_post s ix td q2 hupd h
      obtain ⟨hS2, hm2⟩ := insert_post ({ s with queue := q2 }) ix f hf hS1
      exact ⟨hS2, hm2.trans hm1, fun i => exploredInsert_flag hf i⟩
  · have hckf : s.queue.containsKey ix = false := by
      cases hb : s.queue.containsKey ix
      · rfl
      · exact absurd hb hck
    rw [putOrUpdate_not_contained s ix td hckf]
    obtain ⟨hS1, hm1⟩ := push_state_post s ix td hckf h hWF hU
    obtain ⟨hS2, hm2⟩ :=
      insert_post ({ s with queue := s.queue.push ix td }) ix f hf hS1
    exact ⟨hS2, hm2.trans hm1, fun i => exploredInsert_flag hf i⟩

theorem updateOneCommit_post {cfg : SearchConfig} (reference : Node)
    (ix : GridIx) (s : SearchState) (h : SInv cfg s) (hWF : keyWF cfg ix)
    (hU : (s.explored ix.ix).explored = false) :
    RelaxPost cfg s (updateOneCommit reference ix cfg s) := by
  simp only [updateOneCommit]
  cases hegr : (getEffectiveGlideRatioFromTo cfg.query ix.pos
      reference.ix.pos).egr with
  | none => exact RelaxPost_refl s h
  | some gr => exact commit_branch_post s ix _ _ (fun nd => rfl) h hWF hU

theorem updateOneNeighbor_post {cfg : SearchConfig} (nIx ix : GridIx)
    (s : SearchState) (dc : Option Bool) (h : SInv cfg s) (hWF : keyWF cfg ix)
    (hU : (s.explored ix.ix).explored = false) :
    RelaxPost cfg s (updateOneNeighbor nIx ix cfg s dc) := by
  simp only [updateOneNeighbor]
  split_ifs with h1 h2
  · exact RelaxPost_refl s h
  · exact RelaxPost_refl s h
  · exact updateOneCommit_post _ ix s h hWF hU

theorem one_after {cfg : SearchConfig} {s s1 : SearchState}
    (hpost : RelaxPost cfg s s1) (nIx ix : GridIx) (dc : Option Bool)
    (hWF : keyWF cfg ix) (hU : (s.explored ix.ix).explored = false) :
    RelaxPost cfg s (updateOneNeighbor nIx ix cfg s1 dc) :=
  RelaxPost_trans hpost (updateOneNeighbor_post nIx ix s1 dc hpost.1 hWF
    ((hpost.2.2 ix.ix).trans hU))

theorem updateTwoWithDifferentReferences_post {cfg : SearchConfig}
    (n1 n2 ix : GridIx) (s : SearchState) (h : SInv cfg s) (hWF : keyWF cfg ix)
    (hU : (s.explored ix.ix).explored = false) :
    RelaxPost cfg s (updateTwoWithDifferentReferences n1 n2 ix cfg s) := by
  simp only [updateTwoWithDifferentReferences]
  exact one_after (updateOneNeighbor_post n1 ix s (some true) h hWF hU)
    n2 ix (some true) hWF hU

theorem updateTwoNeighbors_post {cfg : SearchConfig} (n1 n2 ix : GridIx)
    (s : SearchState) (h : SInv cfg s) (hWF : keyWF cfg ix)
    (hU : (s.explored ix.ix).explored = false) :
    RelaxPost cfg s (updateTwoNeighbors n1 n2 ix cfg s) := by
  simp only [updateTwoNeighbors]
  split
  · split
    · split
      · exact RelaxPost_refl s h
      · split
        · exact RelaxPost_refl s h
        · exact commit_branch_post s ix _ _ (fun nd => rfl) h hWF hU
    · exact updateTwoWithDifferentReferences_post n1 n2 ix s h hWF hU
  · split
    · exact updateOneNeighbor_post n1 ix s none h hWF hU
    · split
      · exact updateOneNeighbor_post n2 ix s none h hWF hU
      · exact RelaxPost_refl s h

theorem updateThreeNeighbors_post {cfg : SearchConfig} (ens : List GridIx)
    (ix : GridIx) (s : SearchState) (h : SInv cfg s) (hWF : keyWF cfg ix)
    (hU : (s.explored ix.ix).explored = false) :
    RelaxPost cfg s (updateThreeNeighbors ens ix cfg s) := by
  simp only [updateThreeNeighbors]
  split_ifs
  · exact updateOneNeighbor_post _ ix s none h hWF hU
  · exact updateTwoNeighbors_post _ _ ix s h hWF hU
  · exact one_after (one_after (updateOneNeighbor_post _ ix s none h hWF hU)
      _ ix none hWF hU) _ ix none hWF hU
  · exact one_after (updateTwoNeighbors_post _ _ ix s h hWF hU) _ ix none hWF hU
  · exact one_after (updateTwoNeighbors_post _ _ ix s h hWF hU) _ ix none hWF hU
  · exact one_after (updateTwoNeighbors_post _ _ ix s h hWF hU) _ ix none hWF hU
  · exact RelaxPost_refl s h
  · exact RelaxPost_refl s h

theorem updateFourNeighbors_post {cfg : SearchConfig} (ens : List GridIx)
    (ix : GridIx) (s : SearchState) (h : SInv cfg s) (hWF : keyWF cfg ix)
    (hU : (s.explored ix.ix).explored = false) :
    RelaxPost cfg s (updateFourNeighbors ens ix cfg s) := by
  simp only [updateFourNeighbors]
  by_cases h0 : (reachableOf ens s).length = 0
  · rw [if_pos h0]
    exact commit_branch_post s ix _ _ (fun nd => rfl) h hWF hU
  · rw [if_neg h0]
    split_ifs
    · exact updateThreeNeighbors_post ens ix s h hWF hU
    · exact updateOneNeighbor_post _ ix s none h hWF hU
    · exact RelaxPost_refl s h
    · exact RelaxPost_refl s h

theorem updateNode_post {cfg : SearchConfig} (ix : GridIx) (s : SearchState)
    (hWF : keyWF cfg ix) (h : SInv cfg s)
    (hU : (s.explored ix.ix).explored = false) :
    RelaxPost cfg s (updateNode ix cfg s) := by
  simp only [updateNode]
  split_ifs
  · exact updateOneNeighbor_post _ ix s none h hWF hU
  · exact updateTwoNeighbors_post _ _ ix s h hWF hU
  · exact updateThreeNeighbors_post _ ix s h hWF hU
  · exact updateFourNeighbors_post _ ix s h hWF hU
  · exact RelaxPost_refl s h

theorem relaxFold_post {cfg : SearchConfig} :
    ∀ (l : List GridIx) (s : SearchState), SInv cfg s →
      (∀ n ∈ l, keyWF cfg n) →
      RelaxPost cfg s (l.foldl (fun s2 n =>
        if (s2.explored n.ix).explored = true then s2
        else updateNode n cfg s2) s) := by
  intro l
  induction l with
  | nil => intro s h _; exact RelaxPost_refl s h
  | cons n rest ih =>
    intro s h hWFs
    rw [List.foldl_cons]
    by_cases hex : (s.explored n.ix).explored = true
    · rw [if_pos hex]
      exact ih s h (fun m hm => hWFs m (List.mem_cons_of_mem _ hm))
    · rw [if_neg hex]
      have hU : (s.explored n.ix).explored = false := by
        cases hb : (s.explored n.ix).explored
        · rfl
        · exact absurd hb hex
      have p1 := updateNode_post n s (hWFs n (List.mem_cons_self _ _)) h hU
      exact RelaxPost_trans p1
        (ih _ p1.1 (fun m hm => hWFs m (List.mem_cons_of_mem _ hm)))

theorem neighbors_keyWF {cfg : SearchConfig} {k : GridIx} (h : keyWF cfg k) :
    ∀ n ∈ getNeighborIndices k cfg.grid, keyWF cfg n := by
  obtain ⟨h1, h2, _⟩ := h
  intro n hn
  unfold getNeighborIndices at hn
  simp only [List.mem_append] at hn
  rcases hn with ((ha | hb) | hc) | hd
  · by_cases hg : 0 < k.pos.1
    · rw [if_pos hg] at ha
      rw [List.mem_singleton.mp ha]
      exact ⟨show k.pos.1 - 1 < cfg.grid.shape.1 by omega,
        show k.pos.2 < cfg.grid.shape.2 from h2, rfl⟩
    · rw [if_neg hg] at ha
      cases ha
  · by_cases hg : 0 < k.pos.2
    · rw [if_pos hg] at hb
      rw [List.mem_singleton.mp hb]
      exact ⟨show k.pos.1 < cfg.grid.shape.1 from h1,
        show k.pos.2 - 1 < cfg.grid.shape.2 by omega, rfl⟩
    · rw [if_neg hg] at hb
      cases hb
  · by_cases hg : k.pos.1 < cfg.grid.shape.1 - 1
    · rw [if_pos hg] at hc
      rw [List.mem_singleton.mp hc]
      exact ⟨show k.pos.1 + 1 < cfg.grid.shape.1 by omega,
        show k.pos.2 < cfg.grid.shape.2 from h2, rfl⟩
    · rw [if_neg hg] at hc
      cases hc
  · by_cases hg : k.pos.2 < cfg.grid.shape.2 - 1
    · rw [if_pos hg] at hd
      rw [List.mem_singleton.mp hd]
      exact ⟨show k.pos.1 < cfg.grid.shape.1 from h1,
        show k.pos.2 + 1 < cfg.grid.shape.2 by omega, rfl⟩
    · rw [if_neg hg] at hd
      cases hd

theorem searchIter_step {cfg : SearchConfig} {st : SearchState}
    {first : PQ.HeapNode ℝ GridIx} {q' : PQ.PQueue ℝ GridIx}
    (h : SInv cfg st) (hpop : st.queue.pop = some (first, q')) :
    SInv cfg (searchIter cfg first { st with queue := q' }) ∧
    smeasure cfg (searchIter cfg first { st with queue := q' }) + 1
      = smeasure cfg st := by
  obtain ⟨hheap, hcc, hpe, hndk, hmem⟩ := h
  obtain ⟨hperm, hheap2, hcc2, hcond⟩ := PQ.pop_spec hpop hheap hcc
  obtain ⟨hpe2, hndk2, hposnone⟩ := hcond hpe hndk
  have hfmem : first ∈ st.queue.heap :=
    hperm.mem_iff.mp (List.mem_append_right _ (List.mem_singleton.mpr rfl))
  obtain ⟨hfWF, hfU⟩ := hmem first hfmem
  have hnotq2 : ∀ nd ∈ q'.heap, nd.key.ix ≠ first.key.ix := by
    have hperm2 := classes_perm_pop hpop hheap hcc
    have hnd2 : (classesOf q' ++ [first.key.ix]).Nodup :=
      (hperm2.nodup_iff).mpr (nodup_classesOf hndk)
    intro nd hnd heq
    have hx : nd.key.ix ∈ classesOf q' := (mem_classesOf_iff _).mpr ⟨nd, hnd, rfl⟩
    exact (List.nodup_append.mp hnd2).2.2 hx
      (by rw [heq]; exact List.mem_singleton.mpr rfl)
  have hSInv1 : SInv cfg
      { explored := markExplored st.explored first.key, queue := q' } := by
    refine ⟨hheap2, hcc2, hpe2, hndk2, ?_⟩
    intro nd hnd
    have hndmem : nd ∈ st.queue.heap :=
      hperm.mem_iff.mp (List.mem_append_left _ hnd)
    obtain ⟨hw, hu⟩ := hmem nd hndmem
    refine ⟨hw, ?_⟩
    show (markExplored st.explored first.key nd.key.ix).explored = false
    unfold markExplored exploredInsert
    rw [if_neg (hnotq2 nd hnd)]
    exact hu
  have hm1 : smeasure cfg
        { explored := markExplored st.explored first.key, queue := q' } + 1
      = smeasure cfg st := by
    unfold smeasure
    have hcount := unqueuedCount_pop cfg hpop hheap hcc hpe hndk hcc2 hpe2
    obtain ⟨hlen0, hlen2⟩ := PQ.pop_length hpop
    rw [hcount]
    show q'.heap.length + unqueuedCount cfg st + 1
      = st.queue.heap.length + unqueuedCount cfg st
    omega
  have hiter : searchIter cfg first { st with queue := q' }
      = (getNeighborIndices first.key cfg.grid).foldl
          (fun s2 n => if (s2.explored n.ix).explored = true then s2
            else updateNode n cfg s2)
          { explored := markExplored st.explored first.key, queue := q' } := rfl
  rw [hiter]
  have hfold := relaxFold_post (getNeighborIndices first.key cfg.grid)
    { explored := markExplored st.explored first.key, queue := q' }
    hSInv1 (neighbors_keyWF hfWF)
  exact ⟨hfold.1, by rw [hfold.2.1]; exact hm1⟩

theorem searchLoop_terminates (cfg : SearchConfig) :
    ∀ (fuel : ℕ) (st : SearchState), SInv cfg st → smeasure cfg st ≤ fuel →
      ∃ st', searchLoop cfg fuel st = some st' := by
  intro fuel
  induction fuel with
  | zero =>
    intro st h hm
    have hlen : st.queue.heap.length = 0 := by
      unfold smeasure at hm
      omega
    refine ⟨st, ?_⟩
    show (match st.queue.pop with
          | none => some st
          | some _ => none) = some st
    rw [(PQ.pop_eq_none_iff st.queue).mpr hlen]
  | succ fuel ih =>
    intro st h hm
    cases hpop : st.queue.pop with
    | none =>
      refine ⟨st, ?_⟩
      rw [searchLoop_succ_eq, hpop]
    | some p =>
      obtain ⟨first, q'⟩ := p
      obtain ⟨hS1, hm1⟩ := searchIter_step h hpop
      obtain ⟨st', hst'⟩ := ih _ hS1 (by omega)
      refine ⟨st', ?_⟩
      rw [searchLoop_succ_eq, hpop]
      exact hst'

theorem length_filter_lt :
    ∀ (l : List ℕ) (p : ℕ → Bool) (m : ℕ), m ∈ l → p m = false →
      (l.filter p).length < l.length := by
  intro l
  induction l with
  | nil => intro p m hm _; cases hm
  | cons a l ih =>
    intro p m hm hpm
    rcases List.mem_cons.mp hm with rfl | hm'
    · have hle := List.length_filter_le p l
      simp only [List.filter_cons, hpm, Bool.false_eq_true, if_false,
        List.length_cons]
      omega
    · cases hpa : p a
      · have := ih p m hm' hpm
        simp only [List.filter_cons, hpa, Bool.false_eq_true, if_false,
          List.length_cons]
        omega
      · have := ih p m hm' hpm
        simp only [List.filter_cons, hpa, eq_self_iff_true, if_true,
          List.length_cons]
        omega

theorem initState_SInv (cfg : SearchConfig) (start : ℕ × ℕ) (height : ℝ)
    (hs1 : start.1 < cfg.grid.shape.1) (hs2 : start.2 < cfg.grid.shape.2) :
    SInv cfg (initState start height cfg) ∧
    smeasure cfg (initState start height cfg)
      ≤ cfg.grid.shape.1 * cfg.grid.shape.2 := by
  have hheap0 : PQ.heapProp (PQ.PQueue.empty : PQ.PQueue ℝ GridIx).heap := by
    intro i h1 h2
    simp [PQ.PQueue.empty] at h2
  have hcc0 : PQ.classCoh (PQ.PQueue.empty : PQ.PQueue ℝ GridIx) := by
    intro n i hni
    exact Option.noConfusion hni
  have hpe0 : PQ.posExact (PQ.PQueue.empty : PQ.PQueue ℝ GridIx) := by
    intro i hi
    simp [PQ.PQueue.empty] at hi
  have hndk0 : PQ.nodupKeys (PQ.PQueue.empty : PQ.PQueue ℝ GridIx).heap :=
    List.nodup_nil
  set k : GridIx := fromGrid start cfg.grid.shape with hk
  obtain ⟨hperm2, hheap2, hcc2, hck2, hlen2, hcond2⟩ :=
    PQ.push_spec (PQ.PQueue.empty : PQ.PQueue ℝ GridIx) k (0 : ℝ) hheap0 hcc0
  obtain ⟨hpe2, hndk2⟩ := hcond2 hpe0 rfl hndk0
  have hkWF : keyWF cfg k := ⟨hs1, hs2, rfl⟩
  have hres : initState start height cfg
      = { explored := exploredSet (gridMapNew cfg.grid.shape) k
            { height := height, ix := k, reference := none, distance := 0,
              reachable := true, explored := false },
          queue := (PQ.PQueue.empty : PQ.PQueue ℝ GridIx).push k 0 } := rfl
  rw [hres]
  constructor
  · refine ⟨hheap2, hcc2, hpe2, hndk2, ?_⟩
    intro nd hnd
    rcases List.mem_append.mp (hperm2.mem_iff.mp hnd) with h1 | h1
    · cases h1
    · rw [List.mem_singleton.mp h1]
      refine ⟨hkWF, ?_⟩
      show (exploredSet (gridMapNew cfg.grid.shape) k _ k.ix).explored = false
      unfold exploredSet
      rw [if_pos rfl]
  · unfold smeasure
    rw [hlen2]
    have hknotc : ((exploredSet (gridMapNew cfg.grid.shape) k
          { height := height, ix := k, reference := none, distance := 0,
            reachable := true, explored := false } k.ix).explored = false →
        True) := fun _ => trivial
    have hsome : (((PQ.PQueue.empty : PQ.PQueue ℝ GridIx).push k 0).positions
        k.ix).isNone = false := by
      have := hck2
      unfold PQ.PQueue.containsKey at this
      cases hpos : ((PQ.PQueue.empty : PQ.PQueue ℝ GridIx).push k 0).positions
          (KeyIx.kix k) with
      | none => rw [hpos] at this; simp at this
      | some v => rfl
    have hcnt : unqueuedCount cfg
        { explored := exploredSet (gridMapNew cfg.grid.shape) k
            { height := height, ix := k, reference := none, distance := 0,
              reachable := true, explored := false },
          queue := (PQ.PQueue.empty : PQ.PQueue ℝ GridIx).push k 0 }
        < cfg.grid.shape.1 * cfg.grid.shape.2 := by
      show ((List.range (cfg.grid.shape.1 * cfg.grid.shape.2)).filter
        (fun i => !((exploredSet (gridMapNew cfg.grid.shape) k
            { height := height, ix := k, reference := none, distance := 0,
              reachable := true, explored := false }) i).explored &&
          (((PQ.PQueue.empty : PQ.PQueue ℝ GridIx).push k 0).positions
            i).isNone)).length < cfg.grid.shape.1 * cfg.grid.shape.2
      have h2 := length_filter_lt
        (List.range (cfg.grid.shape.1 * cfg.grid.shape.2))
        (fun i => !((exploredSet (gridMapNew cfg.grid.shape) k
            { height := height, ix := k, reference := none, distance := 0,
              reachable := true, explored := false }) i).explored &&
          (((PQ.PQueue.empty : PQ.PQueue ℝ GridIx).push k 0).positions
            i).isNone)
        k.ix (List.mem_range.mpr (keyWF_lt hkWF))
        (by simp only [hsome, Bool.and_false])
      rw [List.length_range] at h2
      exact h2
    have he0 : (PQ.PQueue.empty : PQ.PQueue ℝ GridIx).heap.length = 0 := rfl
    omega

end Srch

/-- C8: the search main loop always terminates on an in-bounds start: with
fuel `rows·cols` the fuelled loop returns a final state. Alongside: `pop`
strictly shrinks the heap, and a cell already in the queue is never pushed
again by `put_or_update` (it is at most reprioritised), which together give
the each-cell-enters-at-most-once discipline. -/
theorem claim_c8_search_terminates (cfg : Srch.SearchConfig) (start : ℕ × ℕ)
    (height : ℝ) (hs1 : start.1 < cfg.grid.shape.1)
    (hs2 : start.2 < cfg.grid.shape.2) :
    (∀ (q q1 : PQ.PQueue ℝ Srch.GridIx) (e : PQ.HeapNode ℝ Srch.GridIx),
        q.pop = some (e, q1) → q1.heap.length + 1 = q.heap.length) ∧
    (∀ (s : Srch.SearchState) (ix : Srch.GridIx) (d : ℝ),
        PQ.heapProp s.queue.heap → PQ.classCoh s.queue →
        s.queue.containsKey ix = true →
        (Srch.putOrUpdate s ix d).1.queue.heap.length = s.queue.heap.length) ∧
    ∃ st', Srch.searchF (cfg.grid.shape.1 * cfg.grid.shape.2) start height cfg
      = some st' := by
  refine ⟨?_, ?_, ?_⟩
  · intro q q1 e hpop
    obtain ⟨h0, h1⟩ := PQ.pop_length hpop
    omega
  · intro s ix d hheap hcc hck
    cases hupd : s.queue.updatePriorityIfLess ix d with
    | none => rw [Srch.putOrUpdate_upd_none s ix d hck hupd]
    | some q2 =>
      rw [Srch.putOrUpdate_upd_some s ix d q2 hck hupd]
      obtain ⟨_, hlen, _⟩ := PQ.updLess_spec _ _ _ _ hupd hheap hcc
      exact hlen
  · obtain ⟨hS0, hm0⟩ := Srch.initState_SInv cfg start height hs1 hs2
    exact Srch.searchLoop_terminates cfg _ _ hS0 hm0

/-- Witness for C8: the calm 3×2-grid search from (0,1) terminates within
fuel 6, pops shrink the heap, and queued cells are never re-pushed. -/
theorem claim_c8_search_terminates_witness :
    ((∀ (q q1 : PQ.PQueue ℝ Srch.GridIx) (e : PQ.HeapNode ℝ Srch.GridIx),
        q.pop = some (e, q1) → q1.heap.length + 1 = q.heap.length) ∧
    (∀ (s : Srch.SearchState) (ix : Srch.GridIx) (d : ℝ),
        PQ.heapProp s.queue.heap → PQ.classCoh s.queue →
        s.queue.containsKey ix = true →
        (Srch.putOrUpdate s ix d).1.queue.heap.length = s.queue.heap.length) ∧
    ∃ st', Srch.searchF
        (Srch.collapseCfg.grid.shape.1 * Srch.collapseCfg.grid.shape.2)
        (0, 1) 10 Srch.collapseCfg = some st') :=
  claim_c8_search_terminates Srch.collapseCfg (0, 1) 10 (by decide) (by decide)

/-! ### Reference chains stay among reachable explored nodes (C9) -/

namespace Srch

theorem getD_mem {α : Type} (l : List α) (i : ℕ) (d : α) (h : i < l.length) :
    l.getD i d ∈ l := by
  rw [List.getD_eq_getElem?_getD, List.getElem?_eq_getElem h]
  exact List.getElem_mem _

theorem RefPost_refl (s : SearchState) (h : refOK s.explored) : RefPost s s :=
  ⟨h, fun _ => rfl⟩

theorem exploredInsert_self (m : Explored) (k : GridIx) (f : Node → Node) :
    exploredInsert m k f k.ix = f (m k.ix) := by
  rw [exploredInsert, if_pos rfl]

theorem RefPost_trans {s s1 s2 : SearchState} (h1 : RefPost s s1)
    (h2 : RefPost s1 s2) : RefPost s s2 :=
  ⟨h2.1, fun i => (h2.2 i).trans (h1.2 i)⟩

theorem refOK_insert {m : Explored} (hR : refOK m) (ix : GridIx)
    (f : Node → Node) (hfix : ∀ nd, (f nd).ix = nd.ix)
    (hfexp : ∀ nd, (f nd).explored = nd.explored)
    (huex : (m ix.ix).explored = false)
    (htar : ∀ r, (f (m ix.ix)).reference = some r →
      (m r.ix).reachable = true ∧ (m r.ix).explored = true) :
    refOK (exploredInsert m ix f) := by
  obtain ⟨h1, h2⟩ := hR
  constructor
  · intro i
    unfold exploredInsert
    by_cases hi : i = ix.ix
    · rw [if_pos hi, hfix, hi]
      rw [← hi, h1, hi]
    · rw [if_neg hi]
      exact h1 i
  · intro i r href
    have htarne : ∀ r' : GridIx, (m r'.ix).explored = true → ¬ r'.ix = ix.ix := by
      intro r' hexp' hcon
      rw [hcon, huex] at hexp'
      exact Bool.noConfusion hexp'
    by_cases hi : i = ix.ix
    · subst hi
      rw [exploredInsert_self] at href
      obtain ⟨hra, hex⟩ := htar r href
      have hne := htarne r hex
      rw [exploredInsert_ne _ _ _ _ hne]
      exact ⟨hra, hex⟩
    · rw [exploredInsert_ne _ _ _ _ hi] at href
      obtain ⟨hra, hex⟩ := h2 i r href
      have hne := htarne r hex
      rw [exploredInsert_ne _ _ _ _ hne]
      exact ⟨hra, hex⟩

theorem refOK_mark {m : Explored} (hR : refOK m) (k : GridIx) :
    refOK (markExplored m k) := by
  obtain ⟨h1, h2⟩ := hR
  have hix : ∀ i, (markExplored m k i).ix = (m i).ix := by
    intro i
    unfold markExplored exploredInsert
    by_cases hi : i = k.ix
    · rw [if_pos hi, hi]
    · rw [if_neg hi]
  have href : ∀ i, (markExplored m k i).reference = (m i).reference := by
    intro i
    unfold markExplored exploredInsert
    by_cases hi : i = k.ix
    · rw [if_pos hi, hi]
    · rw [if_neg hi]
  have hrea : ∀ i, (markExplored m k i).reachable = (m i).reachable := by
    intro i
    unfold markExplored exploredInsert
    by_cases hi : i = k.ix
    · rw [if_pos hi, hi]
    · rw [if_neg hi]
  constructor
  · intro i
    rw [hix]
    exact h1 i
  · intro i r hr
    rw [href] at hr
    obtain ⟨hra, hex⟩ := h2 i r hr
    refine ⟨by rw [hrea]; exact hra, ?_⟩
    unfold markExplored exploredInsert
    by_cases hi : r.ix = k.ix
    · rw [if_pos hi]
    · rw [if_neg hi]
      exact hex

theorem getStraightLineRef_zero (ixT : GridIx) (n : Node) (m : Explored) :
    getStraightLineRef 0 ixT n m = n := rfl

theorem getStraightLineRef_succ (fuel : ℕ) (ixT : GridIx) (n : Node)
    (m : Explored) :
    getStraightLineRef (fuel + 1) ixT n m
      = match n.reference with
        | none => n
        | some reference =>
          if isStraight reference.pos ixT.pos then
            getStraightLineRef fuel ixT (m reference.ix) m
          else n := rfl

theorem slr_ok {m : Explored} (hR : refOK m) :
    ∀ (fuel : ℕ) (ixT : GridIx) (n : Node), m n.ix.ix = n →
      n.reachable = true → n.explored = true →
      m (getStraightLineRef fuel ixT n m).ix.ix = getStraightLineRef fuel ixT n m ∧
      (getStraightLineRef fuel ixT n m).reachable = true ∧
      (getStraightLineRef fuel ixT n m).explored = true := by
  intro fuel
  induction fuel with
  | zero =>
    intro ixT n hres hr he
    exact ⟨hres, hr, he⟩
  | succ fuel ih =>
    intro ixT n hres hr he
    cases href : n.reference with
    | none =>
      have hred : getStraightLineRef (fuel + 1) ixT n m = n := by
        rw [getStraightLineRef_succ, href]
      rw [hred]
      exact ⟨hres, hr, he⟩
    | some r0 =>
      by_cases hstr : isStraight r0.pos ixT.pos = true
      · have hred : getStraightLineRef (fuel + 1) ixT n m
            = getStraightLineRef fuel ixT (m r0.ix) m := by
          rw [getStraightLineRef_succ, href]
          simp only [hstr, eq_self_iff_true, if_true]
        rw [hred]
        have htar : (m r0.ix).reachable = true ∧ (m r0.ix).explored = true := by
          apply hR.2 n.ix.ix
          rw [hres, href]
        have hres0 : m (m r0.ix).ix.ix = m r0.ix := by
          rw [hR.1 r0.ix]
        exact ih ixT (m r0.ix) hres0 htar.1 htar.2
      · have hstr2 : isStraight r0.pos ixT.pos = false := by
          cases hb : isStraight r0.pos ixT.pos
          · rfl
          · exact absurd hb hstr
        have hred : getStraightLineRef (fuel + 1) ixT n m = n := by
          rw [getStraightLineRef_succ, href]
          simp only [hstr2, Bool.false_eq_true, if_false]
        rw [hred]
        exact ⟨hres, hr, he⟩

theorem putOrUpdate_explored (s : SearchState) (ix : GridIx) (d : ℝ) :
    (putOrUpdate s ix d).1.explored = s.explored := by
  unfold putOrUpdate
  by_cases hck : s.queue.containsKey ix = true
  · rw [if_pos hck]
    cases s.queue.updatePriorityIfLess ix d <;> rfl
  · rw [if_neg hck]

theorem commit_branch_refPost (s : SearchState) (ix : GridIx) (td : ℝ)
    (f : Node → Node) (hfix : ∀ nd, (f nd).ix = nd.ix)
    (hfexp : ∀ nd, (f nd).explored = nd.explored)
    (hR : refOK s.explored)
    (huex : (s.explored ix.ix).explored = false)
    (htar : ∀ r, (f (s.explored ix.ix)).reference = some r →
      (s.explored r.ix).reachable = true ∧ (s.explored r.ix).explored = true) :
    RefPost s
      (if (putOrUpdate s ix td).2 then
        { (putOrUpdate s ix td).1 with
          explored := exploredInsert (putOrUpdate s ix td).1.explored ix f }
       else (putOrUpdate s ix td).1) := by
  have hpe := putOrUpdate_explored s ix td
  by_cases hb : (putOrUpdate s ix td).2 = true
  · rw [if_pos hb]
    constructor
    · show refOK (exploredInsert (putOrUpdate s ix td).1.explored ix f)
      rw [hpe]
      exact refOK_insert hR ix f hfix hfexp huex htar
    · intro i
      show (exploredInsert (putOrUpdate s ix td).1.explored ix f i).explored
        = (s.explored i).explored
      rw [hpe, exploredInsert_flag hfexp]
  · rw [if_neg hb]
    constructor
    · show refOK (putOrUpdate s ix td).1.explored
      rw [hpe]
      exact hR
    · intro i
      show ((putOrUpdate s ix td).1.explored i).explored
        = (s.explored i).explored
      rw [hpe]

theorem selectReference_ok {cfg : SearchConfig} {st : SearchState}
    (hR : refOK st.explored) (ix nIx : GridIx) (dc : Bool)
    (hreach : (st.explored nIx.ix).reachable = true)
    (hexp : (st.explored nIx.ix).explored = true) :
    st.explored (selectReference ix cfg st (st.explored nIx.ix) dc).ix.ix
      = selectReference ix cfg st (st.explored nIx.ix) dc ∧
    (selectReference ix cfg st (st.explored nIx.ix) dc).reachable = true ∧
    (selectReference ix cfg st (st.explored nIx.ix) dc).explored = true := by
  have hres : st.explored (st.explored nIx.ix).ix.ix = st.explored nIx.ix := by
    rw [hR.1 nIx.ix]
  simp only [selectReference]
  split_ifs with h1 h2
  · exact ⟨hres, hreach, hexp⟩
  · obtain ⟨hsome, -⟩ := h1
    obtain ⟨r0, hr0⟩ := Option.isSome_iff_exists.mp hsome
    have htar := hR.2 nIx.ix r0 hr0
    rw [hr0]
    have hres0 : st.explored (st.explored r0.ix).ix.ix = st.explored r0.ix := by
      rw [hR.1 r0.ix]
    exact ⟨hres0, htar.1, htar.2⟩
  · exact ⟨hres, hreach, hexp⟩

theorem updateOneCommit_refPost {cfg : SearchConfig} (reference : Node)
    (ix : GridIx) (s : SearchState)
    (hres : s.explored reference.ix.ix = reference)
    (hreach : reference.reachable = true) (hexp : reference.explored = true)
    (hR : refOK s.explored) (huex : (s.explored ix.ix).explored = false) :
    RefPost s (updateOneCommit reference ix cfg s) := by
  simp only [updateOneCommit]
  cases hegr : (getEffectiveGlideRatioFromTo cfg.query ix.pos
      reference.ix.pos).egr with
  | none => exact RefPost_refl s hR
  | some gr =>
    refine commit_branch_refPost s ix _ _ (fun nd => rfl) (fun nd => rfl)
      hR huex ?_
    intro r hr
    have hm := slr_ok hR (chainFuel cfg) ix reference hres hreach hexp
    have hrix : r = (getStraightLineRef (chainFuel cfg) ix reference
        s.explored).ix := (Option.some.inj hr).symm
    subst hrix
    rw [hm.1]
    exact ⟨hm.2.1, hm.2.2⟩

theorem updateOneNeighbor_refPost {cfg : SearchConfig} (nIx ix : GridIx)
    (s : SearchState) (dc : Option Bool) (hR : refOK s.explored)
    (hexpN : (s.explored nIx.ix).explored = true)
    (huex : (s.explored ix.ix).explored = false) :
    RefPost s (updateOneNeighbor nIx ix cfg s dc) := by
  simp only [updateOneNeighbor]
  split_ifs with h1 h2
  · exact RefPost_refl s hR
  · exact RefPost_refl s hR
  · have hreach : (s.explored nIx.ix).reachable = true := by
      cases hb : (s.explored nIx.ix).reachable
      · exact absurd hb h1
      · rfl
    obtain ⟨c1, c2, c3⟩ := selectReference_ok hR ix nIx (dc.getD false) hreach hexpN
    exact updateOneCommit_refPost _ ix s c1 c2 c3 hR huex

theorem one_after_ref {cfg : SearchConfig} {s s1 : SearchState}
    (hpost : RefPost s s1) (nIx ix : GridIx) (dc : Option Bool)
    (hexpN : (s.explored nIx.ix).explored = true)
    (huex : (s.explored ix.ix).explored = false) :
    RefPost s (updateOneNeighbor nIx ix cfg s1 dc) :=
  RefPost_trans hpost (updateOneNeighbor_refPost nIx ix s1 dc hpost.1
    ((hpost.2 nIx.ix).trans hexpN) ((hpost.2 ix.ix).trans huex))

theorem refPathsIntersection_cases {ix1 ix2 rpi : GridIx}
    {ref1 ref2 : Option GridIx}
    (h : refPathsIntersection ix1 ref1 ix2 ref2 = some rpi) :
    ref1 = some rpi ∨ ref2 = some rpi := by
  unfold refPathsIntersection at h
  split_ifs at h with h1
  · exact Or.inl h
  · cases href1 : ref1 with
    | none =>
      rw [href1] at h
      cases href2 : ref2 with
      | none => rw [href2] at h; exact Option.noConfusion h
      | some b => rw [href2] at h; exact Option.noConfusion h
    | some a =>
      rw [href1] at h
      cases href2 : ref2 with
      | none => rw [href2] at h; exact Option.noConfusion h
      | some b =>
        rw [href2] at h
        simp only at h
        split_ifs at h
        · exact Or.inr h
        · exact Or.inl h

theorem updateTwoNeighbors_refPost {cfg : SearchConfig} (n1Ix n2Ix ix : GridIx)
    (s : SearchState) (hR : refOK s.explored)
    (hexp1 : (s.explored n1Ix.ix).explored = true)
    (hexp2 : (s.explored n2Ix.ix).explored = true)
    (huex : (s.explored ix.ix).explored = false) :
    RefPost s (updateTwoNeighbors n1Ix n2Ix ix cfg s) := by
  simp only [updateTwoNeighbors]
  split
  · split
    · next rpi hrpieq =>
        split
        · exact RefPost_refl s hR
        · split
          · exact RefPost_refl s hR
          · refine commit_branch_refPost s ix _ _ (fun nd => rfl) (fun nd => rfl)
              hR huex ?_
            intro r hr
            have hreq : rpi = r := Option.some.inj hr
            subst hreq
            rcases refPathsIntersection_cases hrpieq with hc | hc
            · exact hR.2 n1Ix.ix rpi hc
            · exact hR.2 n2Ix.ix rpi hc
    · exact one_after_ref
        (updateOneNeighbor_refPost n1Ix ix s (some true) hR hexp1 huex)
        n2Ix ix (some true) hexp2 huex
  · split
    · exact updateOneNeighbor_refPost n1Ix ix s none hR hexp1 huex
    · split
      · exact updateOneNeighbor_refPost n2Ix ix s none hR hexp2 huex
      · exact RefPost_refl s hR

theorem reachableOf_resident {ens : List GridIx} {s : SearchState}
    (hR : refOK s.explored)
    (hens : ∀ n ∈ ens, (s.explored n.ix).explored = true) :
    ∀ nd ∈ reachableOf ens s, s.explored nd.ix.ix = nd ∧
      nd.explored = true ∧ nd.reachable = true := by
  intro nd hnd
  unfold reachableOf at hnd
  have hmem := List.mem_of_mem_filter hnd
  have hreach := List.of_mem_filter hnd
  obtain ⟨x, hx, hxeq⟩ := List.mem_map.mp hmem
  subst hxeq
  refine ⟨by rw [hR.1 x.ix], hens x hx, hreach⟩

theorem updateThreeNeighbors_refPost {cfg : SearchConfig} (ens : List GridIx)
    (ix : GridIx) (s : SearchState) (hR : refOK s.explored)
    (hens : ∀ n ∈ ens, (s.explored n.ix).explored = true)
    (huex : (s.explored ix.ix).explored = false) :
    RefPost s (updateThreeNeighbors ens ix cfg s) := by
  have hresid := reachableOf_resident hR hens
  have hexpAt : ∀ nd ∈ reachableOf ens s,
      (s.explored nd.ix.ix).explored = true := by
    intro nd hnd
    obtain ⟨c1, c2, _⟩ := hresid nd hnd
    rw [c1]
    exact c2
  have hsortmem : ∀ nd ∈ sortByDistance (reachableOf ens s),
      nd ∈ reachableOf ens s := by
    intro nd hnd
    unfold sortByDistance at hnd
    exact (List.mergeSort_perm _ _).mem_iff.mp hnd
  have hsortlen : (sortByDistance (reachableOf ens s)).length
      = (reachableOf ens s).length := by
    unfold sortByDistance
    exact (List.mergeSort_perm _ _).length_eq
  simp only [updateThreeNeighbors]
  split_ifs with hl1 hl2 hl3 hr3 hr2 ho1 ho2
  · exact updateOneNeighbor_refPost _ ix s none hR
      (hexpAt _ (getD_mem _ 0 _ (by rw [hl1]; omega))) huex
  · exact updateTwoNeighbors_refPost _ _ ix s hR
      (hexpAt _ (getD_mem _ 0 _ (by rw [hl2]; omega)))
      (hexpAt _ (getD_mem _ 1 _ (by rw [hl2]; omega))) huex
  · exact one_after_ref (one_after_ref
      (updateOneNeighbor_refPost _ ix s none hR
        (hexpAt _ (hsortmem _ (getD_mem _ 0 _ (by rw [hsortlen, hl3]; omega))))
        huex)
      _ ix none
      (hexpAt _ (hsortmem _ (getD_mem _ 1 _ (by rw [hsortlen, hl3]; omega))))
      huex)
      _ ix none
      (hexpAt _ (hsortmem _ (getD_mem _ 2 _ (by rw [hsortlen, hl3]; omega))))
      huex
  · exact one_after_ref (updateTwoNeighbors_refPost _ _ ix s hR
      (hexpAt _ (getD_mem _ 0 _ (by rw [hl3]; omega)))
      (hexpAt _ (getD_mem _ 1 _ (by rw [hl3]; omega))) huex)
      _ ix none (hexpAt _ (getD_mem _ 2 _ (by rw [hl3]; omega))) huex
  · exact one_after_ref (updateTwoNeighbors_refPost _ _ ix s hR
      (hexpAt _ (getD_mem _ 0 _ (by rw [hl3]; omega)))
      (hexpAt _ (getD_mem _ 2 _ (by rw [hl3]; omega))) huex)
      _ ix none (hexpAt _ (getD_mem _ 1 _ (by rw [hl3]; omega))) huex
  · exact one_after_ref (updateTwoNeighbors_refPost _ _ ix s hR
      (hexpAt _ (getD_mem _ 1 _ (by rw [hl3]; omega)))
      (hexpAt _ (getD_mem _ 2 _ (by rw [hl3]; omega))) huex)
      _ ix none (hexpAt _ (getD_mem _ 0 _ (by rw [hl3]; omega))) huex
  · exact RefPost_refl s hR
  · exact RefPost_refl s hR

theorem updateFourNeighbors_refPost {cfg : SearchConfig} (ens : List GridIx)
    (ix : GridIx) (s : SearchState) (hR : refOK s.explored)
    (hens : ∀ n ∈ ens, (s.explored n.ix).explored = true)
    (huex : (s.explored ix.ix).explored = false) :
    RefPost s (updateFourNeighbors ens ix cfg s) := by
  have hresid := reachableOf_resident hR hens
  have hexpAt : ∀ nd ∈ reachableOf ens s,
      (s.explored nd.ix.ix).explored = true := by
    intro nd hnd
    obtain ⟨c1, c2, _⟩ := hresid nd hnd
    rw [c1]
    exact c2
  have hsortmem : ∀ nd ∈ sortByDistance (reachableOf ens s),
      nd ∈ reachableOf ens s := by
    intro nd hnd
    unfold sortByDistance at hnd
    exact (List.mergeSort_perm _ _).mem_iff.mp hnd
  have hsortlen : (sortByDistance (reachableOf ens s)).length
      = (reachableOf ens s).length := by
    unfold sortByDistance
    exact (List.mergeSort_perm _ _).length_eq
  simp only [updateFourNeighbors]
  by_cases h0 : (reachableOf ens s).length = 0
  · rw [if_pos h0]
    refine commit_branch_refPost s ix _ _ (fun nd => rfl) (fun nd => rfl)
      hR huex ?_
    intro r hr
    exact Option.noConfusion hr
  · rw [if_neg h0]
    split_ifs with h4 h44 hrs
    · exact updateThreeNeighbors_refPost ens ix s hR hens huex
    · exact updateOneNeighbor_refPost _ ix s none hR
        (hexpAt _ (hsortmem _ (getD_mem _ 0 _ (by rw [hsortlen, h44]; omega))))
        huex
    · exact RefPost_refl s hR
    · exact RefPost_refl s hR

theorem exploredNbrs_explored (cfg : SearchConfig) (st : SearchState)
    (ix : GridIx) :
    ∀ n ∈ exploredNbrs ix cfg st, (st.explored n.ix).explored = true := by
  intro n hn
  unfold exploredNbrs at hn
  exact (List.mem_filter.mp hn).2

theorem updateNode_refPost (cfg : SearchConfig) (ix : GridIx) (s : SearchState)
    (hR : refOK s.explored) (huex : (s.explored ix.ix).explored = false) :
    RefPost s (updateNode ix cfg s) := by
  have hens := exploredNbrs_explored cfg s ix
  simp only [updateNode]
  split_ifs with hl1 hl2 hl3 hl4
  · exact updateOneNeighbor_refPost _ ix s none hR
      (hens _ (getD_mem _ 0 _ (by rw [hl1]; omega))) huex
  · exact updateTwoNeighbors_refPost _ _ ix s hR
      (hens _ (getD_mem _ 0 _ (by rw [hl2]; omega)))
      (hens _ (getD_mem _ 1 _ (by rw [hl2]; omega))) huex
  · exact updateThreeNeighbors_refPost _ ix s hR hens huex
  · exact updateFourNeighbors_refPost _ ix s hR hens huex
  · exact RefPost_refl s hR

theorem relaxFold_refPost {cfg : SearchConfig} :
    ∀ (l : List GridIx) (s : SearchState), refOK s.explored →
      RefPost s (l.foldl (fun s2 n =>
        if (s2.explored n.ix).explored = true then s2
        else updateNode n cfg s2) s) := by
  intro l
  induction l with
  | nil => intro s h; exact RefPost_refl s h
  | cons n rest ih =>
    intro s h
    rw [List.foldl_cons]
    by_cases hex : (s.explored n.ix).explored = true
    · rw [if_pos hex]
      exact ih s h
    · rw [if_neg hex]
      have hU : (s.explored n.ix).explored = false := by
        cases hb : (s.explored n.ix).explored
        · rfl
        · exact absurd hb hex
      have p1 := updateNode_refPost cfg n s h hU
      exact RefPost_trans p1 (ih _ p1.1)

theorem searchIter_refOK {cfg : SearchConfig} {st : SearchState}
    (first : PQ.HeapNode ℝ GridIx) (q' : PQ.PQueue ℝ GridIx)
    (hR : refOK st.explored) :
    refOK (searchIter cfg first { st with queue := q' }).explored := by
  have hiter : searchIter cfg first { st with queue := q' }
      = (getNeighborIndices first.key cfg.grid).foldl
          (fun s2 n => if (s2.explored n.ix).explored = true then s2
            else updateNode n cfg s2)
          { explored := markExplored st.explored first.key, queue := q' } := rfl
  rw [hiter]
  exact (relaxFold_refPost (getNeighborIndices first.key cfg.grid)
    { explored := markExplored st.explored first.key, queue := q' }
    (refOK_mark hR first.key)).1

theorem searchLoop_refOK (cfg : SearchConfig) :
    ∀ (fuel : ℕ) (st st' : SearchState), refOK st.explored →
      searchLoop cfg fuel st = some st' → refOK st'.explored := by
  intro fuel
  induction fuel with
  | zero =>
    intro st st' h hloop
    have hloop' : (match st.queue.pop with
        | none => some st
        | some _ => (none : Option SearchState)) = some st' := hloop
    cases hpop : st.queue.pop with
    | none =>
      rw [hpop] at hloop'
      cases hloop'
      exact h
    | some p =>
      rw [hpop] at hloop'
      exact Option.noConfusion hloop'
  | succ fuel ih =>
    intro st st' h hloop
    rw [searchLoop_succ_eq] at hloop
    cases hpop : st.queue.pop with
    | none =>
      rw [hpop] at hloop
      cases hloop
      exact h
    | some p =>
      obtain ⟨first, q'⟩ := p
      rw [hpop] at hloop
      exact ih _ st' (searchIter_refOK first q' h) hloop

theorem initState_refOK (start : ℕ × ℕ) (height : ℝ) (cfg : SearchConfig) :
    refOK (initState start height cfg).explored := by
  have hres : (initState start height cfg).explored
      = exploredSet (gridMapNew cfg.grid.shape) (fromGrid start cfg.grid.shape)
          { height := height, ix := fromGrid start cfg.grid.shape,
            reference := none, distance := 0, reachable := true,
            explored := false } := rfl
  rw [hres]
  constructor
  · intro i
    unfold exploredSet
    by_cases hi : i = (fromGrid start cfg.grid.shape).ix
    · rw [if_pos hi, hi]
    · rw [if_neg hi]
      rfl
  · intro i r hr
    unfold exploredSet at hr
    by_cases hi : i = (fromGrid start cfg.grid.shape).ix
    · rw [if_pos hi] at hr
      exact Option.noConfusion hr
    · rw [if_neg hi] at hr
      exact Option.noConfusion hr

end Srch

/-- C9: in every state the search produces, each stored reference points at a
cell whose record is reachable and explored — relaxation never commits via an
unreachable neighbour or ancestor, and (by induction along the pointers) every
reference chain consists solely of reachable explored nodes. -/
theorem claim_c9_references_reachable (fuel : ℕ) (start : ℕ × ℕ) (height : ℝ)
    (cfg : Srch.SearchConfig) (st' : Srch.SearchState)
    (hrun : Srch.searchF fuel start height cfg = some st') :
    ∀ (i : ℕ) (r : Srch.GridIx), (st'.explored i).reference = some r →
      (st'.explored r.ix).reachable = true ∧
      (st'.explored r.ix).explored = true := by
  have hR := Srch.searchLoop_refOK cfg fuel _ st'
    (Srch.initState_refOK start height cfg) hrun
  exact hR.2

/-- Witness for C9: the trivial 1×1-grid search, which terminates immediately,
satisfies the reference property in its final state. -/
theorem claim_c9_references_reachable_witness :
    Srch.searchF 1 (0, 0) 10 Srch.cfg11 = some Srch.c9res ∧
    (∀ (i : ℕ) (r : Srch.GridIx),
      (Srch.c9res.explored i).reference = some r →
      (Srch.c9res.explored r.ix).reachable = true ∧
      (Srch.c9res.explored r.ix).explored = true) :=
  ⟨rfl, claim_c9_references_reachable 1 (0, 0) 10 Srch.cfg11 Srch.c9res rfl⟩

end
